import Mathlib

/-!
# basicnn: a shallow embedding of the activation, neuron and network code

The code is embedded over a type `α` of values with the arithmetic operations of
Go `float64`.  The statements on the formulas are read with `α` a field (`ℝ`, or
`ℚ` where they are evaluated); the statements on overflow and NaN are read with
`α` the type `Float64` of the binary64 values, with their rounded arithmetic.
`math.Exp` is a library function and is passed to `Sigmoid` as the parameter
`exp`.

Go slices are modelled by `List α`, as values, where no two slices in play share
memory (the slices of the neurons of a network are made by the package itself).
`NewNeuron` keeps the slices of its caller, so for a single neuron the update is
also embedded on slices that are windows on the arrays of a memory (`Shared`).
A run-time panic (an index out of range) is the outer `none` of an `Option`
result; a Go `error` value is an inner `Option String` (`none` is `nil`).

The global `math/rand` source is modelled by the sequence of the values its
next calls return, passed explicitly through the operations that draw from it.

The neurons a network points to are held by value in the network; an operation
on a neuron through its pointer is the replacement of that neuron in the
network.  A division by a zero count of neurons, whose float64 quotient (NaN or
an infinity) a field does not have, ends a run like a panic; no network built by
NewNetwork divides by zero.
-/

namespace basicnn

section Code

variable {α : Type} [Zero α] [One α] [NatCast α] [Add α] [Sub α] [Mul α] [Div α] [Neg α]

/-! ## Sigmoid.go -/

/-- Sigmoid - sigmoid function: `float64(1) / (1 + (math.Exp(-x)))`. -/
def Sigmoid (exp : α → α) (x : α) : α :=
  1 / (1 + exp (-x))

/-- DerivedSigmoid - derivative of sigmoid: `sigmoid * (1 - sigmoid)`. -/
def DerivedSigmoid (sigmoid : α) : α :=
  sigmoid * (1 - sigmoid)

/-! ## The random source -/

/-- State of the `math/rand` source: `r k` is the value the `k`-th next call of
`rand.Float64()` returns. -/
abbrev RandSource (α : Type) := Nat → α

/-- One call of `rand.Float64()`: the value drawn and the source afterwards. -/
def randFloat64 (r : RandSource α) : α × RandSource α :=
  (r 0, fun k => r (k + 1))

/-- The documented range of `rand.Float64()`: every value lies in `[0.0,1.0)`. -/
def RandSource.InUnit {β : Type} [LinearOrderedField β] (r : RandSource β) : Prop :=
  ∀ k, 0 ≤ r k ∧ r k < 1

/-! ## Slices -/

/-- Go `xs[i] = v`: in-place store, a panic (`none`) when `i` is out of range. -/
def setAt? (xs : List α) (i : Nat) (v : α) : Option (List α) :=
  if i < xs.length then some (xs.set i v) else none

/-- Go `make([]float64, n)`: `n` zero values. -/
def makeFloats (n : Nat) : List α :=
  List.replicate n 0

/-! ## Neuron.go -/

/-- Neuron - neuron representative in the neural network. -/
structure Neuron (α : Type) where
  Inputs : List α
  Weights : List α
  Bias : α
  Output : α
  IsOutput : Bool
  DerivativeWeights : List α
  DerivativeInputs : List α
  DerivativeBias : α
deriving DecidableEq, Repr

/-- NewNeuronInput - input for NewNeuron(). -/
structure NewNeuronInput (α : Type) where
  Inputs : List α
  Weights : List α
  Bias : α
  IsOutput : Bool
deriving DecidableEq, Repr

/-- NewNeuron - creates a new neuron; `Output` and `DerivativeBias` take the
zero value. -/
def NewNeuron (input : NewNeuronInput α) : Neuron α :=
  { Inputs := input.Inputs
    Weights := input.Weights
    Bias := input.Bias
    Output := 0
    IsOutput := input.IsOutput
    DerivativeWeights := makeFloats input.Weights.length
    DerivativeInputs := makeFloats input.Inputs.length
    DerivativeBias := 0 }

/-- The loop `for i := 0; i < len(inputs); i++ { weights = append(weights, rand.Float64()) }`
of SetInputs, run for `count` iterations from the slice `weights`. -/
def drawWeights (count : Nat) (weights : List α) (r : RandSource α) : List α × RandSource α :=
  (List.range count).foldl
    (fun (st : List α × RandSource α) _ =>
      let d := randFloat64 st.2
      (st.1 ++ [d.1], d.2))
    (weights, r)

/-- SetInputs - set inputs for a given neuron. -/
def SetInputs (n : Neuron α) (inputs : List α) (r : RandSource α) : Neuron α × RandSource α :=
  let n1 := { n with Inputs := inputs, DerivativeInputs := makeFloats inputs.length }
  if n1.Weights.length ≠ inputs.length then
    let w := drawWeights inputs.length [] r
    ({ n1 with Weights := w.1, DerivativeWeights := makeFloats w.1.length }, w.2)
  else
    (n1, r)

/-- The error FeedForward returns. -/
def errMismatch : String := "mismatched length: input and weight"

/-- The loop `for i, input := range n.Inputs { weight := n.Weights[i]; total += weight * input }`
of FeedForward, over the inputs numbered from `start`. -/
def feedTotal (weights : List α) (total : α) (start : Nat) (inputs : List α) : Option α :=
  (inputs.enumFrom start).foldlM
    (fun total (p : Nat × α) => do
      let weight ← weights[p.1]?
      pure (total + weight * p.2))
    total

/-- FeedForward - function to feed the activation function to the next layer.
The result is the neuron afterwards, the returned value and the returned error. -/
def FeedForward (exp : α → α) (n : Neuron α) : Option (Neuron α × α × Option String) :=
  if n.Inputs.length ≠ n.Weights.length then
    some (n, 0, some errMismatch)
  else do
    let total ← feedTotal n.Weights n.Bias 0 n.Inputs
    let n1 := { n with Output := Sigmoid exp total }
    pure (n1, n1.Output, none)

/-- calculateAndStoreDerivativesWeights - calculates and store each weights'
derivative for back propagation. Formula: input * DerivedSigmoid(output). -/
def calculateAndStoreDerivativesWeights (n : Neuron α) : Option (Neuron α) :=
  let dOut := DerivedSigmoid n.Output
  (List.range n.Weights.length).foldlM
    (fun (n : Neuron α) index =>
      if n.Inputs.length > index then do
        let input ← n.Inputs[index]?
        let dw ← setAt? n.DerivativeWeights index (input * dOut)
        pure { n with DerivativeWeights := dw }
      else
        pure n)
    n

/-- calculateAndStoreDerivativesInputs - calculates and store each inputs'
derivative for back propagation. Formula: weight * DerivedSigmoid(output). -/
def calculateAndStoreDerivativesInputs (n : Neuron α) : Option (Neuron α) :=
  let dOut := DerivedSigmoid n.Output
  (List.range n.Inputs.length).foldlM
    (fun (n : Neuron α) index => do
      let weight ← n.Weights[index]?
      let di ← setAt? n.DerivativeInputs index (weight * dOut)
      pure { n with DerivativeInputs := di })
    n

/-- calculateAndStoreDerivativesBias - calculates and store the derivative of
the neuron's bias for back propagation. Formula: DerivedSigmoid(output). -/
def calculateAndStoreDerivativesBias (n : Neuron α) : Neuron α :=
  { n with DerivativeBias := DerivedSigmoid n.Output }

/-- CalculateAndStoreDerivatives - calculates and store derivatives for back
propagation: weights, inputs, bias. -/
def CalculateAndStoreDerivatives (n : Neuron α) : Option (Neuron α) := do
  let n1 ← calculateAndStoreDerivativesWeights n
  let n2 ← calculateAndStoreDerivativesInputs n1
  pure (calculateAndStoreDerivativesBias n2)

/-- calculateAdjustmentForWeightOrBias - calculates the adjustment for bias or
weight. -/
def calculateAdjustmentForWeightOrBias (n : Neuron α) (learnRate derivativeY derivativeOutput
    derivedValue : α) : α :=
  if n.IsOutput then
    learnRate * derivativeY * derivedValue
  else
    learnRate * derivativeY * derivativeOutput * derivedValue

/-- updateWeights - updates the weights based on the feedback from back
propagation: `n.Weights[i] -= adjustment(..., n.DerivativeWeights[i])`. The store
changes the value of Weights alone, as it does when Weights shares no memory with
another slice; `Shared.updateWeights` is the same loop with the stores made in a
memory. -/
def updateWeights (n : Neuron α) (learnRate deltaY deltaOutput : α) : Option (Neuron α) :=
  (List.range n.Weights.length).foldlM
    (fun (n : Neuron α) i => do
      let dw ← n.DerivativeWeights[i]?
      let w ← n.Weights[i]?
      let ws ← setAt? n.Weights i
        (w - calculateAdjustmentForWeightOrBias n learnRate deltaY deltaOutput dw)
      pure { n with Weights := ws })
    n

/-- updateBias - updates the bias based on the feedback from back propagation. -/
def updateBias (n : Neuron α) (learnRate deltaY deltaOutput : α) : Neuron α :=
  { n with Bias := n.Bias -
      calculateAdjustmentForWeightOrBias n learnRate deltaY deltaOutput n.DerivativeBias }

/-- UpdateWeightsAndBias - updates weights and bias for the current epoch based
on the feedback from back propagation. -/
def UpdateWeightsAndBias (n : Neuron α) (learnRate deltaY deltaOutput : α) :
    Option (Neuron α) := do
  let n1 ← updateWeights n learnRate deltaY deltaOutput
  pure (updateBias n1 learnRate deltaY deltaOutput)

/-! ## FeedForward -/

/-- The value FeedForward computes: `Sigmoid(Bias + Σ Weights[i] * Inputs[i])`. -/
def weightedSum (n : Neuron α) : α :=
  n.Bias + (List.zipWith (fun w x => w * x) n.Weights n.Inputs).sum

/-! ## Network.go -/

/-- Modelled from the spec: the declaration of the type `Data` is not among the
sources; the spec gives a sample as the pair (variables: ordered sequence of
float, output: float), and Network.go reads `data.Variables` and `data.Output`. -/
structure Data (α : Type) where
  Variables : List α
  Output : α
deriving DecidableEq, Repr

/-- Network - the neural network. The neurons the Go slices point to are held
by value; no neuron belongs to two places of a network. -/
structure Network (α : Type) where
  learnRate : α
  layers : List (List (Neuron α))
  prediction : Neuron α
deriving DecidableEq, Repr

/-- NewNetworkInput - input for NewNetwork(); `Depth` and `NeuronPerLayer` are
Go `int`s. -/
structure NewNetworkInput (α : Type) where
  Depth : Int
  NeuronPerLayer : Int
  LearningRate : α
deriving DecidableEq, Repr

/-- The loop `for j := 1; j <= input.NeuronPerLayer; j++` of NewNetwork: one
layer of neurons with nil inputs and weights and a drawn bias. -/
def newLayer (neuronPerLayer : Int) (r : RandSource α) : List (Neuron α) × RandSource α :=
  (List.range neuronPerLayer.toNat).foldl
    (fun (st : List (Neuron α) × RandSource α) _ =>
      let d := randFloat64 st.2
      (st.1 ++ [NewNeuron ⟨[], [], d.1, false⟩], d.2))
    ([], r)

/-- NewNetwork - creates a new neural network. -/
def NewNetwork (input : NewNetworkInput α) (r : RandSource α) : Network α × RandSource α :=
  let ls := (List.range input.Depth.toNat).foldl
    (fun (st : List (List (Neuron α)) × RandSource α) _ =>
      let l := newLayer input.NeuronPerLayer st.2
      (st.1 ++ [l.1], l.2))
    ([], r)
  let d := randFloat64 ls.2
  ({ layers := ls.1
     prediction := NewNeuron ⟨[], [], d.1, true⟩
     learnRate := input.LearningRate }, d.2)

/-- The loop `for _, neuron := range layer { inputs = append(inputs, neuron.Output) }`. -/
def collectOutputs (layer : List (Neuron α)) : List α :=
  layer.foldl (fun inputs neuron => inputs ++ [neuron.Output]) []

/-- The pair `neuron.SetInputs(inputs); neuron.FeedForward()` of feedForward: the
neuron and the random source afterwards, and the error FeedForward returned,
which the caller drops. -/
def feedNeuron (exp : α → α) (inputs : List α) (neuron : Neuron α) (r : RandSource α) :
    Option (Neuron α × RandSource α × Option String) := do
  let s := SetInputs neuron inputs r
  let f ← FeedForward exp s.1
  pure (f.1, s.2, f.2.2)

/-- The loop `for _, neuron := range layer { neuron.SetInputs(inputs); neuron.FeedForward() }`. -/
def feedLayer (exp : α → α) (inputs : List α) (layer : List (Neuron α)) (r : RandSource α) :
    Option (List (Neuron α) × RandSource α) :=
  layer.foldlM
    (fun (st : List (Neuron α) × RandSource α) neuron => do
      let f ← feedNeuron exp inputs neuron st.2
      pure (st.1 ++ [f.1], f.2.1))
    ([], r)

/-- The body of the loop `for lIndex, layer := range n.layers` of feedForward, on
the current network and random source. -/
def feedForwardStep (exp : α → α) (data : Data α) (st : Network α × RandSource α)
    (lIndex : Nat) : Option (Network α × RandSource α) := do
  let layer ← st.1.layers[lIndex]?
  let inputs ←
    if lIndex = 0 then some data.Variables
    else (st.1.layers[lIndex - 1]?).map collectOutputs
  let fl ← feedLayer exp inputs layer st.2
  let n1 := { st.1 with layers := st.1.layers.set lIndex fl.1 }
  if lIndex = n1.layers.length - 1 then do
    let p ← feedNeuron exp (collectOutputs fl.1) n1.prediction fl.2
    pure ({ n1 with prediction := p.1 }, p.2.1)
  else
    pure (n1, fl.2)

/-- feedForward - performs a feed forward and get the final output from the
output neuron. The result is the returned value, the network and the random
source afterwards. -/
def feedForward (exp : α → α) (n : Network α) (data : Data α) (r : RandSource α) :
    Option (α × Network α × RandSource α) := do
  let st ← (List.range n.layers.length).foldlM (feedForwardStep exp data) (n, r)
  pure (st.1.prediction.Output, st.1, st.2)

/-- Predict - predicts a data output based on the variables; it only calls
feedForward(data). -/
def Predict (exp : α → α) (n : Network α) (data : Data α) (r : RandSource α) :
    Option (α × Network α × RandSource α) :=
  feedForward exp n data r

/-- One round `layer := n.layers[i]; for ... range layer { ... }` of the two
loops that walk the layers backwards: `body` gives the neurons of the layer
after the inner loop. -/
def updateLayerAt (body : Network α → Nat → List (Neuron α) → Option (List (Neuron α)))
    (st : Network α) (i : Nat) : Option (Network α) := do
  let layer ← st.layers[i]?
  let layer1 ← body st i layer
  pure { st with layers := st.layers.set i layer1 }

/-- The loop `for i := len(n.layers) - 1; i >= 0; i--` of backPropagate and of
adjustNeuronsWeightsAndBias. -/
def reverseLayers (body : Network α → Nat → List (Neuron α) → Option (List (Neuron α)))
    (n : Network α) : Option (Network α) :=
  (List.range n.layers.length).reverse.foldlM (updateLayerAt body) n

/-- backPropagate - performs a back propagation; starts backwards (output layer
-> first hidden layer). -/
def backPropagate (n : Network α) : Option (Network α) := do
  let p ← CalculateAndStoreDerivatives n.prediction
  reverseLayers (fun _ _ layer => layer.mapM CalculateAndStoreDerivatives)
    { n with prediction := p }

/-- deltaY calculate derivative of error in respect of predictions:
`-2.0 * (data.Output - n.prediction.Output)`. -/
def deltaY (n : Network α) (data : Data α) : α :=
  -2 * (data.Output - n.prediction.Output)

/-- The mean of derivatives from all neurons from the next layer:
`derivativeOutput = 0.0; for ... range n.layers[i+1] { derivativeOutput += neuron.DerivativeInputs[j] };
derivativeOutput /= float64(len(n.layers[i+1]))`. A zero divisor, whose float64
quotient (NaN or an infinity) a field does not have, ends the run like a
panic (`none`). -/
def meanDerivativeInputs (next : List (Neuron α)) (j : Nat) : Option α := do
  let derivativeOutput ← next.foldlM
    (fun (derivativeOutput : α) (neuron : Neuron α) => do
      let d ← neuron.DerivativeInputs[j]?
      pure (derivativeOutput + d))
    0
  if next.length = 0 then none else pure (derivativeOutput / (next.length : α))

/-- The value of `derivativeOutput` for the neuron of index `j` of the layer of
index `i`: `n.prediction.DerivativeInputs[j]` if the layer is directly before
the output layer, otherwise the mean of derivatives from the next layer. -/
def derivativeOutputOf (n : Network α) (i j : Nat) : Option α :=
  if i = n.layers.length - 1 then n.prediction.DerivativeInputs[j]?
  else do
    let next ← n.layers[i + 1]?
    meanDerivativeInputs next j

/-- The loop `for j, neuron := range layer` of adjustNeuronsWeightsAndBias for the
layer of index `i`; it reads the output neuron and the layer `i+1` of `n`, which
it does not change, and updates the neurons of the layer. -/
def adjustLayer (derivativeY : α) (n : Network α) (i : Nat) (layer : List (Neuron α)) :
    Option (List (Neuron α)) :=
  layer.enum.mapM
    (fun (p : Nat × Neuron α) => do
      let derivativeOutput ← derivativeOutputOf n i p.1
      UpdateWeightsAndBias p.2 n.learnRate derivativeY derivativeOutput)

/-- adjustNeuronsWeightsAndBias - updates weights and bias values for each
neuron; starts backwards (output layer -> first hidden layer). -/
def adjustNeuronsWeightsAndBias (n : Network α) (data : Data α) : Option (Network α) := do
  let derivativeY := deltaY n data
  let p ← UpdateWeightsAndBias n.prediction n.learnRate derivativeY 0
  reverseLayers (adjustLayer derivativeY) { n with prediction := p }

/-- singleEpoch - a single epoch of training: feed forward, back propagation,
adjusting weights and bias. -/
def singleEpoch (exp : α → α) (n : Network α) (data : Data α) (r : RandSource α) :
    Option (Network α × RandSource α) := do
  let f ← feedForward exp n data r
  let b ← backPropagate f.2.1
  let a ← adjustNeuronsWeightsAndBias b data
  pure (a, f.2.2)

/-- Train - trains a network [epoch] times based on a dataset []Data:
`for i := 1; i <= epoch; i++ { for _, data := range dataset { n.singleEpoch(data) } }`. -/
def Train (exp : α → α) (epoch : Int) (dataset : List (Data α)) (n : Network α)
    (r : RandSource α) : Option (Network α × RandSource α) :=
  (List.range epoch.toNat).foldlM
    (fun (st : Network α × RandSource α) _ =>
      dataset.foldlM
        (fun (st : Network α × RandSource α) data => singleEpoch exp st.1 data st.2)
        st)
    (n, r)

/-! ## Neuron.go on slices that share memory

`NewNeuron` keeps the slices of its caller and `updateWeights` stores through
`n.Weights` in place.  To follow a store that is seen through another slice, a
slice is here a window on a backing array of a memory, and the neuron holds the
slice values, as the Go struct does. -/

/-- The float64 arrays behind the slices, by identity: the array `a` is `m[a]`. -/
abbrev Memory (α : Type) := List (List α)

/-- A Go slice value: the `len` elements from position `off` of the backing
array `arr`. -/
structure Slice where
  arr : Nat
  off : Nat
  len : Nat
deriving DecidableEq, Repr

/-- Go `s[i]` read: the element at `off + i` of the backing array, a panic
(`none`) when `i` is out of range. -/
def Slice.get? (m : Memory α) (s : Slice) (i : Nat) : Option α :=
  if i < s.len then (m[s.arr]?).bind (fun a => a[s.off + i]?) else none

/-- Go `s[i] = v`: the store at `off + i` of the backing array, a panic (`none`)
when `i` is out of range. -/
def Slice.set? (m : Memory α) (s : Slice) (i : Nat) (v : α) : Option (Memory α) :=
  if i < s.len then
    (m[s.arr]?).bind (fun a => (setAt? a (s.off + i) v).map (fun a1 => m.set s.arr a1))
  else none

/-- The elements seen through a slice, in order. -/
def Slice.toList (m : Memory α) (s : Slice) : List α :=
  (((m[s.arr]?).getD []).drop s.off).take s.len

/-- Go `make([]float64, n)`: a slice on a new array of `n` zero values. -/
def Memory.make (m : Memory α) (n : Nat) : Slice × Memory α :=
  (⟨m.length, 0, n⟩, m ++ [makeFloats n])

namespace Shared

/-- Neuron - the struct of Neuron.go, with its four slice values. -/
structure Neuron (α : Type) where
  Inputs : Slice
  Weights : Slice
  Bias : α
  Output : α
  IsOutput : Bool
  DerivativeWeights : Slice
  DerivativeInputs : Slice
  DerivativeBias : α
deriving DecidableEq, Repr

/-- NewNeuronInput - input for NewNeuron(). -/
structure NewNeuronInput (α : Type) where
  Inputs : Slice
  Weights : Slice
  Bias : α
  IsOutput : Bool
deriving DecidableEq, Repr

/-- NewNeuron - creates a new neuron: the slices of the input are kept as they
are, the two derivative slices are made new. -/
def NewNeuron (m : Memory α) (input : NewNeuronInput α) : Neuron α × Memory α :=
  let dw := Memory.make m input.Weights.len
  let di := Memory.make dw.2 input.Inputs.len
  ({ Inputs := input.Inputs
     Weights := input.Weights
     Bias := input.Bias
     Output := 0
     IsOutput := input.IsOutput
     DerivativeWeights := dw.1
     DerivativeInputs := di.1
     DerivativeBias := 0 }, di.2)

/-- calculateAdjustmentForWeightOrBias - calculates the adjustment for bias or
weight. -/
def calculateAdjustmentForWeightOrBias (n : Neuron α) (learnRate derivativeY derivativeOutput
    derivedValue : α) : α :=
  if n.IsOutput then
    learnRate * derivativeY * derivedValue
  else
    learnRate * derivativeY * derivativeOutput * derivedValue

/-- updateWeights - `for i := range n.Weights { n.Weights[i] -= adjustment(..., n.DerivativeWeights[i]) }`,
each store made in the memory. -/
def updateWeights (m : Memory α) (n : Neuron α) (learnRate deltaY deltaOutput : α) :
    Option (Memory α) :=
  (List.range n.Weights.len).foldlM
    (fun (m : Memory α) i => do
      let dw ← n.DerivativeWeights.get? m i
      let w ← n.Weights.get? m i
      n.Weights.set? m i
        (w - calculateAdjustmentForWeightOrBias n learnRate deltaY deltaOutput dw))
    m

/-- updateBias - updates the bias based on the feedback from back propagation. -/
def updateBias (n : Neuron α) (learnRate deltaY deltaOutput : α) : Neuron α :=
  { n with Bias := n.Bias -
      calculateAdjustmentForWeightOrBias n learnRate deltaY deltaOutput n.DerivativeBias }

/-- UpdateWeightsAndBias - updates weights and bias: the memory and the neuron
afterwards. -/
def UpdateWeightsAndBias (m : Memory α) (n : Neuron α) (learnRate deltaY deltaOutput : α) :
    Option (Memory α × Neuron α) := do
  let m1 ← updateWeights m n learnRate deltaY deltaOutput
  pure (m1, updateBias n learnRate deltaY deltaOutput)

/-- The neuron read through its slices: the values of its four slices and its
other fields. -/
def Neuron.view (m : Memory α) (n : Neuron α) : basicnn.Neuron α :=
  { Inputs := n.Inputs.toList m
    Weights := n.Weights.toList m
    Bias := n.Bias
    Output := n.Output
    IsOutput := n.IsOutput
    DerivativeWeights := n.DerivativeWeights.toList m
    DerivativeInputs := n.DerivativeInputs.toList m
    DerivativeBias := n.DerivativeBias }

end Shared

/-- A slice lies within its backing array, as every slice of a Go program does;
a slice without element (`nil` among them) needs no array. -/
def Slice.Valid (m : Memory α) (s : Slice) : Prop :=
  s.len = 0 ∨ ∃ a, m[s.arr]? = some a ∧ s.off + s.len ≤ a.length

/-- Two slices share no element: one is empty, or they are on two arrays, or
their windows do not overlap. -/
def Slice.Separate (s t : Slice) : Prop :=
  s.len = 0 ∨ t.len = 0 ∨ s.arr ≠ t.arr ∨ s.off + s.len ≤ t.off ∨ t.off + t.len ≤ s.off

end Code

/-! ## float64

The arithmetic of Go `float64` values, IEEE 754 binary64 with rounding to
nearest, ties to even.  Every finite float64 is a whole multiple of `2^-1074`,
the smallest positive one, so a finite value is held as its sign and the number
of such units of its magnitude; the values from `2^1024` on, that is
`2^2098` units, are out of range. -/

/-- A float64 value: NaN, an infinity with its sign (`neg` for minus), or a finite
value with its sign and the count `k` of units `2^-1074` of its magnitude (the
two zeros are `fin false 0` and `fin true 0`). -/
inductive Float64 where
  | nan : Float64
  | inf (neg : Bool) : Float64
  | fin (neg : Bool) (k : Nat) : Float64
deriving DecidableEq, Repr

namespace Float64

/-- The number of binary digits of `n` (0 for 0), counted by shifting `n` to the
right at most `fuel` times, 64 digits at a time while `n` has more than 64. -/
def digits : Nat → Nat → Nat
  | 0, _ => 0
  | fuel + 1, n =>
    if n = 0 then 0
    else if n < 2 ^ 64 then digits fuel (n / 2) + 1
    else digits fuel (n / 2 ^ 64) + 64

/-- The whole number nearest to `num / (den * 2^s)`, the even one of the two
when `num / (den * 2^s)` lies half way. -/
def roundTo (s num den : Nat) : Nat :=
  let q := num / (den <<< s)
  let r := num % (den <<< s)
  if 2 * r < den <<< s then q
  else if den <<< s < 2 * r then q + 1
  else if q % 2 = 0 then q else q + 1

/-- The float64 nearest to the magnitude of `num / den` units, with the sign
`neg`: 53 significant binary digits are kept (all digits down to one unit below
`2^53` units), and a rounded magnitude of `2^2098` units or more is the infinity. -/
def round (neg : Bool) (num den : Nat) : Float64 :=
  let s := digits (num / den) (num / den) - 53
  let k := roundTo s num den <<< s
  if k < 1 <<< 2098 then fin neg k else inf neg

/-- Go `-x`. -/
def neg : Float64 → Float64
  | nan => nan
  | inf s => inf (!s)
  | fin s k => fin (!s) k

/-- Go `x + y`: the exact sum, rounded; two infinities of opposite signs give
NaN, and an exact sum zero is `+0` unless both terms are `-0`. -/
def add : Float64 → Float64 → Float64
  | nan, _ => nan
  | _, nan => nan
  | inf s, inf t => if s = t then inf s else nan
  | inf s, fin _ _ => inf s
  | fin _ _, inf t => inf t
  | fin s k, fin t l =>
    if s = t then round s (k + l) 1
    else if l < k then round s (k - l) 1
    else if k < l then round t (l - k) 1
    else fin false 0

/-- Go `x - y`, which is `x + (-y)`. -/
def sub (x y : Float64) : Float64 :=
  add x (neg y)

/-- Go `x * y`: the exact product, rounded; an infinity times a zero is NaN. -/
def mul : Float64 → Float64 → Float64
  | nan, _ => nan
  | _, nan => nan
  | inf s, inf t => inf (xor s t)
  | inf s, fin t l => if l = 0 then nan else inf (xor s t)
  | fin s k, inf t => if k = 0 then nan else inf (xor s t)
  | fin s k, fin t l => round (xor s t) (k * l) (1 <<< 1074)

/-- Go `x / y`: the exact quotient, rounded; `0/0` and `Inf/Inf` are NaN, another
finite value over zero is an infinity. -/
def div : Float64 → Float64 → Float64
  | nan, _ => nan
  | _, nan => nan
  | inf _, inf _ => nan
  | inf s, fin t _ => inf (xor s t)
  | fin s _, inf t => fin (xor s t) 0
  | fin s k, fin t l =>
    if l = 0 then (if k = 0 then nan else inf (xor s t))
    else round (xor s t) (k <<< 1074) l

/-- Go `float64(n)` for a non-negative integer `n`, and the constant `n`. -/
def ofNat (n : Nat) : Float64 :=
  round false (n <<< 1074) 1

/-- The value is neither NaN nor an infinity. -/
def isFinite : Float64 → Bool
  | fin _ _ => true
  | _ => false

/-- The value is a float64 of `[0.0,1.0)`, the range of `rand.Float64()`: not
negative, below `2^1074` units, and with no digit below its 53 leading ones. -/
def InUnit : Float64 → Prop
  | fin s k => s = false ∧ k < 1 <<< 1074 ∧ k % (1 <<< (digits k k - 53)) = 0
  | _ => False

end Float64

instance : Zero Float64 := ⟨Float64.fin false 0⟩

instance : One Float64 := ⟨Float64.fin false (1 <<< 1074)⟩

instance : NatCast Float64 := ⟨Float64.ofNat⟩

instance : Add Float64 := ⟨Float64.add⟩

instance : Sub Float64 := ⟨Float64.sub⟩

instance : Mul Float64 := ⟨Float64.mul⟩

instance : Div Float64 := ⟨Float64.div⟩

instance : Neg Float64 := ⟨Float64.neg⟩

/-- The range predicate of float64 values is decided by evaluation. -/
instance (x : Float64) : Decidable x.InUnit :=
  match x with
  | .nan => isFalse (fun h => h)
  | .inf _ => isFalse (fun h => h)
  | .fin s k =>
    inferInstanceAs
      (Decidable (s = false ∧ k < 1 <<< 1074 ∧ k % (1 <<< (Float64.digits k k - 53)) = 0))

variable {α : Type} [Field α]

/-! ## Predicates and closed forms used by the statements -/

/-- The length invariant of a neuron: its four slices Weights, Inputs,
DerivativeWeights and DerivativeInputs all have length `k`. -/
def Neuron.HasFanIn (n : Neuron α) (k : Nat) : Prop :=
  n.Weights.length = k ∧ n.Inputs.length = k ∧
    n.DerivativeWeights.length = k ∧ n.DerivativeInputs.length = k

/-- What `neuron.SetInputs(inputs); neuron.FeedForward()` leaves behind: the
neuron with its inputs set and its Output computed, and the random source. -/
def feedNeuronP (exp : α → α) (inputs : List α) (neuron : Neuron α) (r : RandSource α) :
    Neuron α × RandSource α :=
  let s := SetInputs neuron inputs r
  ({ s.1 with Output := Sigmoid exp (weightedSum s.1) }, s.2)

/-- What the forward pass leaves of one layer fed with `inputs`. -/
def feedLayerP (exp : α → α) (inputs : List α) :
    List (Neuron α) → RandSource α → List (Neuron α) × RandSource α
  | [], r => ([], r)
  | neuron :: rest, r =>
    let a := feedNeuronP exp inputs neuron r
    let b := feedLayerP exp inputs rest a.2
    (a.1 :: b.1, b.2)

/-- What the forward pass leaves of the hidden layers, the first of them fed
with `inputs`: the layers, the outputs of the last one (`inputs` when there is
no layer) and the random source. -/
def forwardP (exp : α → α) :
    List α → List (List (Neuron α)) → RandSource α →
      List (List (Neuron α)) × List α × RandSource α
  | inputs, [], r => ([], inputs, r)
  | inputs, layer :: rest, r =>
    let a := feedLayerP exp inputs layer r
    let b := forwardP exp (a.1.map (fun neuron => neuron.Output)) rest a.2
    (a.1 :: b.1, b.2.1, b.2.2)

/-- What feedForward leaves of the network, and the random source: nothing
changes without a hidden layer; otherwise the hidden layers are fed in order and
the output neuron is fed with the outputs of the last one. -/
def feedForwardP (exp : α → α) (n : Network α) (data : Data α) (r : RandSource α) :
    Network α × RandSource α :=
  if n.layers.length = 0 then (n, r)
  else
    let a := forwardP exp data.Variables n.layers r
    let p := feedNeuronP exp a.2.1 n.prediction a.2.2
    ({ n with layers := a.1, prediction := p.1 }, p.2)

/-- Reference multilayer perceptron, in the words of the spec: the value of one
unit with bias `b` and weights `w` on the values `prev` of the layer before,
`Sigmoid(b + Σ_k w_k * prev[k])`. -/
def mlpNeuron (exp : α → α) (prev : List α) (n : Neuron α) : α :=
  Sigmoid exp (n.Bias + (List.zipWith (fun w x => w * x) n.Weights prev).sum)

/-- Reference multilayer perceptron: the values of the last hidden layer,
`h0_j = mlpNeuron features`, `h(i)_j = mlpNeuron h(i-1)`. -/
def mlpHidden (exp : α → α) (features : List α) (layers : List (List (Neuron α))) : List α :=
  layers.foldl (fun prev layer => layer.map (mlpNeuron exp prev)) features

/-- Reference multilayer perceptron: the value of the output unit on the values
of the last hidden layer. -/
def mlpPredict (exp : α → α) (features : List α) (n : Network α) : α :=
  mlpNeuron exp (mlpHidden exp features n.layers) n.prediction

/-- The weights are bound to the right lengths: `fanIn` in the first of the
layers, the width of the layer before in every later layer and in the output
neuron `p`. -/
def boundFrom : Nat → List (List (Neuron α)) → Neuron α → Prop
  | fanIn, [], p => p.Weights.length = fanIn
  | fanIn, layer :: rest, p =>
    (∀ n ∈ layer, n.Weights.length = fanIn) ∧ boundFrom layer.length rest p

/-- The weights of the network are bound to the right lengths for feature
vectors of length `fanIn`. -/
def Network.Bound (n : Network α) (fanIn : Nat) : Prop :=
  boundFrom fanIn n.layers n.prediction

/-- What the forward pass leaves of a neuron whose weight count is the length
of `inputs`: no weight is drawn. -/
def fedNeuron (exp : α → α) (inputs : List α) (n : Neuron α) : Neuron α :=
  { n with
    Inputs := inputs
    DerivativeInputs := makeFloats inputs.length
    Output := mlpNeuron exp inputs n }

/-- What the forward pass leaves of hidden layers whose weights are bound. -/
def fedLayers (exp : α → α) : List α → List (List (Neuron α)) → List (List (Neuron α))
  | _, [] => []
  | inputs, layer :: rest =>
    layer.map (fedNeuron exp inputs) :: fedLayers exp (layer.map (mlpNeuron exp inputs)) rest

/-- The layers `l_0, l_1, ...` with `g (k + i)` applied to `l_i`. -/
def mapLayersFrom (g : Nat → List (Neuron α) → List (Neuron α)) :
    Nat → List (List (Neuron α)) → List (List (Neuron α))
  | _, [] => []
  | k, layer :: rest => g k layer :: mapLayersFrom g (k + 1) rest

/-- What CalculateAndStoreDerivatives stores in a neuron whose four slices have
the same length. -/
def casdP (n : Neuron α) : Neuron α :=
  { n with
    DerivativeWeights := n.Inputs.map (fun x => x * DerivedSigmoid n.Output)
    DerivativeInputs := n.Weights.map (fun w => w * DerivedSigmoid n.Output)
    DerivativeBias := DerivedSigmoid n.Output }

/-- What backPropagate leaves of the network. -/
def backP (n : Network α) : Network α :=
  { n with
    prediction := casdP n.prediction
    layers := n.layers.map (fun layer => layer.map casdP) }

/-- What UpdateWeightsAndBias leaves of a neuron with at least as many stored
weight derivatives as weights. -/
def updP (n : Neuron α) (learnRate deltaY deltaOutput : α) : Neuron α :=
  { n with
    Weights :=
      (List.zipWith (fun w dw =>
          w - calculateAdjustmentForWeightOrBias n learnRate deltaY deltaOutput dw)
        n.Weights n.DerivativeWeights)
    Bias := n.Bias -
      calculateAdjustmentForWeightOrBias n learnRate deltaY deltaOutput n.DerivativeBias }

/-- The factor `derivativeOutput` of the hidden neuron `j` of layer `i`, read in
the network `n`: `prediction.DerivativeInputs[j]` in the last hidden layer,
otherwise the arithmetic mean over the neurons of layer `i+1` of their
`DerivativeInputs[j]`. -/
def chainFactor (n : Network α) (i j : Nat) : α :=
  if i = n.layers.length - 1 then (n.prediction.DerivativeInputs[j]?).getD 0
  else
    (((n.layers[i + 1]?).getD []).map (fun m => (m.DerivativeInputs[j]?).getD 0)).sum
      / ((((n.layers[i + 1]?).getD []).length : Nat) : α)

/-- What adjustNeuronsWeightsAndBias leaves of the network `n` for the sample
`data`: every neuron updated with the stored derivatives of `n`. -/
def adjustP (n : Network α) (data : Data α) : Network α :=
  { n with
    prediction := updP n.prediction n.learnRate (deltaY n data) 0
    layers := mapLayersFrom
      (fun i layer =>
        layer.enum.map (fun p => updP p.2 n.learnRate (deltaY n data) (chainFactor n i p.1)))
      0 n.layers }

/-- The four slices of the neuron have one length. -/
def Neuron.Synced (n : Neuron α) : Prop :=
  n.HasFanIn n.Weights.length

/-- A network as NewNetwork builds it and training keeps it: every hidden layer
has `w` neurons, every neuron has its four slices of one length, and only the
output neuron is flagged `IsOutput`. -/
def Network.WellFormed (n : Network α) (w : Nat) : Prop :=
  (∀ l ∈ n.layers, l.length = w ∧ ∀ m ∈ l, m.Synced ∧ m.IsOutput = false) ∧
    n.prediction.Synced ∧ n.prediction.IsOutput = true

/-- A well-formed network after a forward pass: moreover the neurons of every
hidden layer but the first, and the output neuron when there is a hidden layer,
have `w` inputs. -/
def Network.Fed (n : Network α) (w : Nat) : Prop :=
  n.WellFormed w ∧
    (∀ (i : Nat) (l : List (Neuron α)), n.layers[i + 1]? = some l →
      ∀ m ∈ l, m.DerivativeInputs.length = w) ∧
    (n.layers ≠ [] → n.prediction.DerivativeInputs.length = w)

/-- The neuron with its weight of index `k` replaced by `t`. -/
def Neuron.withWeight (m : Neuron α) (k : Nat) (t : α) : Neuron α :=
  { m with Weights := m.Weights.set k t }

/-- The neuron with its bias replaced by `t`. -/
def Neuron.withBias (m : Neuron α) (t : α) : Neuron α :=
  { m with Bias := t }

/-- The network with the neuron of index `j` of its last hidden layer replaced
by `m`. -/
def Network.withLastNeuron (n : Network α) (j : Nat) (m : Neuron α) : Network α :=
  { n with layers :=
      n.layers.set (n.layers.length - 1) (((n.layers[n.layers.length - 1]?).getD []).set j m) }

/-- The value `Predict(features)` returns on the network `n` (Predict always
returns one; the random source plays no part once the weights are bound). -/
def predictValue (exp : α → α) (n : Network α) (d : Data α) : α :=
  ((Predict exp n d (fun _ => 0)).map (fun res => res.1)).getD 0

/-- The squared error of the sample: `E = (label - Predict(features))^2`, as a
function of the network, that is of its parameters. -/
def sampleError (exp : α → α) (d : Data α) (n : Network α) : α :=
  (d.Output - predictValue exp n d) ^ 2

/-! # Theorems -/

theorem feedTotal_eq (weights : List α) :
    ∀ (inputs : List α) (total : α) (start : Nat),
      start + inputs.length ≤ weights.length →
      feedTotal weights total start inputs
        = some (total + (List.zipWith (fun w x => w * x) (weights.drop start) inputs).sum) := by
  intro inputs
  induction inputs with
  | nil => intro total start _; simp [feedTotal]
  | cons x xs ih =>
    intro total start h
    have hlt : start < weights.length := by
      simp only [List.length_cons] at h; omega
    have hnext : start + 1 + xs.length ≤ weights.length := by
      simp only [List.length_cons] at h; omega
    have hrec := ih (total + weights[start] * x) (start + 1) hnext
    unfold feedTotal at hrec ⊢
    simp only [Option.bind_eq_bind, Option.pure_def] at hrec
    rw [List.drop_eq_getElem_cons hlt]
    simp only [List.enumFrom_cons, List.foldlM_cons, List.getElem?_eq_getElem hlt,
      Option.bind_eq_bind, Option.some_bind, Option.pure_def, List.zipWith_cons_cons,
      List.sum_cons]
    rw [hrec, add_assoc]

theorem FeedForward_of_length_eq (exp : α → α) (n : Neuron α)
    (h : n.Inputs.length = n.Weights.length) :
    FeedForward exp n
      = some ({ n with Output := Sigmoid exp (weightedSum n) },
          Sigmoid exp (weightedSum n), none) := by
  have ht := feedTotal_eq n.Weights n.Inputs n.Bias 0 (by omega)
  simp only [List.drop_zero] at ht
  simp [FeedForward, h, ht, weightedSum]

theorem FeedForward_of_length_ne (exp : α → α) (n : Neuron α)
    (h : n.Inputs.length ≠ n.Weights.length) :
    FeedForward exp n = some (n, 0, some errMismatch) := by
  simp [FeedForward, h]

/-! ## SetInputs -/

theorem drawWeights_eq {β : Type} (count : Nat) (weights : List β) (r : RandSource β) :
    drawWeights count weights r
      = (weights ++ (List.range count).map r, fun k => r (k + count)) := by
  induction count with
  | zero => simp [drawWeights]
  | succ c ih =>
    unfold drawWeights at ih ⊢
    rw [List.range_succ, List.foldl_append, ih]
    simp only [List.foldl_cons, List.foldl_nil, randFloat64, List.map_append, List.map_cons,
      List.map_nil, Nat.zero_add, List.append_assoc]
    congr 1
    funext k
    congr 1
    omega

theorem SetInputs_of_length_eq (n : Neuron α) (inputs : List α) (r : RandSource α)
    (h : n.Weights.length = inputs.length) :
    SetInputs n inputs r
      = ({ n with Inputs := inputs, DerivativeInputs := makeFloats inputs.length }, r) := by
  simp [SetInputs, h]

theorem SetInputs_of_length_ne (n : Neuron α) (inputs : List α) (r : RandSource α)
    (h : n.Weights.length ≠ inputs.length) :
    SetInputs n inputs r
      = ({ n with
            Inputs := inputs
            DerivativeInputs := makeFloats inputs.length
            Weights := (List.range inputs.length).map r
            DerivativeWeights := makeFloats inputs.length },
          fun k => r (k + inputs.length)) := by
  simp [SetInputs, h, drawWeights_eq]

theorem SetInputs_lengths (n : Neuron α) (inputs : List α) (r : RandSource α) :
    (SetInputs n inputs r).1.Inputs = inputs ∧
      (SetInputs n inputs r).1.Weights.length = inputs.length := by
  by_cases h : n.Weights.length = inputs.length
  · simp [SetInputs_of_length_eq n inputs r h, h]
  · simp [SetInputs_of_length_ne n inputs r h]

/-! ## Claims on FeedForward and SetInputs -/

/-- C1: for a neuron whose Inputs and Weights have the same length, FeedForward
returns no error and the value `Sigmoid(Bias + Σ Weights[i] * Inputs[i])`; the
neuron afterwards has that value as Output and every other field as before. -/
theorem FeedForward_matched (exp : α → α) (n : Neuron α)
    (h : n.Inputs.length = n.Weights.length) :
    FeedForward exp n
      = some
          ({ n with
              Output :=
                Sigmoid exp (n.Bias + (List.zipWith (fun w x => w * x) n.Weights n.Inputs).sum) },
            Sigmoid exp (n.Bias + (List.zipWith (fun w x => w * x) n.Weights n.Inputs).sum),
            none) :=
  FeedForward_of_length_eq exp n h

/-- Witness of C1: weights [2,3], inputs [2,3], bias 4 give `Sigmoid(17)`. -/
theorem FeedForward_matched_witness :
    FeedForward Real.exp
        (⟨[2, 3], [2, 3], 4, 0, false, [0, 0], [0, 0], 0⟩ : Neuron ℝ)
      = some (⟨[2, 3], [2, 3], 4, Sigmoid Real.exp 17, false, [0, 0], [0, 0], 0⟩,
          Sigmoid Real.exp 17, none) := by
  have h := FeedForward_matched Real.exp
    (⟨[2, 3], [2, 3], 4, 0, false, [0, 0], [0, 0], 0⟩ : Neuron ℝ) rfl
  have e : (4 : ℝ) + (2 * 2 + 3 * 3) = 17 := by norm_num
  simpa [e] using h

/-- C2: FeedForward returns the length-mismatch error exactly when
`len(Inputs) != len(Weights)`; it never panics, and whenever it returns an
error, the error is the length-mismatch one, the returned value is 0 and the
neuron is unchanged. -/
theorem FeedForward_error_iff (exp : α → α) (n : Neuron α) :
    ((∃ n1 y, FeedForward exp n = some (n1, y, some errMismatch))
        ↔ n.Inputs.length ≠ n.Weights.length) ∧
      (∃ res, FeedForward exp n = some res) ∧
      (∀ n1 y e, FeedForward exp n = some (n1, y, some e) →
        e = errMismatch ∧ y = 0 ∧ n1 = n) := by
  by_cases h : n.Inputs.length = n.Weights.length
  · rw [FeedForward_of_length_eq exp n h]
    refine ⟨?_, ⟨_, rfl⟩, ?_⟩
    · simp [h]
    · intro n1 y e he
      simp at he
  · rw [FeedForward_of_length_ne exp n h]
    refine ⟨?_, ⟨_, rfl⟩, ?_⟩
    · simp [h]
    · intro n1 y e he
      simp only [Option.some.injEq, Prod.mk.injEq] at he
      exact ⟨he.2.2.symm, he.2.1.symm, he.1.symm⟩

/-- Witness of C2: a neuron built with nil inputs and weights [2,3], FeedForward
called before any SetInputs. -/
theorem FeedForward_error_iff_witness :
    FeedForward Real.exp (NewNeuron ⟨[], [2, 3], 4, false⟩ : Neuron ℝ)
      = some (NewNeuron ⟨[], [2, 3], 4, false⟩, 0, some errMismatch) := by
  have hc := FeedForward_error_iff Real.exp (NewNeuron ⟨[], [2, 3], 4, false⟩ : Neuron ℝ)
  obtain ⟨n1, y, h⟩ := hc.1.2 (by simp [NewNeuron])
  obtain ⟨_, hy, hn⟩ := hc.2.2 n1 y _ h
  rw [hy, hn] at h
  exact h

/-- C3: whatever the neuron and the input vector, SetInputs leaves the weight
count equal to the input count, and a FeedForward right after it returns no
error (and does not panic): it returns the Sigmoid of the weighted sum. -/
theorem SetInputs_then_FeedForward (exp : α → α) (n : Neuron α) (v : List α)
    (r : RandSource α) :
    (SetInputs n v r).1.Inputs.length = (SetInputs n v r).1.Weights.length ∧
      FeedForward exp (SetInputs n v r).1
        = some ({ (SetInputs n v r).1 with
                    Output := Sigmoid exp (weightedSum (SetInputs n v r).1) },
            Sigmoid exp (weightedSum (SetInputs n v r).1), none) := by
  have hl : (SetInputs n v r).1.Inputs.length = (SetInputs n v r).1.Weights.length := by
    rw [(SetInputs_lengths n v r).1, (SetInputs_lengths n v r).2]
  exact ⟨hl, FeedForward_of_length_eq exp _ hl⟩

/-- C4: after SetInputs(v), Inputs is v and DerivativeInputs is len(v) zeros;
with len(v) equal to the previous weight count, Weights and DerivativeWeights
are as before and nothing is drawn; otherwise Weights is the next len(v) draws
of the random source (each in [0,1)) and DerivativeWeights is len(v) zeros; Bias,
Output, IsOutput and DerivativeBias are unchanged in both cases. -/
theorem SetInputs_frame {β : Type} [LinearOrderedField β] (n : Neuron β) (v : List β)
    (r : RandSource β) (hr : r.InUnit) :
    (SetInputs n v r).1.Inputs = v ∧
      (SetInputs n v r).1.DerivativeInputs = List.replicate v.length 0 ∧
      (v.length = n.Weights.length →
        (SetInputs n v r).1.Weights = n.Weights ∧
        (SetInputs n v r).1.DerivativeWeights = n.DerivativeWeights ∧
        (SetInputs n v r).2 = r) ∧
      (v.length ≠ n.Weights.length →
        (SetInputs n v r).1.Weights = (List.range v.length).map r ∧
        (SetInputs n v r).1.Weights.length = v.length ∧
        (∀ w ∈ (SetInputs n v r).1.Weights, 0 ≤ w ∧ w < 1) ∧
        (SetInputs n v r).1.DerivativeWeights = List.replicate v.length 0 ∧
        (SetInputs n v r).2 = fun k => r (k + v.length)) ∧
      (SetInputs n v r).1.Bias = n.Bias ∧
      (SetInputs n v r).1.Output = n.Output ∧
      (SetInputs n v r).1.IsOutput = n.IsOutput ∧
      (SetInputs n v r).1.DerivativeBias = n.DerivativeBias := by
  by_cases h : n.Weights.length = v.length
  · rw [SetInputs_of_length_eq n v r h]
    refine ⟨rfl, rfl, fun _ => ⟨rfl, rfl, rfl⟩, fun hne => absurd h.symm hne, rfl, rfl, rfl, rfl⟩
  · rw [SetInputs_of_length_ne n v r h]
    refine ⟨rfl, rfl, fun he => absurd he.symm h, fun _ => ⟨rfl, by simp, ?_, rfl, rfl⟩,
      rfl, rfl, rfl, rfl⟩
    intro w hw
    simp only [List.mem_map] at hw
    obtain ⟨k, _, rfl⟩ := hw
    exact hr k

/-- Witness of C4: a neuron with two weights receives a three-element input
vector, so three weights are drawn. -/
theorem SetInputs_frame_witness :
    (SetInputs (NewNeuron ⟨[], [2, 3], 4, false⟩ : Neuron ℚ) [5, 6, 7] (fun _ => 1 / 2)).1
      = ⟨[5, 6, 7], [1 / 2, 1 / 2, 1 / 2], 4, 0, false, [0, 0, 0], [0, 0, 0], 0⟩ := by
  have hc := SetInputs_frame (NewNeuron ⟨[], [2, 3], 4, false⟩ : Neuron ℚ) [5, 6, 7]
    (fun _ => 1 / 2) (fun _ => by norm_num)
  obtain ⟨h1, h2, -, h4, h5, h6, h7, h8⟩ := hc
  obtain ⟨h41, -, -, h44, -⟩ := h4 (by simp [NewNeuron])
  generalize (SetInputs (NewNeuron ⟨[], [2, 3], 4, false⟩ : Neuron ℚ) [5, 6, 7]
    (fun _ => 1 / 2)).1 = m at h1 h2 h41 h44 h5 h6 h7 h8
  cases m
  simp only at h1 h2 h41 h44 h5 h6 h7 h8
  subst h1 h2 h41 h44 h5 h6 h7 h8
  simp [NewNeuron, List.range_succ]

/-! ## The store loops of CalculateAndStoreDerivatives and UpdateWeightsAndBias -/

theorem setAt?_append_cons {β : Type} (xs ys : List β) (y v : β) :
    setAt? (xs ++ y :: ys) xs.length v = some (xs ++ v :: ys) := by
  simp [setAt?]

theorem getElem?_append_cons {β : Type} (xs ys : List β) (y : β) :
    (xs ++ y :: ys)[xs.length]? = some y := by
  rw [List.getElem?_append_right (Nat.le_refl _)]
  simp

theorem derivWeights_loop (n : Neuron α) (d : α) :
    ∀ m, m ≤ n.Inputs.length → m ≤ n.DerivativeWeights.length →
      (List.range m).foldlM
          (fun (n : Neuron α) index =>
            if n.Inputs.length > index then do
              let input ← n.Inputs[index]?
              let dw ← setAt? n.DerivativeWeights index (input * d)
              pure { n with DerivativeWeights := dw }
            else
              pure n)
          n
        = some { n with DerivativeWeights :=
                  (n.Inputs.take m).map (fun x => x * d) ++ n.DerivativeWeights.drop m } := by
  intro m
  induction m with
  | zero => intro _ _; simp
  | succ m ih =>
    intro h1 h2
    have hI : m < n.Inputs.length := by omega
    have hD : m < n.DerivativeWeights.length := by omega
    have hlen : ((n.Inputs.take m).map (fun x => x * d)).length = m := by
      simp; omega
    have hset := setAt?_append_cons ((n.Inputs.take m).map (fun x => x * d))
      (n.DerivativeWeights.drop (m + 1)) n.DerivativeWeights[m] (n.Inputs[m] * d)
    rw [hlen] at hset
    rw [List.range_succ, List.foldlM_append, ih (by omega) (by omega)]
    simp only [List.foldlM_cons, List.foldlM_nil, Option.bind_eq_bind, Option.some_bind,
      Option.pure_def, gt_iff_lt, hI, if_true, List.getElem?_eq_getElem hI,
      List.drop_eq_getElem_cons hD, hset, Option.bind_some, List.take_succ,
      List.map_append, Option.toList, List.map_cons, List.map_nil, List.append_assoc,
      List.singleton_append]

theorem derivInputs_loop (n : Neuron α) (d : α) :
    ∀ m, m ≤ n.Weights.length → m ≤ n.DerivativeInputs.length →
      (List.range m).foldlM
          (fun (n : Neuron α) index => do
            let weight ← n.Weights[index]?
            let di ← setAt? n.DerivativeInputs index (weight * d)
            pure { n with DerivativeInputs := di })
          n
        = some { n with DerivativeInputs :=
                  (n.Weights.take m).map (fun x => x * d) ++ n.DerivativeInputs.drop m } := by
  intro m
  induction m with
  | zero => intro _ _; simp
  | succ m ih =>
    intro h1 h2
    have hW : m < n.Weights.length := by omega
    have hD : m < n.DerivativeInputs.length := by omega
    have hlen : ((n.Weights.take m).map (fun x => x * d)).length = m := by
      simp; omega
    have hset := setAt?_append_cons ((n.Weights.take m).map (fun x => x * d))
      (n.DerivativeInputs.drop (m + 1)) n.DerivativeInputs[m] (n.Weights[m] * d)
    rw [hlen] at hset
    rw [List.range_succ, List.foldlM_append, ih (by omega) (by omega)]
    simp only [List.foldlM_cons, List.foldlM_nil, Option.bind_eq_bind, Option.some_bind,
      Option.pure_def, List.getElem?_eq_getElem hW,
      List.drop_eq_getElem_cons hD, hset, Option.bind_some, List.take_succ,
      List.map_append, Option.toList, List.map_cons, List.map_nil, List.append_assoc,
      List.singleton_append]

theorem calculateAndStoreDerivativesWeights_eq (n : Neuron α)
    (h1 : n.Weights.length ≤ n.Inputs.length)
    (h2 : n.Weights.length ≤ n.DerivativeWeights.length) :
    calculateAndStoreDerivativesWeights n
      = some { n with DerivativeWeights :=
                (n.Inputs.take n.Weights.length).map (fun x => x * DerivedSigmoid n.Output)
                  ++ n.DerivativeWeights.drop n.Weights.length } :=
  derivWeights_loop n (DerivedSigmoid n.Output) n.Weights.length h1 h2

theorem calculateAndStoreDerivativesInputs_eq (n : Neuron α)
    (h1 : n.Inputs.length ≤ n.Weights.length)
    (h2 : n.Inputs.length ≤ n.DerivativeInputs.length) :
    calculateAndStoreDerivativesInputs n
      = some { n with DerivativeInputs :=
                (n.Weights.take n.Inputs.length).map (fun x => x * DerivedSigmoid n.Output)
                  ++ n.DerivativeInputs.drop n.Inputs.length } :=
  derivInputs_loop n (DerivedSigmoid n.Output) n.Inputs.length h1 h2

theorem CalculateAndStoreDerivatives_of_lengths (n : Neuron α)
    (hI : n.Inputs.length = n.Weights.length)
    (hDW : n.DerivativeWeights.length = n.Weights.length)
    (hDI : n.DerivativeInputs.length = n.Weights.length) :
    CalculateAndStoreDerivatives n
      = some { n with
          DerivativeWeights := n.Inputs.map (fun x => x * DerivedSigmoid n.Output)
          DerivativeInputs := n.Weights.map (fun w => w * DerivedSigmoid n.Output)
          DerivativeBias := DerivedSigmoid n.Output } := by
  have hd1 : List.drop n.Weights.length n.DerivativeWeights = [] :=
    List.drop_of_length_le (by omega)
  have ht1 : List.take n.Weights.length n.Inputs = n.Inputs :=
    List.take_of_length_le (by omega)
  have hd2 : List.drop n.Inputs.length n.DerivativeInputs = [] :=
    List.drop_of_length_le (by omega)
  have ht2 : List.take n.Inputs.length n.Weights = n.Weights :=
    List.take_of_length_le (by omega)
  unfold CalculateAndStoreDerivatives
  rw [calculateAndStoreDerivativesWeights_eq n (by omega) (by omega)]
  simp only [Option.bind_eq_bind, Option.some_bind]
  rw [calculateAndStoreDerivativesInputs_eq _ (by simp only; omega) (by simp only; omega)]
  simp only [Option.some_bind, Option.pure_def, calculateAndStoreDerivativesBias, hd1, ht1,
    hd2, ht2, List.append_nil]

theorem updateWeights_loop (n : Neuron α) (learnRate deltaY deltaOutput : α) :
    ∀ m, m ≤ n.Weights.length → m ≤ n.DerivativeWeights.length →
      (List.range m).foldlM
          (fun (n : Neuron α) i => do
            let dw ← n.DerivativeWeights[i]?
            let w ← n.Weights[i]?
            let ws ← setAt? n.Weights i
              (w - calculateAdjustmentForWeightOrBias n learnRate deltaY deltaOutput dw)
            pure { n with Weights := ws })
          n
        = some { n with Weights :=
                  (List.zipWith
                      (fun w dw =>
                        w - calculateAdjustmentForWeightOrBias n learnRate deltaY deltaOutput dw)
                      n.Weights n.DerivativeWeights).take m
                    ++ n.Weights.drop m } := by
  intro m
  induction m with
  | zero => intro _ _; simp
  | succ m ih =>
    intro h1 h2
    have hW : m < n.Weights.length := by omega
    have hD : m < n.DerivativeWeights.length := by omega
    generalize hA : (List.zipWith
        (fun w dw => w - calculateAdjustmentForWeightOrBias n learnRate deltaY deltaOutput dw)
        n.Weights n.DerivativeWeights) = zs at ih ⊢
    have hzlen : zs.length = n.Weights.length ⊓ n.DerivativeWeights.length := by
      rw [← hA, List.length_zipWith]
    have hZ : m < zs.length := by rw [hzlen]; exact lt_min hW hD
    have hzm : zs[m] = n.Weights[m]
        - calculateAdjustmentForWeightOrBias n learnRate deltaY deltaOutput
            n.DerivativeWeights[m] := by
      subst hA
      simp
    have hlen : (zs.take m).length = m := by
      rw [List.length_take]; omega
    have hset := setAt?_append_cons (zs.take m) (n.Weights.drop (m + 1)) n.Weights[m] zs[m]
    have hget := getElem?_append_cons (zs.take m) (n.Weights.drop (m + 1)) n.Weights[m]
    rw [hlen] at hset hget
    rw [List.range_succ, List.foldlM_append, ih (by omega) (by omega)]
    simp only [List.foldlM_cons, List.foldlM_nil, Option.bind_eq_bind, Option.some_bind,
      Option.pure_def, List.getElem?_eq_getElem hD, List.drop_eq_getElem_cons hW, hget]
    have hadj : ∀ (ws : List α) (dw : α),
        calculateAdjustmentForWeightOrBias { n with Weights := ws } learnRate deltaY
          deltaOutput dw
          = calculateAdjustmentForWeightOrBias n learnRate deltaY deltaOutput dw :=
      fun _ _ => rfl
    rw [hadj, ← hzm, hset]
    simp only [Option.some_bind, List.take_succ, List.getElem?_eq_getElem hZ, Option.toList,
      List.append_assoc, List.singleton_append]

theorem updateWeights_eq (n : Neuron α) (learnRate deltaY deltaOutput : α)
    (h : n.Weights.length ≤ n.DerivativeWeights.length) :
    updateWeights n learnRate deltaY deltaOutput
      = some { n with Weights :=
                (List.zipWith (fun w dw =>
                    w - calculateAdjustmentForWeightOrBias n learnRate deltaY deltaOutput dw)
                  n.Weights n.DerivativeWeights) } := by
  have hl := updateWeights_loop n learnRate deltaY deltaOutput n.Weights.length
    (Nat.le_refl _) h
  have hd : List.drop n.Weights.length n.Weights = [] := List.drop_of_length_le (Nat.le_refl _)
  rw [hd, List.append_nil, List.take_of_length_le (by rw [List.length_zipWith]; omega)] at hl
  exact hl

theorem UpdateWeightsAndBias_eq (n : Neuron α) (learnRate deltaY deltaOutput : α)
    (h : n.Weights.length ≤ n.DerivativeWeights.length) :
    UpdateWeightsAndBias n learnRate deltaY deltaOutput
      = some { n with
          Weights :=
            (List.zipWith (fun w dw =>
                w - calculateAdjustmentForWeightOrBias n learnRate deltaY deltaOutput dw)
              n.Weights n.DerivativeWeights)
          Bias := n.Bias -
            calculateAdjustmentForWeightOrBias n learnRate deltaY deltaOutput
              n.DerivativeBias } := by
  unfold UpdateWeightsAndBias
  rw [updateWeights_eq n learnRate deltaY deltaOutput h]
  rfl

theorem foldlM_range_none {σ : Type} (f : σ → Nat → Option σ) (s s1 : σ) (k : Nat)
    (h1 : (List.range k).foldlM f s = some s1) (h2 : f s1 k = none) :
    ∀ m, k < m → (List.range m).foldlM f s = none := by
  intro m
  induction m with
  | zero => intro h; omega
  | succ m ih =>
    intro h
    rw [List.range_succ, List.foldlM_append]
    by_cases hk : k = m
    · subst hk
      rw [h1]
      simp [h2]
    · rw [ih (by omega)]
      rfl

theorem calculateAndStoreDerivativesInputs_none (n : Neuron α)
    (h1 : n.Weights.length < n.Inputs.length)
    (h2 : n.Weights.length ≤ n.DerivativeInputs.length) :
    calculateAndStoreDerivativesInputs n = none := by
  unfold calculateAndStoreDerivativesInputs
  refine foldlM_range_none _ n _ n.Weights.length
    (derivInputs_loop n (DerivedSigmoid n.Output) n.Weights.length (Nat.le_refl _) h2) ?_
    n.Inputs.length h1
  simp

theorem CalculateAndStoreDerivatives_none (n : Neuron α)
    (h1 : n.Weights.length < n.Inputs.length)
    (h2 : n.Weights.length ≤ n.DerivativeWeights.length)
    (h3 : n.Weights.length ≤ n.DerivativeInputs.length) :
    CalculateAndStoreDerivatives n = none := by
  unfold CalculateAndStoreDerivatives
  rw [calculateAndStoreDerivativesWeights_eq n (by omega) h2]
  simp only [Option.bind_eq_bind, Option.some_bind]
  rw [calculateAndStoreDerivativesInputs_none
    { n with DerivativeWeights :=
        (n.Inputs.take n.Weights.length).map (fun x => x * DerivedSigmoid n.Output)
          ++ n.DerivativeWeights.drop n.Weights.length } h1 h3]
  rfl

/-! ## Claims on CalculateAndStoreDerivatives and UpdateWeightsAndBias -/

/-- C5: for a neuron whose Inputs, Weights, DerivativeWeights and
DerivativeInputs all have the same length, CalculateAndStoreDerivatives
completes and stores `DerivativeWeights[i] = Inputs[i] * DerivedSigmoid(Output)`,
`DerivativeInputs[i] = Weights[i] * DerivedSigmoid(Output)` and
`DerivativeBias = DerivedSigmoid(Output)`, from the stored Output as it is, and
leaves Inputs, Weights, Bias, Output and IsOutput unchanged. -/
theorem CalculateAndStoreDerivatives_stores (n : Neuron α)
    (hI : n.Inputs.length = n.Weights.length)
    (hDW : n.DerivativeWeights.length = n.Weights.length)
    (hDI : n.DerivativeInputs.length = n.Weights.length) :
    CalculateAndStoreDerivatives n
      = some { n with
          DerivativeWeights := n.Inputs.map (fun x => x * DerivedSigmoid n.Output)
          DerivativeInputs := n.Weights.map (fun w => w * DerivedSigmoid n.Output)
          DerivativeBias := DerivedSigmoid n.Output } :=
  CalculateAndStoreDerivatives_of_lengths n hI hDW hDI

/-- Witness of C5: inputs [2,1,3], weights [1,2,3], bias 2, output preset to 2,
where `DerivedSigmoid(2) = -2`. -/
theorem CalculateAndStoreDerivatives_stores_witness :
    CalculateAndStoreDerivatives
        (⟨[2, 1, 3], [1, 2, 3], 2, 2, false, [0, 0, 0], [0, 0, 0], 0⟩ : Neuron ℚ)
      = some ⟨[2, 1, 3], [1, 2, 3], 2, 2, false, [-4, -2, -6], [-2, -4, -6], -2⟩ := by
  have h := CalculateAndStoreDerivatives_stores
    (⟨[2, 1, 3], [1, 2, 3], 2, 2, false, [0, 0, 0], [0, 0, 0], 0⟩ : Neuron ℚ) rfl rfl rfl
  rw [h]
  norm_num [DerivedSigmoid]

/-- C6 fails on the code: for every neuron returned by NewNeuron with more
inputs than weights, CalculateAndStoreDerivatives panics, at `n.Weights[index]`
of the inputs loop with `index = len(Weights)`. -/
theorem CalculateAndStoreDerivatives_panics (input : NewNeuronInput α)
    (h : input.Weights.length < input.Inputs.length) :
    CalculateAndStoreDerivatives (NewNeuron input) = none :=
  CalculateAndStoreDerivatives_none (NewNeuron input) h
    (by simp [NewNeuron, makeFloats]) (by simp [NewNeuron, makeFloats]; omega)

/-- The failing input of C6: NewNeuron with inputs [1,2] and weights [1]. -/
theorem CalculateAndStoreDerivatives_panics_witness :
    CalculateAndStoreDerivatives (NewNeuron ⟨[1, 2], [1], 0, false⟩ : Neuron ℚ) = none :=
  CalculateAndStoreDerivatives_panics ⟨[1, 2], [1], 0, false⟩ (by decide)

/-- The update on a neuron read as values, its slices on separate arrays: with
`len(DerivativeWeights) >= len(Weights)`, UpdateWeightsAndBias completes; every
`Weights[i]` decreases by `learnRate * derivativeY * F * DerivativeWeights[i]` and Bias by
`learnRate * derivativeY * F * DerivativeBias`, where `F = 1` for an output neuron
and `F = derivativeOutput` otherwise; the number of weights and every other field
stay as they were, and for an output neuron the result does not depend on
derivativeOutput. -/
theorem UpdateWeightsAndBias_decreases (n : Neuron α)
    (learnRate derivativeY derivativeOutput : α)
    (h : n.Weights.length ≤ n.DerivativeWeights.length) :
    UpdateWeightsAndBias n learnRate derivativeY derivativeOutput
        = some { n with
            Weights :=
              (List.zipWith (fun w dw =>
                  w - learnRate * derivativeY * (if n.IsOutput then 1 else derivativeOutput) * dw)
                n.Weights n.DerivativeWeights)
            Bias := n.Bias -
              learnRate * derivativeY * (if n.IsOutput then 1 else derivativeOutput)
                * n.DerivativeBias } ∧
      (List.zipWith (fun w dw =>
          w - learnRate * derivativeY * (if n.IsOutput then 1 else derivativeOutput) * dw)
        n.Weights n.DerivativeWeights).length = n.Weights.length ∧
      (n.IsOutput = true → ∀ other : α,
        UpdateWeightsAndBias n learnRate derivativeY other
          = UpdateWeightsAndBias n learnRate derivativeY derivativeOutput) := by
  have hadj : ∀ (dO dv : α),
      calculateAdjustmentForWeightOrBias n learnRate derivativeY dO dv
        = learnRate * derivativeY * (if n.IsOutput then 1 else dO) * dv := by
    intro dO dv
    unfold calculateAdjustmentForWeightOrBias
    by_cases ho : n.IsOutput = true <;> simp [ho]
  refine ⟨?_, ?_, ?_⟩
  · rw [UpdateWeightsAndBias_eq n learnRate derivativeY derivativeOutput h]
    simp only [hadj]
  · rw [List.length_zipWith]
    omega
  · intro ho other
    rw [UpdateWeightsAndBias_eq n learnRate derivativeY derivativeOutput h,
      UpdateWeightsAndBias_eq n learnRate derivativeY other h]
    simp only [hadj, ho, if_true]

/-- The update evaluated on values: a hidden neuron with weights [1,2,3], stored
derivatives [-4,-2,-6] and -2, updated with learnRate 1/10, derivativeY 1 and
derivativeOutput 1/2. -/
theorem UpdateWeightsAndBias_decreases_witness :
    UpdateWeightsAndBias
        (⟨[2, 1, 3], [1, 2, 3], 2, 2, false, [-4, -2, -6], [-2, -4, -6], -2⟩ : Neuron ℚ)
        (1 / 10) 1 (1 / 2)
      = some ⟨[2, 1, 3], [6 / 5, 21 / 10, 33 / 10], 21 / 10, 2, false, [-4, -2, -6],
          [-2, -4, -6], -2⟩ := by
  have h := (UpdateWeightsAndBias_decreases
    (⟨[2, 1, 3], [1, 2, 3], 2, 2, false, [-4, -2, -6], [-2, -4, -6], -2⟩ : Neuron ℚ)
    (1 / 10) 1 (1 / 2) (by decide)).1
  rw [h]
  norm_num

/-! ## UpdateWeightsAndBias on slices that share memory -/

theorem Slice.getElem?_toList {β : Type} (m : Memory β) (s : Slice) (i : Nat) :
    (s.toList m)[i]? = s.get? m i := by
  unfold Slice.toList Slice.get?
  by_cases hi : i < s.len
  · rw [List.getElem?_take_of_lt hi, List.getElem?_drop, if_pos hi]
    cases m[s.arr]? <;> rfl
  · rw [if_neg hi]
    exact List.getElem?_eq_none (by rw [List.length_take]; omega)

theorem Slice.length_toList {β : Type} (m : Memory β) (s : Slice) (h : s.Valid m) :
    (s.toList m).length = s.len := by
  rcases h with h0 | ⟨a, ha, hl⟩
  · simp [Slice.toList, h0]
  · simp only [Slice.toList, ha, Option.getD_some, List.length_take, List.length_drop]
    omega

theorem Slice.set?_eq {β : Type} (m : Memory β) (s : Slice) (i : Nat) (v : β)
    (h : s.Valid m) (hi : i < s.len) :
    ∃ a, m[s.arr]? = some a ∧ s.off + i < a.length ∧
      s.off + s.len ≤ a.length ∧
      s.set? m i v = some (m.set s.arr (a.set (s.off + i) v)) := by
  rcases h with h0 | ⟨a, ha, hl⟩
  · omega
  refine ⟨a, ha, by omega, hl, ?_⟩
  simp only [Slice.set?, hi, if_true, ha, Option.some_bind, setAt?]
  rw [if_pos (by omega)]
  rfl

theorem Slice.get?_set {β : Type} (m : Memory β) (arr p : Nat) (a : List β) (v : β)
    (ha : m[arr]? = some a) (t : Slice) (j : Nat) :
    t.get? (m.set arr (a.set p v)) j
      = if t.arr = arr ∧ t.off + j = p ∧ j < t.len ∧ p < a.length then some v
        else t.get? m j := by
  have harr : arr < m.length := by
    by_contra hc
    rw [List.getElem?_eq_none (by omega)] at ha
    exact Option.noConfusion ha
  unfold Slice.get?
  by_cases hj : j < t.len
  · simp only [hj, if_true, and_true, true_and]
    by_cases hA : t.arr = arr
    · subst hA
      rw [List.getElem?_set_self harr, ha]
      simp only [Option.some_bind, true_and, List.getElem?_set]
      by_cases hp : t.off + j = p
      · subst hp
        by_cases hl : t.off + j < a.length
        · simp [hl]
        · simp [hl, List.getElem?_eq_none (Nat.le_of_not_lt hl)]
      · have hp' : ¬ p = t.off + j := fun h => hp h.symm
        simp [hp, hp']
    · have hA' : ¬ arr = t.arr := fun h => hA h.symm
      rw [List.getElem?_set_ne hA']
      simp [hA]
  · simp [hj]


theorem Slice.toList_set_self {β : Type} (m : Memory β) (s : Slice) (i : Nat) (a : List β)
    (v : β) (ha : m[s.arr]? = some a) (hl : s.off + s.len ≤ a.length) (hi : i < s.len) :
    s.toList (m.set s.arr (a.set (s.off + i) v)) = (s.toList m).set i v := by
  apply List.ext_getElem?
  intro j
  have hlen : (s.toList m).length = s.len := Slice.length_toList m s (Or.inr ⟨a, ha, hl⟩)
  rw [Slice.getElem?_toList, Slice.get?_set m s.arr _ a v ha, List.getElem?_set, hlen,
    Slice.getElem?_toList]
  by_cases hj : i = j
  · subst hj
    have : s.off + i < a.length := by omega
    simp [hi, this]
  · have : ¬ s.off + j = s.off + i := by omega
    simp [hj, this]

theorem Slice.toList_set_separate {β : Type} (m : Memory β) (s t : Slice) (i : Nat)
    (a : List β) (v : β) (ha : m[s.arr]? = some a) (hi : i < s.len) (hst : s.Separate t) :
    t.toList (m.set s.arr (a.set (s.off + i) v)) = t.toList m := by
  apply List.ext_getElem?
  intro j
  rw [Slice.getElem?_toList, Slice.get?_set m s.arr _ a v ha, Slice.getElem?_toList]
  have : ¬ (t.arr = s.arr ∧ t.off + j = s.off + i ∧ j < t.len ∧ s.off + i < a.length) := by
    rintro ⟨h1, h2, h3, -⟩
    rcases hst with h | h | h | h | h
    · omega
    · omega
    · exact h h1.symm
    · omega
    · omega
  rw [if_neg this]

theorem Slice.valid_set {β : Type} (m : Memory β) (arr p : Nat) (a : List β) (v : β)
    (ha : m[arr]? = some a) (t : Slice) (h : t.Valid m) :
    t.Valid (m.set arr (a.set p v)) := by
  rcases h with h0 | ⟨b, hb, hl⟩
  · exact Or.inl h0
  have harr : arr < m.length := by
    by_contra hc
    rw [List.getElem?_eq_none (by omega)] at ha
    exact Option.noConfusion ha
  by_cases hA : t.arr = arr
  · subst hA
    refine Or.inr ⟨a.set p v, List.getElem?_set_self harr, ?_⟩
    rw [ha] at hb
    cases hb
    rw [List.length_set]
    exact hl
  · have hA' : ¬ arr = t.arr := fun h => hA h.symm
    exact Or.inr ⟨b, by rw [List.getElem?_set_ne hA']; exact hb, hl⟩


theorem foldlM_simulation {σ μ : Type} (f : σ → Nat → Option σ) (g : μ → Nat → Option μ)
    (view : μ → σ) (P : μ → Prop) (S : Nat → Prop)
    (hstep : ∀ i, S i → ∀ m s1, P m → f (view m) i = some s1 →
      ∃ m1, g m i = some m1 ∧ view m1 = s1 ∧ P m1)
    (is : List Nat) (his : ∀ i ∈ is, S i) :
    ∀ m s1, P m → is.foldlM f (view m) = some s1 →
      ∃ m1, is.foldlM g m = some m1 ∧ view m1 = s1 ∧ P m1 := by
  induction is with
  | nil =>
    intro m s1 hP h
    exact ⟨m, rfl, by simpa using h, hP⟩
  | cons i is ih =>
    intro m s1 hP h
    rw [List.foldlM_cons] at h ⊢
    cases hf : f (view m) i with
    | none => rw [hf] at h; exact Option.noConfusion h
    | some s2 =>
      rw [hf] at h
      obtain ⟨m2, hg, hv, hP2⟩ := hstep i (his i (List.mem_cons_self _ _)) m s2 hP hf
      rw [hg]
      subst hv
      exact ih (fun j hj => his j (List.mem_cons_of_mem _ hj)) m2 s1 hP2 h

theorem updateWeights_shared_step (n : Shared.Neuron α) (learnRate deltaY deltaOutput : α)
    (hI : n.Weights.Separate n.Inputs) (hD : n.Weights.Separate n.DerivativeWeights)
    (hDI : n.Weights.Separate n.DerivativeInputs) (m0 : Memory α)
    (i : Nat) (hi : i < n.Weights.len) (m : Memory α) (nl : Neuron α)
    (hP : n.Weights.Valid m ∧ ∀ t : Slice, n.Weights.Separate t → t.toList m = t.toList m0)
    (hstep : (do
        let dw ← (n.view m).DerivativeWeights[i]?
        let w ← (n.view m).Weights[i]?
        let ws ← setAt? (n.view m).Weights i
          (w - calculateAdjustmentForWeightOrBias (n.view m) learnRate deltaY deltaOutput dw)
        pure { (n.view m) with Weights := ws }) = some nl) :
    ∃ m1,
      (do
        let dw ← n.DerivativeWeights.get? m i
        let w ← n.Weights.get? m i
        n.Weights.set? m i
          (w - Shared.calculateAdjustmentForWeightOrBias n learnRate deltaY deltaOutput dw))
        = some m1 ∧
      n.view m1 = nl ∧
      (n.Weights.Valid m1 ∧ ∀ t : Slice, n.Weights.Separate t → t.toList m1 = t.toList m0) := by
  obtain ⟨hW, hframe⟩ := hP
  have hdw : (n.view m).DerivativeWeights[i]? = n.DerivativeWeights.get? m i :=
    Slice.getElem?_toList m _ i
  have hw : (n.view m).Weights[i]? = n.Weights.get? m i := Slice.getElem?_toList m _ i
  have hlen : (n.view m).Weights.length = n.Weights.len := Slice.length_toList m _ hW
  rw [hdw, hw] at hstep
  cases hdwv : n.DerivativeWeights.get? m i with
  | none => rw [hdwv] at hstep; exact Option.noConfusion hstep
  | some dw =>
    cases hwv : n.Weights.get? m i with
    | none => rw [hdwv, hwv] at hstep; exact Option.noConfusion hstep
    | some w =>
      rw [hdwv, hwv] at hstep
      obtain ⟨a, ha, hia, hl, hset⟩ := Slice.set?_eq m n.Weights i
        (w - Shared.calculateAdjustmentForWeightOrBias n learnRate deltaY deltaOutput dw) hW hi
      simp only [Option.bind_eq_bind, Option.some_bind, setAt?, hlen, hi, if_true,
        Option.pure_def, Option.some.injEq] at hstep
      refine ⟨m.set n.Weights.arr (a.set (n.Weights.off + i)
          (w - Shared.calculateAdjustmentForWeightOrBias n learnRate deltaY deltaOutput dw)),
        by simp only [Option.bind_eq_bind, Option.some_bind, hset], ?_,
        Slice.valid_set m _ _ a _ ha _ hW, fun t ht => ?_⟩
      · rw [← hstep]
        simp only [Shared.Neuron.view, Slice.toList_set_self m n.Weights i a _ ha hl hi,
          Slice.toList_set_separate m n.Weights _ i a _ ha hi hI,
          Slice.toList_set_separate m n.Weights _ i a _ ha hi hD,
          Slice.toList_set_separate m n.Weights _ i a _ ha hi hDI]
        rfl
      · rw [Slice.toList_set_separate m n.Weights t i a _ ha hi ht, hframe t ht]


theorem updateWeights_shared (m : Memory α) (n : Shared.Neuron α)
    (learnRate deltaY deltaOutput : α)
    (h : n.Weights.len ≤ n.DerivativeWeights.len)
    (hW : n.Weights.Valid m) (hV : n.DerivativeWeights.Valid m)
    (hI : n.Weights.Separate n.Inputs) (hD : n.Weights.Separate n.DerivativeWeights)
    (hDI : n.Weights.Separate n.DerivativeInputs) :
    ∃ m1, Shared.updateWeights m n learnRate deltaY deltaOutput = some m1 ∧
      n.view m1 = { (n.view m) with
        Weights :=
          (List.zipWith (fun w dw =>
              w - calculateAdjustmentForWeightOrBias (n.view m) learnRate deltaY deltaOutput dw)
            (n.view m).Weights (n.view m).DerivativeWeights) } ∧
      ∀ t : Slice, n.Weights.Separate t → t.toList m1 = t.toList m := by
  have hlenW : (n.view m).Weights.length = n.Weights.len := Slice.length_toList m _ hW
  have hlenD : (n.view m).DerivativeWeights.length = n.DerivativeWeights.len :=
    Slice.length_toList m _ hV
  have hl := updateWeights_eq (n.view m) learnRate deltaY deltaOutput (by omega)
  unfold updateWeights at hl
  rw [hlenW] at hl
  obtain ⟨m1, h1, h2, -, h3⟩ := foldlM_simulation _
    (fun (m : Memory α) i => do
      let dw ← n.DerivativeWeights.get? m i
      let w ← n.Weights.get? m i
      n.Weights.set? m i
        (w - Shared.calculateAdjustmentForWeightOrBias n learnRate deltaY deltaOutput dw))
    (fun m => n.view m)
    (fun m1 => n.Weights.Valid m1 ∧ ∀ t : Slice, n.Weights.Separate t → t.toList m1 = t.toList m)
    (fun i => i < n.Weights.len)
    (fun i hi m2 s1 hP hs =>
      updateWeights_shared_step n learnRate deltaY deltaOutput hI hD hDI m i hi m2 s1 hP hs)
    (List.range n.Weights.len) (fun i hi => List.mem_range.mp hi) m _ ⟨hW, fun _ _ => rfl⟩ hl
  exact ⟨m1, h1, h2, h3⟩

/-- C7: for a neuron whose slices lie within their arrays, with
`len(DerivativeWeights) >= len(Weights)` and whose Weights slice shares no
element with its Inputs, DerivativeWeights and DerivativeInputs slices,
UpdateWeightsAndBias completes; every `Weights[i]` decreases by
`learnRate * derivativeY * F * DerivativeWeights[i]` and Bias by
`learnRate * derivativeY * F * DerivativeBias`, where `F = 1` for an output
neuron and `F = derivativeOutput` otherwise; the slice values, Output, IsOutput,
DerivativeBias and every element of the memory outside the Weights slice (those
of Inputs, DerivativeWeights and DerivativeInputs among them) stay as they were,
and for an output neuron the result does not depend on derivativeOutput. -/
theorem UpdateWeightsAndBias_separate (m : Memory α) (n : Shared.Neuron α)
    (learnRate derivativeY derivativeOutput : α)
    (h : n.Weights.len ≤ n.DerivativeWeights.len)
    (hW : n.Weights.Valid m) (hV : n.DerivativeWeights.Valid m)
    (hI : n.Weights.Separate n.Inputs) (hD : n.Weights.Separate n.DerivativeWeights)
    (hDI : n.Weights.Separate n.DerivativeInputs) :
    ∃ m1 : Memory α,
      Shared.UpdateWeightsAndBias m n learnRate derivativeY derivativeOutput
        = some (m1, { n with Bias := n.Bias -
            learnRate * derivativeY * (if n.IsOutput then 1 else derivativeOutput)
              * n.DerivativeBias }) ∧
      n.Weights.toList m1
        = List.zipWith (fun w dw =>
            w - learnRate * derivativeY * (if n.IsOutput then 1 else derivativeOutput) * dw)
          (n.Weights.toList m) (n.DerivativeWeights.toList m) ∧
      (n.Weights.toList m1).length = (n.Weights.toList m).length ∧
      (n.Weights.toList m).length ≤ (n.DerivativeWeights.toList m).length ∧
      (∀ t : Slice, n.Weights.Separate t → t.toList m1 = t.toList m) ∧
      n.Inputs.toList m1 = n.Inputs.toList m ∧
      n.DerivativeWeights.toList m1 = n.DerivativeWeights.toList m ∧
      n.DerivativeInputs.toList m1 = n.DerivativeInputs.toList m ∧
      (n.IsOutput = true → ∀ other : α,
        Shared.UpdateWeightsAndBias m n learnRate derivativeY other
          = Shared.UpdateWeightsAndBias m n learnRate derivativeY derivativeOutput) := by
  have hadj : ∀ (dO dv : α),
      Shared.calculateAdjustmentForWeightOrBias n learnRate derivativeY dO dv
        = learnRate * derivativeY * (if n.IsOutput then 1 else dO) * dv := by
    intro dO dv
    unfold Shared.calculateAdjustmentForWeightOrBias
    by_cases ho : n.IsOutput = true <;> simp [ho]
  have hadjL : ∀ (dO dv : α),
      calculateAdjustmentForWeightOrBias (n.view m) learnRate derivativeY dO dv
        = learnRate * derivativeY * (if n.IsOutput then 1 else dO) * dv := fun dO dv => hadj dO dv
  have hlenW : (n.Weights.toList m).length = n.Weights.len := Slice.length_toList m _ hW
  have hlenD : (n.DerivativeWeights.toList m).length = n.DerivativeWeights.len :=
    Slice.length_toList m _ hV
  obtain ⟨m1, h1, h2, h3⟩ := updateWeights_shared m n learnRate derivativeY derivativeOutput
    h hW hV hI hD hDI
  have hw1 : n.Weights.toList m1
      = List.zipWith (fun w dw =>
          w - learnRate * derivativeY * (if n.IsOutput then 1 else derivativeOutput) * dw)
        (n.Weights.toList m) (n.DerivativeWeights.toList m) := by
    have := congrArg Neuron.Weights h2
    simp only [hadjL] at this
    exact this
  refine ⟨m1, ?_, hw1, ?_, by omega, h3, h3 _ hI, h3 _ hD, h3 _ hDI, ?_⟩
  · simp only [Shared.UpdateWeightsAndBias, h1, Option.bind_eq_bind, Option.some_bind,
      Option.pure_def, Shared.updateBias, hadj]
  · rw [hw1, List.length_zipWith]
    omega
  · intro ho other
    have hfun : ∀ dv : α,
        Shared.calculateAdjustmentForWeightOrBias n learnRate derivativeY other dv
          = Shared.calculateAdjustmentForWeightOrBias n learnRate derivativeY derivativeOutput
              dv := by
      intro dv
      rw [hadj, hadj, ho]
      rfl
    simp only [Shared.UpdateWeightsAndBias, Shared.updateWeights, Shared.updateBias, hfun]


/-- Witness of C7: a hidden neuron with weights [1,2,3] and inputs [2,1,3] on two
arrays, stored derivatives [-4,-2,-6] and -2, updated with learnRate 1/10,
derivativeY 1 and derivativeOutput 1/2: the weights become [1.2, 2.1, 3.3], the
bias 2.1, and the inputs are still [2,1,3]. -/
theorem UpdateWeightsAndBias_separate_witness :
    ∃ m1 : Memory ℚ,
      Shared.UpdateWeightsAndBias [[2, 1, 3], [1, 2, 3], [-4, -2, -6], [-2, -4, -6]]
          ⟨⟨0, 0, 3⟩, ⟨1, 0, 3⟩, 2, 2, false, ⟨2, 0, 3⟩, ⟨3, 0, 3⟩, -2⟩ (1 / 10) 1 (1 / 2)
        = some (m1, ⟨⟨0, 0, 3⟩, ⟨1, 0, 3⟩, 21 / 10, 2, false, ⟨2, 0, 3⟩, ⟨3, 0, 3⟩, -2⟩) ∧
      Slice.toList m1 ⟨1, 0, 3⟩ = [6 / 5, 21 / 10, 33 / 10] ∧
      Slice.toList m1 ⟨0, 0, 3⟩ = [2, 1, 3] := by
  obtain ⟨m1, h1, h2, -, -, -, h3, -⟩ := UpdateWeightsAndBias_separate
    ([[2, 1, 3], [1, 2, 3], [-4, -2, -6], [-2, -4, -6]] : Memory ℚ)
    ⟨⟨0, 0, 3⟩, ⟨1, 0, 3⟩, 2, 2, false, ⟨2, 0, 3⟩, ⟨3, 0, 3⟩, -2⟩ (1 / 10) 1 (1 / 2)
    (by decide) (Or.inr ⟨[1, 2, 3], rfl, by decide⟩) (Or.inr ⟨[-4, -2, -6], rfl, by decide⟩)
    (Or.inr (Or.inr (Or.inl (by decide)))) (Or.inr (Or.inr (Or.inl (by decide))))
    (Or.inr (Or.inr (Or.inl (by decide))))
  refine ⟨m1, ?_, ?_, ?_⟩
  · rw [h1]
    norm_num
  · rw [h2]
    norm_num [Slice.toList]
  · rw [h3]
    rfl

/-- C7 fails on slices that share memory: `NewNeuron` keeps the one slice `[2,1,3]` it is given
as Inputs and as Weights; with the derivatives `[-4,-2,-6]` stored by the
caller in DerivativeWeights, `UpdateWeightsAndBias(0.5, 1, 0.5)` stores the new weights
`[3, 1.5, 4.5]` in that array, and Inputs, `[2,1,3]` before, reads `[3, 1.5, 4.5]`
after.  In the same way a DerivativeWeights and DerivativeInputs slice on the
array of Weights, `[2,1,3]` before, reads `[1.5, 0.75, 2.25]` after. -/
theorem UpdateWeightsAndBias_shared_changes :
    Shared.NewNeuron ([[2, 1, 3]] : Memory ℚ) ⟨⟨0, 0, 3⟩, ⟨0, 0, 3⟩, 2, false⟩
        = (⟨⟨0, 0, 3⟩, ⟨0, 0, 3⟩, 2, 0, false, ⟨1, 0, 3⟩, ⟨2, 0, 3⟩, 0⟩,
            [[2, 1, 3], [0, 0, 0], [0, 0, 0]]) ∧
      ((Slice.set? ([[2, 1, 3], [0, 0, 0], [0, 0, 0]] : Memory ℚ) ⟨1, 0, 3⟩ 0 (-4)).bind
          (fun m => (Slice.set? m ⟨1, 0, 3⟩ 1 (-2)).bind (fun m => Slice.set? m ⟨1, 0, 3⟩ 2 (-6))))
        = some [[2, 1, 3], [-4, -2, -6], [0, 0, 0]] ∧
      Slice.toList ([[2, 1, 3], [-4, -2, -6], [0, 0, 0]] : Memory ℚ) ⟨0, 0, 3⟩ = [2, 1, 3] ∧
      (Shared.UpdateWeightsAndBias ([[2, 1, 3], [-4, -2, -6], [0, 0, 0]] : Memory ℚ)
          ⟨⟨0, 0, 3⟩, ⟨0, 0, 3⟩, 2, 0, false, ⟨1, 0, 3⟩, ⟨2, 0, 3⟩, 0⟩ (1 / 2) 1 (1 / 2)).map
        (fun r => Slice.toList r.1 r.2.Inputs) = some [3, 3 / 2, 9 / 2] ∧
      (Shared.UpdateWeightsAndBias ([[2, 1, 3], [4, 5, 6]] : Memory ℚ)
          ⟨⟨1, 0, 3⟩, ⟨0, 0, 3⟩, 2, 0, false, ⟨0, 0, 3⟩, ⟨0, 0, 3⟩, 0⟩ (1 / 2) 1 (1 / 2)).map
        (fun r => (Slice.toList r.1 r.2.DerivativeWeights, Slice.toList r.1 r.2.DerivativeInputs))
        = some ([3 / 2, 3 / 4, 9 / 4], [3 / 2, 3 / 4, 9 / 4]) := by
  refine ⟨?_, ?_, ?_, ?_, ?_⟩
  · simp [Shared.NewNeuron, Memory.make, makeFloats]
  · simp [Slice.set?, setAt?]
  · rfl
  · norm_num [Shared.UpdateWeightsAndBias, Shared.updateWeights, Shared.updateBias,
      Shared.calculateAdjustmentForWeightOrBias, Slice.get?, Slice.set?, Slice.toList, setAt?,
      List.range_succ]
  · norm_num [Shared.UpdateWeightsAndBias, Shared.updateWeights, Shared.updateBias,
      Shared.calculateAdjustmentForWeightOrBias, Slice.get?, Slice.set?, Slice.toList, setAt?,
      List.range_succ]

/-! ## Claims on the activation function, over the reals -/

theorem Sigmoid_real_eq (x : ℝ) : Sigmoid Real.exp x = 1 / (1 + Real.exp (-x)) := rfl

/-- C8: over the reals Sigmoid is strictly increasing, takes its values in
(0,1), and `Sigmoid(0) = 0.5`. -/
theorem Sigmoid_strictMono_bounded :
    StrictMono (Sigmoid Real.exp) ∧
      (∀ x : ℝ, 0 < Sigmoid Real.exp x ∧ Sigmoid Real.exp x < 1) ∧
      Sigmoid Real.exp 0 = 0.5 := by
  refine ⟨?_, ?_, ?_⟩
  · intro x y hxy
    have hx : 0 < 1 + Real.exp (-x) := by positivity
    have hy : 0 < 1 + Real.exp (-y) := by positivity
    have he : Real.exp (-y) < Real.exp (-x) := Real.exp_lt_exp.mpr (by linarith)
    rw [Sigmoid_real_eq, Sigmoid_real_eq]
    exact one_div_lt_one_div_of_lt hy (by linarith)
  · intro x
    have hx : 0 < Real.exp (-x) := Real.exp_pos _
    rw [Sigmoid_real_eq]
    constructor
    · positivity
    · rw [div_lt_one (by positivity)]
      linarith
  · rw [Sigmoid_real_eq]
    norm_num

/-- C10: for every real s, `DerivedSigmoid(s) = s * (1 - s)`; it is at most 0.25,
with equality exactly at `s = 0.5`, and it is zero exactly at `s = 0` and `s = 1`. -/
theorem DerivedSigmoid_real :
    (∀ s : ℝ, DerivedSigmoid s = s * (1 - s)) ∧
      (∀ s : ℝ, DerivedSigmoid s ≤ 0.25) ∧
      (∀ s : ℝ, DerivedSigmoid s = 0.25 ↔ s = 0.5) ∧
      (∀ s : ℝ, DerivedSigmoid s = 0 ↔ s = 0 ∨ s = 1) := by
  refine ⟨fun _ => rfl, ?_, ?_, ?_⟩
  · intro s
    unfold DerivedSigmoid
    nlinarith [sq_nonneg (s - 1 / 2)]
  · intro s
    unfold DerivedSigmoid
    constructor
    · intro h
      have h2 : (s - 1 / 2) ^ 2 = 0 := by linarith
      have h3 : s - 1 / 2 = 0 := by
        simpa using h2
      norm_num
      linarith
    · intro h
      rw [h]
      norm_num
  · intro s
    unfold DerivedSigmoid
    rw [mul_eq_zero, sub_eq_zero]
    constructor
    · rintro (h | h)
      · exact Or.inl h
      · exact Or.inr h.symm
    · rintro (h | h)
      · exact Or.inl h
      · exact Or.inr h.symm

theorem exp_seven_bounds :
    (2.7182818283 : ℝ) ^ 7 < Real.exp 7 ∧ Real.exp 7 < (2.7182818286 : ℝ) ^ 7 := by
  have h7 : Real.exp 7 = Real.exp 1 ^ 7 := by
    rw [← Real.exp_nat_mul]
    norm_num
  rw [h7]
  exact ⟨pow_lt_pow_left₀ Real.exp_one_gt_d9 (by norm_num) (by norm_num),
    pow_lt_pow_left₀ Real.exp_one_lt_d9 (Real.exp_pos 1).le (by norm_num)⟩

theorem exp_two_bounds :
    (2.7182818283 : ℝ) ^ 2 < Real.exp 2 ∧ Real.exp 2 < (2.7182818286 : ℝ) ^ 2 := by
  have h2 : Real.exp 2 = Real.exp 1 ^ 2 := by
    rw [← Real.exp_nat_mul]
    norm_num
  rw [h2]
  exact ⟨pow_lt_pow_left₀ Real.exp_one_gt_d9 (by norm_num) (by norm_num),
    pow_lt_pow_left₀ Real.exp_one_lt_d9 (Real.exp_pos 1).le (by norm_num)⟩

/-- C9, read over the reals: `Sigmoid(7.0)` and `Sigmoid(-2.0)` agree with the
decimals the test asserts, 0.99908894880559935 and 0.11920292202211755, to
within 1e-10. -/
theorem Sigmoid_test_values :
    |Sigmoid Real.exp 7 - 0.99908894880559935| < 1e-10 ∧
      |Sigmoid Real.exp (-2) - 0.11920292202211755| < 1e-10 := by
  constructor
  · obtain ⟨hlo, hhi⟩ := exp_seven_bounds
    have hpos : 0 < Real.exp 7 := Real.exp_pos 7
    have hS : Sigmoid Real.exp 7 = Real.exp 7 / (Real.exp 7 + 1) := by
      rw [Sigmoid_real_eq, Real.exp_neg]
      field_simp
    rw [hS, abs_lt]
    constructor
    · rw [lt_sub_iff_add_lt, lt_div_iff₀ (by positivity)]
      norm_num at hlo ⊢
      linarith
    · rw [sub_lt_iff_lt_add, div_lt_iff₀ (by positivity)]
      norm_num at hhi ⊢
      linarith
  · obtain ⟨hlo, hhi⟩ := exp_two_bounds
    have hpos : 0 < Real.exp 2 := Real.exp_pos 2
    have hS : Sigmoid Real.exp (-2) = 1 / (1 + Real.exp 2) := by
      rw [Sigmoid_real_eq, neg_neg]
    rw [hS, abs_lt]
    constructor
    · rw [lt_sub_iff_add_lt, lt_div_iff₀ (by positivity)]
      norm_num at hhi ⊢
      linarith
    · rw [sub_lt_iff_lt_add, div_lt_iff₀ (by positivity)]
      norm_num at hlo ⊢
      linarith

theorem hasDerivAt_Sigmoid (x : ℝ) :
    HasDerivAt (Sigmoid Real.exp) (DerivedSigmoid (Sigmoid Real.exp x)) x := by
  have hpos : 0 < 1 + Real.exp (-x) := by positivity
  have h1 : HasDerivAt (fun y : ℝ => Real.exp (-y)) (Real.exp (-x) * (-1)) x :=
    (Real.hasDerivAt_exp (-x)).comp x (hasDerivAt_neg x)
  have h2 : HasDerivAt (fun y : ℝ => 1 + Real.exp (-y)) (Real.exp (-x) * (-1)) x :=
    h1.const_add 1
  have h3 := h2.inv hpos.ne.symm
  have hfun : Sigmoid Real.exp = fun y : ℝ => (1 + Real.exp (-y))⁻¹ := by
    funext y
    rw [Sigmoid_real_eq, one_div]
  have hval : DerivedSigmoid (Sigmoid Real.exp x)
      = -(Real.exp (-x) * (-1)) / (1 + Real.exp (-x)) ^ 2 := by
    rw [Sigmoid_real_eq]
    unfold DerivedSigmoid
    field_simp
    ring
  rw [hval, hfun]
  exact h3

/-- C11: over the reals Sigmoid is differentiable at every x, and its derivative
there is `DerivedSigmoid(Sigmoid(x))`: DerivedSigmoid is the derivative of
Sigmoid written in terms of the output of Sigmoid. -/
theorem Sigmoid_hasDerivAt (x : ℝ) :
    HasDerivAt (Sigmoid Real.exp) (DerivedSigmoid (Sigmoid Real.exp x)) x :=
  hasDerivAt_Sigmoid x

/-! ## The length invariant of a neuron -/

theorem SetInputs_hasFanIn (n : Neuron α) (v : List α) (r : RandSource α)
    (h : n.DerivativeWeights.length = n.Weights.length) :
    (SetInputs n v r).1.HasFanIn v.length := by
  by_cases hl : n.Weights.length = v.length
  · rw [SetInputs_of_length_eq n v r hl]
    exact ⟨hl, rfl, h.trans hl, by simp [makeFloats]⟩
  · rw [SetInputs_of_length_ne n v r hl]
    exact ⟨by simp, rfl, by simp [makeFloats], by simp [makeFloats]⟩

theorem FeedForward_hasFanIn (exp : α → α) (n : Neuron α) (k : Nat) (h : n.HasFanIn k) :
    ∃ n1 y e, FeedForward exp n = some (n1, y, e) ∧ n1.HasFanIn k := by
  rw [FeedForward_of_length_eq exp n (h.2.1.trans h.1.symm)]
  exact ⟨_, _, _, rfl, h⟩

theorem CalculateAndStoreDerivatives_hasFanIn (n : Neuron α) (k : Nat) (h : n.HasFanIn k) :
    ∃ n1, CalculateAndStoreDerivatives n = some n1 ∧ n1.HasFanIn k := by
  obtain ⟨hW, hI, hDW, hDI⟩ := h
  rw [CalculateAndStoreDerivatives_of_lengths n (hI.trans hW.symm) (hDW.trans hW.symm)
    (hDI.trans hW.symm)]
  exact ⟨_, rfl, hW, hI, by simp [hI], by simp [hW]⟩

theorem UpdateWeightsAndBias_hasFanIn (n : Neuron α) (learnRate deltaY deltaOutput : α)
    (k : Nat) (h : n.HasFanIn k) :
    ∃ n1, UpdateWeightsAndBias n learnRate deltaY deltaOutput = some n1 ∧ n1.HasFanIn k := by
  obtain ⟨hW, hI, hDW, hDI⟩ := h
  rw [UpdateWeightsAndBias_eq n learnRate deltaY deltaOutput (by omega)]
  exact ⟨_, rfl, by simp [hW, hDW], hI, hDW, hDI⟩

/-- C19: a neuron returned by NewNeuron, once SetInputs(v) has been called, has
`len(Weights) = len(Inputs) = len(DerivativeWeights) = len(DerivativeInputs)`
(all equal to len(v)); and from any neuron with the four lengths equal, a later
SetInputs gives four equal lengths again, and FeedForward,
CalculateAndStoreDerivatives and UpdateWeightsAndBias complete and leave the four
lengths as they were. -/
theorem Neuron_length_invariant (exp : α → α) (input : NewNeuronInput α) (v : List α)
    (r : RandSource α) :
    (SetInputs (NewNeuron input) v r).1.HasFanIn v.length ∧
      ∀ (n : Neuron α) (k : Nat), n.HasFanIn k →
        (∀ (u : List α) (s : RandSource α), (SetInputs n u s).1.HasFanIn u.length) ∧
        (∃ n1 y e, FeedForward exp n = some (n1, y, e) ∧ n1.HasFanIn k) ∧
        (∃ n1, CalculateAndStoreDerivatives n = some n1 ∧ n1.HasFanIn k) ∧
        (∀ learnRate deltaY deltaOutput : α,
          ∃ n1, UpdateWeightsAndBias n learnRate deltaY deltaOutput = some n1 ∧
            n1.HasFanIn k) :=
  ⟨SetInputs_hasFanIn _ v r (by simp [NewNeuron, makeFloats]),
    fun n k h =>
      ⟨fun u s => SetInputs_hasFanIn n u s (h.2.2.1.trans h.1.symm),
        FeedForward_hasFanIn exp n k h,
        CalculateAndStoreDerivatives_hasFanIn n k h,
        fun learnRate deltaY deltaOutput =>
          UpdateWeightsAndBias_hasFanIn n learnRate deltaY deltaOutput k h⟩⟩

/-- Witness of C19: NewNeuron with nil inputs and weights [2,3], SetInputs with
three values, then CalculateAndStoreDerivatives. -/
theorem Neuron_length_invariant_witness :
    (SetInputs (NewNeuron ⟨[], [2, 3], 4, false⟩ : Neuron ℚ) [5, 6, 7]
        (fun _ => 1 / 2)).1.HasFanIn 3 ∧
      ∃ n1, CalculateAndStoreDerivatives
          (SetInputs (NewNeuron ⟨[], [2, 3], 4, false⟩ : Neuron ℚ) [5, 6, 7] (fun _ => 1 / 2)).1
            = some n1 ∧ n1.HasFanIn 3 :=
  have h := Neuron_length_invariant (fun x : ℚ => x) ⟨[], [2, 3], 4, false⟩ [5, 6, 7]
    (fun _ => 1 / 2)
  ⟨h.1, (h.2 _ 3 h.1).2.2.1⟩

/-! ## The forward pass -/

theorem collectOutputs_eq {β : Type} (layer : List (Neuron β)) :
    collectOutputs layer = layer.map (fun neuron => neuron.Output) := by
  have h : ∀ (l : List (Neuron β)) (acc : List β),
      l.foldl (fun inputs neuron => inputs ++ [neuron.Output]) acc
        = acc ++ l.map (fun neuron => neuron.Output) := by
    intro l
    induction l with
    | nil => intro acc; simp
    | cons x xs ih => intro acc; simp [ih]
  simpa [collectOutputs] using h layer []

theorem feedNeuron_eq (exp : α → α) (inputs : List α) (neuron : Neuron α)
    (r : RandSource α) :
    feedNeuron exp inputs neuron r
      = some ((feedNeuronP exp inputs neuron r).1, (feedNeuronP exp inputs neuron r).2, none) := by
  have hl : (SetInputs neuron inputs r).1.Inputs.length
      = (SetInputs neuron inputs r).1.Weights.length := by
    rw [(SetInputs_lengths neuron inputs r).1, (SetInputs_lengths neuron inputs r).2]
  simp [feedNeuron, feedNeuronP, FeedForward_of_length_eq exp _ hl]

theorem feedLayer_eq (exp : α → α) (inputs : List α) (layer : List (Neuron α))
    (r : RandSource α) :
    feedLayer exp inputs layer r = some (feedLayerP exp inputs layer r) := by
  have h : ∀ (l : List (Neuron α)) (acc : List (Neuron α)) (r : RandSource α),
      l.foldlM
          (fun (st : List (Neuron α) × RandSource α) neuron => do
            let f ← feedNeuron exp inputs neuron st.2
            pure (st.1 ++ [f.1], f.2.1))
          (acc, r)
        = some (acc ++ (feedLayerP exp inputs l r).1, (feedLayerP exp inputs l r).2) := by
    intro l
    induction l with
    | nil => intro acc r; simp [feedLayerP]
    | cons x xs ih =>
      intro acc r
      simp only [feedNeuron_eq, Option.bind_eq_bind, Option.some_bind, Option.pure_def] at ih
      simp only [List.foldlM_cons, feedNeuron_eq, Option.bind_eq_bind, Option.some_bind,
        Option.pure_def, ih, feedLayerP, List.append_assoc, List.singleton_append]
  simpa [feedLayer] using h layer [] r

theorem forwardP_length (exp : α → α) :
    ∀ (layers : List (List (Neuron α))) (inputs : List α) (r : RandSource α),
      (forwardP exp inputs layers r).1.length = layers.length := by
  intro layers
  induction layers with
  | nil => intro inputs r; rfl
  | cons l ls ih => intro inputs r; simp [forwardP, ih]

theorem forwardP_snoc (exp : α → α) (l : List (Neuron α)) :
    ∀ (layers : List (List (Neuron α))) (inputs : List α) (r : RandSource α),
      forwardP exp inputs (layers ++ [l]) r
        = ((forwardP exp inputs layers r).1
              ++ [(feedLayerP exp (forwardP exp inputs layers r).2.1 l
                    (forwardP exp inputs layers r).2.2).1],
            (feedLayerP exp (forwardP exp inputs layers r).2.1 l
                (forwardP exp inputs layers r).2.2).1.map (fun neuron => neuron.Output),
            (feedLayerP exp (forwardP exp inputs layers r).2.1 l
                (forwardP exp inputs layers r).2.2).2) := by
  intro layers
  induction layers with
  | nil => intro inputs r; simp [forwardP]
  | cons x xs ih => intro inputs r; simp [forwardP, ih]

theorem forwardP_inputs (exp : α → α) (layers : List (List (Neuron α))) (inputs : List α)
    (r : RandSource α) :
    (if layers.length = 0 then some inputs
      else ((forwardP exp inputs layers r).1[layers.length - 1]?).map collectOutputs)
      = some (forwardP exp inputs layers r).2.1 := by
  rcases List.eq_nil_or_concat layers with h | ⟨ls, l, h⟩
  · subst h
    simp [forwardP]
  · subst h
    rw [List.concat_eq_append, forwardP_snoc]
    have hlen : (forwardP exp inputs ls r).1.length = ls.length := forwardP_length exp ls inputs r
    simp [← hlen, collectOutputs_eq]

theorem feedForwardStep_eq (exp : α → α) (data : Data α) (n : Network α)
    (r : RandSource α) (k : Nat) (hk : k < n.layers.length) :
    feedForwardStep exp data
        ({ n with layers := (forwardP exp data.Variables (n.layers.take k) r).1
                    ++ n.layers.drop k },
          (forwardP exp data.Variables (n.layers.take k) r).2.2) k
      = some
          (if k = n.layers.length - 1 then
            ({ n with
                layers := (forwardP exp data.Variables (n.layers.take (k + 1)) r).1
                  ++ n.layers.drop (k + 1)
                prediction :=
                  (feedNeuronP exp (forwardP exp data.Variables (n.layers.take (k + 1)) r).2.1
                    n.prediction (forwardP exp data.Variables (n.layers.take (k + 1)) r).2.2).1 },
              (feedNeuronP exp (forwardP exp data.Variables (n.layers.take (k + 1)) r).2.1
                n.prediction (forwardP exp data.Variables (n.layers.take (k + 1)) r).2.2).2)
          else
            ({ n with layers := (forwardP exp data.Variables (n.layers.take (k + 1)) r).1
                        ++ n.layers.drop (k + 1) },
              (forwardP exp data.Variables (n.layers.take (k + 1)) r).2.2)) := by
  have htake : (n.layers.take k).length = k := by
    rw [List.length_take]; omega
  have hA : (forwardP exp data.Variables (n.layers.take k) r).1.length = k := by
    rw [forwardP_length, htake]
  have hin := forwardP_inputs exp (n.layers.take k) data.Variables r
  rw [htake] at hin
  have hsnoc : n.layers.take (k + 1) = n.layers.take k ++ [n.layers[k]] := by
    rw [List.take_succ, List.getElem?_eq_getElem hk]
    rfl
  have hget : ((forwardP exp data.Variables (n.layers.take k) r).1 ++ n.layers.drop k)[k]?
      = some n.layers[k] := by
    rw [List.drop_eq_getElem_cons hk]
    have := getElem?_append_cons (forwardP exp data.Variables (n.layers.take k) r).1
      (n.layers.drop (k + 1)) n.layers[k]
    rwa [hA] at this
  have hprev : (if k = 0 then some data.Variables
      else (((forwardP exp data.Variables (n.layers.take k) r).1 ++ n.layers.drop k)[k - 1]?).map
        collectOutputs)
      = some (forwardP exp data.Variables (n.layers.take k) r).2.1 := by
    rw [← hin]
    by_cases h0 : k = 0
    · simp [h0]
    · simp only [h0, if_false]
      rw [List.getElem?_append_left (by omega)]
  have hset : ((forwardP exp data.Variables (n.layers.take k) r).1 ++ n.layers.drop k).set k
        (feedLayerP exp (forwardP exp data.Variables (n.layers.take k) r).2.1 n.layers[k]
          (forwardP exp data.Variables (n.layers.take k) r).2.2).1
      = (forwardP exp data.Variables (n.layers.take (k + 1)) r).1 ++ n.layers.drop (k + 1) := by
    rw [hsnoc, forwardP_snoc, List.set_append_right _ _ (by omega), hA, Nat.sub_self,
      List.drop_eq_getElem_cons hk, List.set_cons_zero]
    simp only [List.append_assoc, List.singleton_append]
  have hlen : ((forwardP exp data.Variables (n.layers.take (k + 1)) r).1
      ++ n.layers.drop (k + 1)).length = n.layers.length := by
    rw [List.length_append, forwardP_length, List.length_take, List.length_drop]
    omega
  have hout : collectOutputs (feedLayerP exp (forwardP exp data.Variables (n.layers.take k) r).2.1
        n.layers[k] (forwardP exp data.Variables (n.layers.take k) r).2.2).1
      = (forwardP exp data.Variables (n.layers.take (k + 1)) r).2.1 := by
    rw [hsnoc, forwardP_snoc, collectOutputs_eq]
  have hrng : (feedLayerP exp (forwardP exp data.Variables (n.layers.take k) r).2.1
        n.layers[k] (forwardP exp data.Variables (n.layers.take k) r).2.2).2
      = (forwardP exp data.Variables (n.layers.take (k + 1)) r).2.2 := by
    rw [hsnoc, forwardP_snoc]
  unfold feedForwardStep
  by_cases h0 : k = 0
  · subst h0
    simp only [↓reduceIte, Option.some.injEq] at hprev
    rw [← hprev] at hset hout hrng
    simp only [hget, Option.bind_eq_bind, Option.some_bind, ↓reduceIte, feedLayer_eq,
      hset, hlen, hout, hrng, feedNeuron_eq, Option.pure_def]
    by_cases hlast : 0 = n.layers.length - 1
    · simp only [← hlast, if_true]
    · simp only [hlast, if_false]
  · simp only [h0, if_false] at hprev
    simp only [hget, Option.bind_eq_bind, Option.some_bind, h0, if_false, hprev, feedLayer_eq,
      hset, hlen, hout, hrng, feedNeuron_eq, Option.pure_def]
    by_cases hlast : k = n.layers.length - 1
    · simp only [← hlast, if_true]
    · simp only [hlast, if_false]

theorem feedForward_prefix (exp : α → α) (data : Data α) (n : Network α)
    (r : RandSource α) :
    ∀ k, k < n.layers.length →
      (List.range k).foldlM (feedForwardStep exp data) (n, r)
        = some ({ n with layers := (forwardP exp data.Variables (n.layers.take k) r).1
                            ++ n.layers.drop k },
            (forwardP exp data.Variables (n.layers.take k) r).2.2) := by
  intro k
  induction k with
  | zero => intro _; simp [forwardP]
  | succ k ih =>
    intro hk
    rw [List.range_succ, List.foldlM_append, ih (by omega)]
    simp only [Option.bind_eq_bind, Option.some_bind, List.foldlM_cons, List.foldlM_nil]
    rw [feedForwardStep_eq exp data n r k (by omega)]
    have hne : ¬ k = n.layers.length - 1 := by omega
    simp only [hne, if_false, Option.some_bind, Option.pure_def]

theorem feedForward_eq (exp : α → α) (n : Network α) (data : Data α) (r : RandSource α) :
    feedForward exp n data r
      = some ((feedForwardP exp n data r).1.prediction.Output, (feedForwardP exp n data r).1,
          (feedForwardP exp n data r).2) := by
  unfold feedForward feedForwardP
  by_cases h0 : n.layers.length = 0
  · simp [h0]
  · obtain ⟨m, hm⟩ : ∃ m, n.layers.length = m + 1 := ⟨n.layers.length - 1, by omega⟩
    have htake : n.layers.take (m + 1) = n.layers := List.take_of_length_le (by omega)
    have hdrop : n.layers.drop (m + 1) = [] := List.drop_of_length_le (by omega)
    rw [hm, List.range_succ, List.foldlM_append, feedForward_prefix exp data n r m (by omega)]
    simp only [Option.bind_eq_bind, Option.some_bind, List.foldlM_cons, List.foldlM_nil]
    rw [feedForwardStep_eq exp data n r m (by omega)]
    have hlast : m = n.layers.length - 1 := by omega
    simp only [← hlast, if_true, htake, hdrop, List.append_nil, Option.some_bind,
      Option.pure_def]
    simp

/-! ## A second forward pass on the same sample changes nothing -/

theorem SetInputs_fields (n : Neuron α) (v : List α) (r : RandSource α) :
    (SetInputs n v r).1.Inputs = v ∧
      (SetInputs n v r).1.Weights.length = v.length ∧
      (SetInputs n v r).1.DerivativeInputs = makeFloats v.length ∧
      (SetInputs n v r).1.Bias = n.Bias ∧
      (SetInputs n v r).1.IsOutput = n.IsOutput := by
  by_cases h : n.Weights.length = v.length
  · rw [SetInputs_of_length_eq n v r h]
    exact ⟨rfl, h, rfl, rfl, rfl⟩
  · rw [SetInputs_of_length_ne n v r h]
    exact ⟨rfl, by simp, rfl, rfl, rfl⟩

theorem feedNeuronP_idem (exp : α → α) (v : List α) (n : Neuron α) (r s : RandSource α) :
    feedNeuronP exp v (feedNeuronP exp v n r).1 s = ((feedNeuronP exp v n r).1, s) := by
  obtain ⟨hI, hW, hDI, -, -⟩ := SetInputs_fields n v r
  unfold feedNeuronP
  generalize SetInputs n v r = p at hI hW hDI
  obtain ⟨m, q⟩ := p
  simp only at hI hW hDI
  rw [SetInputs_of_length_eq _ v s (by simpa using hW)]
  simp [weightedSum, hI, hDI]

theorem feedLayerP_idem (exp : α → α) (v : List α) :
    ∀ (layer : List (Neuron α)) (r s : RandSource α),
      feedLayerP exp v (feedLayerP exp v layer r).1 s = ((feedLayerP exp v layer r).1, s) := by
  intro layer
  induction layer with
  | nil => intro r s; rfl
  | cons x xs ih =>
    intro r s
    simp only [feedLayerP, feedNeuronP_idem, ih]

theorem forwardP_idem (exp : α → α) :
    ∀ (layers : List (List (Neuron α))) (v : List α) (r s : RandSource α),
      forwardP exp v (forwardP exp v layers r).1 s
        = ((forwardP exp v layers r).1, (forwardP exp v layers r).2.1, s) := by
  intro layers
  induction layers with
  | nil => intro v r s; rfl
  | cons x xs ih =>
    intro v r s
    simp only [forwardP, feedLayerP_idem, ih]

theorem feedForwardP_idem (exp : α → α) (n : Network α) (data : Data α)
    (r s : RandSource α) :
    feedForwardP exp (feedForwardP exp n data r).1 data s
      = ((feedForwardP exp n data r).1, s) := by
  by_cases h0 : n.layers.length = 0
  · simp [feedForwardP, h0]
  · have hlen : (forwardP exp data.Variables n.layers r).1.length ≠ 0 := by
      rw [forwardP_length]; exact h0
    simp only [feedForwardP, h0, if_false, hlen, forwardP_idem, feedNeuronP_idem]

/-- C13: for every network state and every sample d, Predict(d) completes, and a
second Predict(d) right after it returns the same value and leaves the whole
network (every weight and bias included) and the random source exactly as the
first call left them: nothing is drawn and nothing is updated. -/
theorem Predict_idempotent (exp : α → α) (n : Network α) (d : Data α) (r : RandSource α) :
    ∃ (y : α) (n1 : Network α) (r1 : RandSource α),
      Predict exp n d r = some (y, n1, r1) ∧
        ∀ s : RandSource α, Predict exp n1 d s = some (y, n1, s) := by
  refine ⟨_, _, _, feedForward_eq exp n d r, fun s => ?_⟩
  unfold Predict
  rw [feedForward_eq, feedForwardP_idem]

/-! ## The forward pass of a network whose weights are bound -/

theorem feedNeuronP_bound (exp : α → α) (v : List α) (n : Neuron α) (r : RandSource α)
    (h : n.Weights.length = v.length) :
    feedNeuronP exp v n r = (fedNeuron exp v n, r) := by
  unfold feedNeuronP
  rw [SetInputs_of_length_eq n v r h]
  rfl

theorem feedLayerP_bound (exp : α → α) (v : List α) :
    ∀ (layer : List (Neuron α)) (r : RandSource α),
      (∀ n ∈ layer, n.Weights.length = v.length) →
      feedLayerP exp v layer r = (layer.map (fedNeuron exp v), r) := by
  intro layer
  induction layer with
  | nil => intro r _; rfl
  | cons x xs ih =>
    intro r h
    simp only [feedLayerP, feedNeuronP_bound exp v x r (h x (List.mem_cons_self _ _)),
      ih r (fun n hn => h n (List.mem_cons_of_mem _ hn)), List.map_cons]

theorem mlpHidden_cons (exp : α → α) (v : List α) (layer : List (Neuron α))
    (rest : List (List (Neuron α))) :
    mlpHidden exp v (layer :: rest) = mlpHidden exp (layer.map (mlpNeuron exp v)) rest := rfl

theorem forwardP_bound (exp : α → α) (p : Neuron α) :
    ∀ (layers : List (List (Neuron α))) (v : List α) (r : RandSource α),
      boundFrom v.length layers p →
      forwardP exp v layers r = (fedLayers exp v layers, mlpHidden exp v layers, r) ∧
        p.Weights.length = (mlpHidden exp v layers).length := by
  intro layers
  induction layers with
  | nil => intro v r h; exact ⟨rfl, h⟩
  | cons x xs ih =>
    intro v r h
    obtain ⟨hx, hrest⟩ := h
    have hmap : (x.map (fedNeuron exp v)).map (fun neuron => neuron.Output)
        = x.map (mlpNeuron exp v) := by
      simp [fedNeuron]
    have hlen : (x.map (mlpNeuron exp v)).length = x.length := by simp
    rw [← hlen] at hrest
    obtain ⟨h1, h2⟩ := ih (x.map (mlpNeuron exp v)) r hrest
    refine ⟨?_, by rw [mlpHidden_cons]; exact h2⟩
    simp only [forwardP, feedLayerP_bound exp v x r hx, hmap, h1, fedLayers, mlpHidden_cons]

theorem feedForwardP_bound (exp : α → α) (n : Network α) (data : Data α) (r : RandSource α)
    (h0 : n.layers ≠ []) (h : n.Bound data.Variables.length) :
    feedForwardP exp n data r
      = ({ n with
            layers := fedLayers exp data.Variables n.layers
            prediction := fedNeuron exp (mlpHidden exp data.Variables n.layers) n.prediction },
          r) := by
  obtain ⟨h1, h2⟩ := forwardP_bound exp n.prediction n.layers data.Variables r h
  have hl : ¬ n.layers.length = 0 := by
    intro hc
    exact h0 (List.length_eq_zero.mp hc)
  simp only [feedForwardP, hl, if_false, h1, feedNeuronP_bound exp _ n.prediction r h2]

/-- C12: for a network with at least one hidden layer whose weights are bound
to the right lengths (len(features) in layer 0, the width of the layer before
elsewhere and in the output neuron), Predict(features) completes, draws nothing,
returns the value of the reference multilayer perceptron, and stores that value
as the Output of the output neuron. -/
theorem Predict_eq_mlp (exp : α → α) (n : Network α) (d : Data α) (r : RandSource α)
    (h0 : n.layers ≠ []) (h : n.Bound d.Variables.length) :
    ∃ n1 : Network α,
      Predict exp n d r = some (mlpPredict exp d.Variables n, n1, r) ∧
        n1.prediction.Output = mlpPredict exp d.Variables n := by
  unfold Predict
  rw [feedForward_eq, feedForwardP_bound exp n d r h0 h]
  exact ⟨_, rfl, rfl⟩

/-! ## The loops that walk the layers backwards -/

theorem mapLayersFrom_const {β : Type} (f : List (Neuron β) → List (Neuron β)) :
    ∀ (layers : List (List (Neuron β))) (k : Nat),
      mapLayersFrom (fun _ layer => f layer) k layers = layers.map f := by
  intro layers
  induction layers with
  | nil => intro k; rfl
  | cons x xs ih => intro k; simp [mapLayersFrom, ih]

theorem mapLayersFrom_length {β : Type} (g : Nat → List (Neuron β) → List (Neuron β)) :
    ∀ (layers : List (List (Neuron β))) (k : Nat),
      (mapLayersFrom g k layers).length = layers.length := by
  intro layers
  induction layers with
  | nil => intro k; rfl
  | cons x xs ih => intro k; simp [mapLayersFrom, ih]

theorem mapLayersFrom_getElem? {β : Type} (g : Nat → List (Neuron β) → List (Neuron β)) :
    ∀ (layers : List (List (Neuron β))) (k i : Nat),
      (mapLayersFrom g k layers)[i]? = (layers[i]?).map (g (k + i)) := by
  intro layers
  induction layers with
  | nil => intro k i; simp [mapLayersFrom]
  | cons x xs ih =>
    intro k i
    cases i with
    | zero => simp [mapLayersFrom]
    | succ i =>
      have hk : k + 1 + i = k + (i + 1) := by omega
      simp only [mapLayersFrom, List.getElem?_cons_succ, ih, hk]

theorem reverseLayers_eq {β : Type}
    (body : Network β → Nat → List (Neuron β) → Option (List (Neuron β)))
    (g : Nat → List (Neuron β) → List (Neuron β)) (n : Network β)
    (h : ∀ (k : Nat) (hk : k < n.layers.length),
      body { n with layers := n.layers.take (k + 1)
                      ++ mapLayersFrom g (k + 1) (n.layers.drop (k + 1)) } k n.layers[k]
        = some (g k n.layers[k])) :
    reverseLayers body n = some { n with layers := mapLayersFrom g 0 n.layers } := by
  have aux : ∀ m, m ≤ n.layers.length →
      (List.range m).reverse.foldlM (updateLayerAt body)
          { n with layers := n.layers.take m ++ mapLayersFrom g m (n.layers.drop m) }
        = some { n with layers := mapLayersFrom g 0 n.layers } := by
    intro m
    induction m with
    | zero => intro _; simp
    | succ m ih =>
      intro hm
      have hlt : m < n.layers.length := by omega
      have htake : (n.layers.take (m + 1)).length = m + 1 := by
        rw [List.length_take]; omega
      have hget : (n.layers.take (m + 1)
          ++ mapLayersFrom g (m + 1) (n.layers.drop (m + 1)))[m]? = some n.layers[m] := by
        rw [List.getElem?_append_left (by omega), List.getElem?_take_of_lt (by omega),
          List.getElem?_eq_getElem hlt]
      have hset : (n.layers.take (m + 1)
          ++ mapLayersFrom g (m + 1) (n.layers.drop (m + 1))).set m (g m n.layers[m])
          = n.layers.take m ++ mapLayersFrom g m (n.layers.drop m) := by
        rw [List.set_append_left _ _ (by omega), List.take_succ, List.getElem?_eq_getElem hlt,
          List.drop_eq_getElem_cons hlt]
        have hl : (n.layers.take m).length = m := by
          rw [List.length_take]; omega
        simp only [Option.toList, mapLayersFrom]
        rw [List.set_append_right _ _ (by omega), hl, Nat.sub_self, List.set_cons_zero]
        simp
      rw [List.range_succ, List.reverse_append, List.reverse_singleton, List.singleton_append,
        List.foldlM_cons]
      unfold updateLayerAt
      simp only [hget, Option.bind_eq_bind, Option.some_bind, h m hlt, Option.pure_def, hset]
      exact ih (by omega)
  have hfull := aux n.layers.length (Nat.le_refl _)
  rw [List.take_of_length_le (Nat.le_refl _), List.drop_of_length_le (Nat.le_refl _)] at hfull
  simpa [mapLayersFrom, reverseLayers] using hfull

theorem mapM_eq_some_map {β γ : Type} (f : β → Option γ) (g : β → γ) :
    ∀ (l : List β), (∀ x ∈ l, f x = some (g x)) → l.mapM f = some (l.map g) := by
  intro l
  induction l with
  | nil => intro _; rfl
  | cons x xs ih =>
    intro h
    rw [List.mapM_cons, h x (List.mem_cons_self _ _),
      ih (fun y hy => h y (List.mem_cons_of_mem _ hy))]
    rfl

theorem CalculateAndStoreDerivatives_synced (m : Neuron α) (h : m.Synced) :
    CalculateAndStoreDerivatives m = some (casdP m) :=
  CalculateAndStoreDerivatives_of_lengths m h.2.1 h.2.2.1 h.2.2.2

theorem UpdateWeightsAndBias_synced (m : Neuron α) (learnRate deltaY deltaOutput : α)
    (h : m.Synced) :
    UpdateWeightsAndBias m learnRate deltaY deltaOutput
      = some (updP m learnRate deltaY deltaOutput) :=
  UpdateWeightsAndBias_eq m learnRate deltaY deltaOutput (Nat.le_of_eq h.2.2.1.symm)

theorem casdP_synced (m : Neuron α) (h : m.Synced) :
    (casdP m).Synced ∧ (casdP m).DerivativeInputs.length = m.DerivativeInputs.length := by
  obtain ⟨-, hI, hDW, hDI⟩ := h
  refine ⟨⟨rfl, hI, ?_, ?_⟩, ?_⟩
  · simp [casdP, hI]
  · simp [casdP]
  · simp [casdP, hDI]

theorem updP_synced (m : Neuron α) (learnRate deltaY deltaOutput : α) (h : m.Synced) :
    (updP m learnRate deltaY deltaOutput).Synced := by
  obtain ⟨-, hI, hDW, hDI⟩ := h
  have hl : (updP m learnRate deltaY deltaOutput).Weights.length = m.Weights.length := by
    simp [updP, hDW]
  exact ⟨rfl, by rw [hl]; exact hI, by rw [hl]; exact hDW, by rw [hl]; exact hDI⟩

theorem backPropagate_eq (n : Network α) (hp : n.prediction.Synced)
    (hl : ∀ l ∈ n.layers, ∀ m ∈ l, m.Synced) :
    backPropagate n = some (backP n) := by
  unfold backPropagate
  rw [CalculateAndStoreDerivatives_synced n.prediction hp]
  simp only [Option.bind_eq_bind, Option.some_bind]
  rw [reverseLayers_eq _ (fun _ layer => layer.map casdP)]
  · simp [mapLayersFrom_const, backP]
  · intro k hk
    exact mapM_eq_some_map _ _ _
      (fun m hm => CalculateAndStoreDerivatives_synced m
        (hl _ (List.getElem_mem hk) m hm))

theorem meanDerivativeInputs_eq (next : List (Neuron α)) (j : Nat)
    (h1 : ∀ m ∈ next, j < m.DerivativeInputs.length) (h2 : next ≠ []) :
    meanDerivativeInputs next j
      = some ((next.map (fun m => (m.DerivativeInputs[j]?).getD 0)).sum
          / ((next.length : Nat) : α)) := by
  have aux : ∀ (l : List (Neuron α)) (acc : α),
      (∀ m ∈ l, j < m.DerivativeInputs.length) →
      l.foldlM
          (fun (derivativeOutput : α) (neuron : Neuron α) => do
            let d ← neuron.DerivativeInputs[j]?
            pure (derivativeOutput + d))
          acc
        = some (acc + (l.map (fun m => (m.DerivativeInputs[j]?).getD 0)).sum) := by
    intro l
    induction l with
    | nil => intro acc _; simp
    | cons x xs ih =>
      intro acc h
      have hx : j < x.DerivativeInputs.length := h x (List.mem_cons_self _ _)
      have hrec := ih (acc + x.DerivativeInputs[j]) (fun m hm => h m (List.mem_cons_of_mem _ hm))
      simp only [Option.bind_eq_bind, Option.pure_def] at hrec
      simp only [List.foldlM_cons, List.getElem?_eq_getElem hx, Option.bind_eq_bind,
        Option.some_bind, Option.pure_def, hrec, List.map_cons, List.sum_cons, Option.getD_some,
        add_assoc]
  have hlen : ¬ next.length = 0 := by
    intro hc
    exact h2 (List.length_eq_zero.mp hc)
  unfold meanDerivativeInputs
  rw [aux next 0 h1]
  simp [hlen]

theorem derivativeOutputOf_eq (n : Network α) (w : Nat) (h : n.Fed w)
    (g : Nat → List (Neuron α) → List (Neuron α))
    (hg : ∀ i l, (g i l).map (fun m => m.DerivativeInputs)
      = l.map (fun m => m.DerivativeInputs))
    (p : Neuron α) (hp : p.DerivativeInputs = n.prediction.DerivativeInputs)
    (k : Nat) (hk : k < n.layers.length) (j : Nat) (hj : j < w) :
    derivativeOutputOf
        { learnRate := n.learnRate
          prediction := p
          layers := n.layers.take (k + 1) ++ mapLayersFrom g (k + 1) (n.layers.drop (k + 1)) }
        k j
      = some (chainFactor n k j) := by
  obtain ⟨hwf, htail, hpred⟩ := h
  have hne : n.layers ≠ [] := by
    intro hc
    rw [hc] at hk
    simp at hk
  have hlen : (n.layers.take (k + 1)
      ++ mapLayersFrom g (k + 1) (n.layers.drop (k + 1))).length = n.layers.length := by
    rw [List.length_append, List.length_take, mapLayersFrom_length, List.length_drop]
    omega
  unfold derivativeOutputOf chainFactor
  simp only [hlen]
  by_cases hlast : k = n.layers.length - 1
  · have hjp : j < n.prediction.DerivativeInputs.length := by
      rw [hpred hne]; exact hj
    simp only [← hlast, if_true, hp, List.getElem?_eq_getElem hjp, Option.getD_some]
  · have hk1 : k + 1 < n.layers.length := by omega
    have htk : (n.layers.take (k + 1)).length = k + 1 := by
      rw [List.length_take]; omega
    have hnext : (n.layers.take (k + 1)
        ++ mapLayersFrom g (k + 1) (n.layers.drop (k + 1)))[k + 1]?
        = some (g (k + 1) n.layers[k + 1]) := by
      rw [List.getElem?_append_right (by omega), htk, Nat.sub_self, mapLayersFrom_getElem?,
        List.getElem?_drop]
      simp only [Nat.add_zero, List.getElem?_eq_getElem hk1, Option.map_some']
    have hmapDI : ∀ (f : List α → α),
        (g (k + 1) n.layers[k + 1]).map (fun m => f m.DerivativeInputs)
          = n.layers[k + 1].map (fun m => f m.DerivativeInputs) := by
      intro f
      have := congrArg (List.map f) (hg (k + 1) n.layers[k + 1])
      simpa [List.map_map] using this
    have hglen : (g (k + 1) n.layers[k + 1]).length = n.layers[k + 1].length := by
      have := congrArg List.length (hg (k + 1) n.layers[k + 1])
      simpa using this
    have horig : ∀ m ∈ n.layers[k + 1], m.DerivativeInputs.length = w :=
      htail k n.layers[k + 1] (List.getElem?_eq_getElem hk1)
    have hj1 : ∀ m ∈ g (k + 1) n.layers[k + 1], j < m.DerivativeInputs.length := by
      intro m hm
      have hmem : m.DerivativeInputs
          ∈ (g (k + 1) n.layers[k + 1]).map (fun m => m.DerivativeInputs) :=
        List.mem_map_of_mem _ hm
      rw [hg] at hmem
      obtain ⟨m0, hm0, he⟩ := List.mem_map.mp hmem
      rw [← he, horig m0 hm0]
      exact hj
    have hwidth : n.layers[k + 1].length = w := (hwf.1 _ (List.getElem_mem hk1)).1
    have hne1 : g (k + 1) n.layers[k + 1] ≠ [] := by
      intro hc
      rw [hc] at hglen
      simp at hglen
      omega
    simp only [hlast, if_false, hnext, Option.bind_eq_bind, Option.some_bind,
      meanDerivativeInputs_eq _ j hj1 hne1, hglen, List.getElem?_eq_getElem hk1, Option.getD_some,
      hmapDI (fun d => (d[j]?).getD 0)]

theorem enum_map_updP_DerivativeInputs {β : Type} (layer : List (Neuron β))
    (f : Nat → Neuron β → Neuron β)
    (hf : ∀ j m, (f j m).DerivativeInputs = m.DerivativeInputs) :
    (layer.enum.map (fun p => f p.1 p.2)).map (fun m => m.DerivativeInputs)
      = layer.map (fun m => m.DerivativeInputs) := by
  rw [List.map_map]
  have h1 : ((fun m : Neuron β => m.DerivativeInputs) ∘ fun p : Nat × Neuron β => f p.1 p.2)
      = (fun m : Neuron β => m.DerivativeInputs) ∘ Prod.snd := by
    funext p
    exact hf p.1 p.2
  rw [h1, ← List.map_map, List.enum_map_snd]

theorem adjustNeuronsWeightsAndBias_eq (n : Network α) (data : Data α) (w : Nat)
    (h : n.Fed w) :
    adjustNeuronsWeightsAndBias n data = some (adjustP n data) := by
  have hwf := h.1
  simp only [adjustNeuronsWeightsAndBias, UpdateWeightsAndBias_synced n.prediction _ _ _ hwf.2.1,
    Option.bind_eq_bind, Option.some_bind]
  rw [reverseLayers_eq _
    (fun i layer =>
      layer.enum.map (fun p => updP p.2 n.learnRate (deltaY n data) (chainFactor n i p.1)))]
  · rfl
  · intro k hk
    have hk0 : k < n.layers.length := hk
    have hLk := hwf.1 _ (List.getElem_mem hk0)
    unfold adjustLayer
    refine mapM_eq_some_map _ _ _ (fun q hq => ?_)
    have hj : q.1 < w := by
      have := List.fst_lt_of_mem_enum hq
      rw [hLk.1] at this
      exact this
    have hm : q.2.Synced := (hLk.2 _ (List.snd_mem_of_mem_enum hq)).1
    have hd := derivativeOutputOf_eq n w h
      (fun i layer =>
        layer.enum.map (fun p => updP p.2 n.learnRate (deltaY n data) (chainFactor n i p.1)))
      (fun i l => enum_map_updP_DerivativeInputs l
        (fun j m => updP m n.learnRate (deltaY n data) (chainFactor n i j)) (fun _ _ => rfl))
      (updP n.prediction n.learnRate (deltaY n data) 0) rfl k hk0 q.1 hj
    simp only [hd, Option.bind_eq_bind, Option.some_bind]
    exact UpdateWeightsAndBias_synced q.2 _ _ _ hm

/-! ## Well-formed networks through a training step -/

theorem Neuron.HasFanIn.synced {β : Type} {m : Neuron β} {k : Nat} (h : m.HasFanIn k) :
    m.Synced := by
  unfold Neuron.Synced
  rw [h.1]
  exact h

theorem feedNeuronP_props (exp : α → α) (v : List α) (m : Neuron α) (r : RandSource α)
    (hm : m.Synced) :
    (feedNeuronP exp v m r).1.HasFanIn v.length ∧
      (feedNeuronP exp v m r).1.IsOutput = m.IsOutput :=
  ⟨SetInputs_hasFanIn m v r hm.2.2.1, (SetInputs_fields m v r).2.2.2.2⟩

theorem feedLayerP_props (exp : α → α) (v : List α) (b : Bool) :
    ∀ (l : List (Neuron α)) (r : RandSource α),
      (∀ m ∈ l, m.Synced ∧ m.IsOutput = b) →
      (feedLayerP exp v l r).1.length = l.length ∧
        ∀ m ∈ (feedLayerP exp v l r).1, m.HasFanIn v.length ∧ m.IsOutput = b := by
  intro l
  induction l with
  | nil => intro r _; exact ⟨rfl, fun m hm => by simp [feedLayerP] at hm⟩
  | cons x xs ih =>
    intro r h
    obtain ⟨hx1, hx2⟩ := feedNeuronP_props exp v x r (h x (List.mem_cons_self _ _)).1
    obtain ⟨i1, i2⟩ := ih (feedNeuronP exp v x r).2
      (fun m hm => h m (List.mem_cons_of_mem _ hm))
    refine ⟨by simp [feedLayerP, i1], ?_⟩
    intro m hm
    simp only [feedLayerP, List.mem_cons] at hm
    rcases hm with rfl | hm
    · exact ⟨hx1, hx2.trans (h x (List.mem_cons_self _ _)).2⟩
    · exact i2 m hm

theorem forwardP_props (exp : α → α) (w : Nat) :
    ∀ (layers : List (List (Neuron α))) (v : List α) (r : RandSource α),
      (∀ l ∈ layers, l.length = w ∧ ∀ m ∈ l, m.Synced ∧ m.IsOutput = false) →
      (∀ l ∈ (forwardP exp v layers r).1,
          l.length = w ∧ ∀ m ∈ l, m.Synced ∧ m.IsOutput = false) ∧
        (v.length = w →
          ∀ l ∈ (forwardP exp v layers r).1, ∀ m ∈ l, m.DerivativeInputs.length = w) ∧
        (∀ (i : Nat) (l : List (Neuron α)), (forwardP exp v layers r).1[i + 1]? = some l →
          ∀ m ∈ l, m.DerivativeInputs.length = w) ∧
        (layers ≠ [] → (forwardP exp v layers r).2.1.length = w) := by
  intro layers
  induction layers with
  | nil =>
    intro v r _
    refine ⟨?_, ?_, ?_, fun hc => absurd rfl hc⟩
    · intro l hl; simp [forwardP] at hl
    · intro _ l hl; simp [forwardP] at hl
    · intro i l hl; simp [forwardP] at hl
  | cons x xs ih =>
    intro v r h
    obtain ⟨hxw, hxm⟩ := h x (List.mem_cons_self _ _)
    obtain ⟨f1, f2⟩ := feedLayerP_props exp v false x r hxm
    have hv : ((feedLayerP exp v x r).1.map (fun neuron => neuron.Output)).length = w := by
      rw [List.length_map, f1, hxw]
    obtain ⟨i1, i2, -, i4⟩ := ih ((feedLayerP exp v x r).1.map (fun neuron => neuron.Output))
      (feedLayerP exp v x r).2 (fun l hl => h l (List.mem_cons_of_mem _ hl))
    refine ⟨?_, ?_, ?_, ?_⟩
    · intro l hl
      simp only [forwardP, List.mem_cons] at hl
      rcases hl with rfl | hl
      · exact ⟨f1.trans hxw, fun m hm => ⟨(f2 m hm).1.synced, (f2 m hm).2⟩⟩
      · exact i1 l hl
    · intro hvw l hl
      simp only [forwardP, List.mem_cons] at hl
      rcases hl with rfl | hl
      · intro m hm
        rw [(f2 m hm).1.2.2.2, hvw]
      · exact i2 hv l hl
    · intro i l hl
      simp only [forwardP, List.getElem?_cons_succ] at hl
      exact i2 hv l (List.getElem?_mem hl)
    · intro _
      by_cases hxs : xs = []
      · subst hxs
        simpa [forwardP] using hv
      · simpa [forwardP] using i4 hxs

theorem feedForwardP_fed (exp : α → α) (n : Network α) (data : Data α) (r : RandSource α)
    (w : Nat) (h : n.WellFormed w) :
    (feedForwardP exp n data r).1.Fed w := by
  by_cases h0 : n.layers.length = 0
  · have hnil : n.layers = [] := List.length_eq_zero.mp h0
    simp only [feedForwardP, h0, if_true]
    exact ⟨h, fun i l hl => by simp [hnil] at hl, fun hc => absurd hnil hc⟩
  · have hne : n.layers ≠ [] := fun hc => h0 (by simp [hc])
    obtain ⟨p1, -, p3, p4⟩ := forwardP_props exp w n.layers data.Variables r h.1
    obtain ⟨q1, q2⟩ := feedNeuronP_props exp (forwardP exp data.Variables n.layers r).2.1
      n.prediction (forwardP exp data.Variables n.layers r).2.2 h.2.1
    simp only [feedForwardP, h0, if_false]
    refine ⟨⟨p1, q1.synced, q2.trans h.2.2⟩, p3, fun _ => ?_⟩
    rw [q1.2.2.2, p4 hne]

theorem backP_fed (n : Network α) (w : Nat) (h : n.Fed w) : (backP n).Fed w := by
  obtain ⟨⟨hl, hp, hpo⟩, htail, hpred⟩ := h
  refine ⟨⟨?_, (casdP_synced _ hp).1, hpo⟩, ?_, ?_⟩
  · intro l hl1
    simp only [backP, List.mem_map] at hl1
    obtain ⟨l0, hl0, rfl⟩ := hl1
    refine ⟨by rw [List.length_map]; exact (hl l0 hl0).1, ?_⟩
    intro m hm
    obtain ⟨m0, hm0, rfl⟩ := List.mem_map.mp hm
    exact ⟨(casdP_synced _ ((hl l0 hl0).2 m0 hm0).1).1, ((hl l0 hl0).2 m0 hm0).2⟩
  · intro i l hi m hm
    simp only [backP, List.getElem?_map, Option.map_eq_some'] at hi
    obtain ⟨l0, hl0, rfl⟩ := hi
    obtain ⟨m0, hm0, rfl⟩ := List.mem_map.mp hm
    rw [(casdP_synced _ ((hl l0 (List.getElem?_mem hl0)).2 m0 hm0).1).2]
    exact htail i l0 hl0 m0 hm0
  · intro hne
    have hne0 : n.layers ≠ [] := by
      intro hc
      apply hne
      simp [backP, hc]
    exact (casdP_synced _ hp).2.trans (hpred hne0)

theorem adjustP_wellFormed (n : Network α) (data : Data α) (w : Nat) (h : n.WellFormed w) :
    (adjustP n data).WellFormed w := by
  obtain ⟨hl, hp, hpo⟩ := h
  refine ⟨?_, updP_synced _ _ _ _ hp, hpo⟩
  intro l hl1
  obtain ⟨i, hi⟩ := List.mem_iff_getElem?.mp hl1
  simp only [adjustP, mapLayersFrom_getElem?, Option.map_eq_some'] at hi
  obtain ⟨l0, hl0, rfl⟩ := hi
  have h0 := hl l0 (List.getElem?_mem hl0)
  refine ⟨by simp [h0.1], ?_⟩
  intro m hm
  obtain ⟨q, hq, rfl⟩ := List.mem_map.mp hm
  have hq2 := h0.2 q.2 (List.snd_mem_of_mem_enum hq)
  exact ⟨updP_synced _ _ _ _ hq2.1, hq2.2⟩

theorem singleEpoch_eq (exp : α → α) (n : Network α) (data : Data α) (r : RandSource α)
    (w : Nat) (h : n.WellFormed w) :
    singleEpoch exp n data r
        = some (adjustP (backP (feedForwardP exp n data r).1) data,
            (feedForwardP exp n data r).2) ∧
      (adjustP (backP (feedForwardP exp n data r).1) data).WellFormed w := by
  have hf := feedForwardP_fed exp n data r w h
  have hb := backP_fed _ w hf
  refine ⟨?_, adjustP_wellFormed _ data w hb.1⟩
  unfold singleEpoch
  rw [feedForward_eq]
  simp only [Option.bind_eq_bind, Option.some_bind]
  rw [backPropagate_eq _ hf.1.2.1 (fun l hl m hm => ((hf.1.1 l hl).2 m hm).1)]
  simp only [Option.some_bind]
  rw [adjustNeuronsWeightsAndBias_eq _ data w hb]
  rfl

/-! ## NewNetwork -/

theorem NewNeuron_nil_synced (b : α) (o : Bool) : (NewNeuron ⟨[], [], b, o⟩).Synced :=
  ⟨rfl, rfl, rfl, rfl⟩

theorem newLayer_props (c : Int) (r : RandSource α) :
    (newLayer c r).1.length = c.toNat ∧
      ∀ m ∈ (newLayer c r).1, m.Synced ∧ m.IsOutput = false := by
  have aux : ∀ k : Nat,
      ((List.range k).foldl
          (fun (st : List (Neuron α) × RandSource α) _ =>
            let d := randFloat64 st.2
            (st.1 ++ [NewNeuron ⟨[], [], d.1, false⟩], d.2))
          ([], r)).1.length = k ∧
        ∀ m ∈ ((List.range k).foldl
          (fun (st : List (Neuron α) × RandSource α) _ =>
            let d := randFloat64 st.2
            (st.1 ++ [NewNeuron ⟨[], [], d.1, false⟩], d.2))
          ([], r)).1, m.Synced ∧ m.IsOutput = false := by
    intro k
    induction k with
    | zero => exact ⟨rfl, fun m hm => by simp at hm⟩
    | succ k ih =>
      rw [List.range_succ, List.foldl_append]
      simp only [List.foldl_cons, List.foldl_nil, List.length_append, List.length_singleton,
        List.mem_append, List.mem_singleton]
      refine ⟨by rw [ih.1], ?_⟩
      rintro m (hm | rfl)
      · exact ih.2 m hm
      · exact ⟨NewNeuron_nil_synced _ _, rfl⟩
  exact aux c.toNat

theorem NewNetwork_layers (input : NewNetworkInput α) (r : RandSource α) :
    (NewNetwork input r).1.layers.length = input.Depth.toNat ∧
      (NewNetwork input r).1.WellFormed input.NeuronPerLayer.toNat ∧
      (NewNetwork input r).1.learnRate = input.LearningRate ∧
      ∃ b, (NewNetwork input r).1.prediction = NewNeuron ⟨[], [], b, true⟩ := by
  have aux : ∀ k : Nat,
      ((List.range k).foldl
          (fun (st : List (List (Neuron α)) × RandSource α) _ =>
            let l := newLayer input.NeuronPerLayer st.2
            (st.1 ++ [l.1], l.2))
          ([], r)).1.length = k ∧
        ∀ l ∈ ((List.range k).foldl
          (fun (st : List (List (Neuron α)) × RandSource α) _ =>
            let l := newLayer input.NeuronPerLayer st.2
            (st.1 ++ [l.1], l.2))
          ([], r)).1,
          l.length = input.NeuronPerLayer.toNat ∧ ∀ m ∈ l, m.Synced ∧ m.IsOutput = false := by
    intro k
    induction k with
    | zero => exact ⟨rfl, fun m hm => by simp at hm⟩
    | succ k ih =>
      rw [List.range_succ, List.foldl_append]
      simp only [List.foldl_cons, List.foldl_nil, List.length_append, List.length_singleton,
        List.mem_append, List.mem_singleton]
      refine ⟨by rw [ih.1], ?_⟩
      rintro l (hl | rfl)
      · exact ih.2 l hl
      · exact newLayer_props _ _
  obtain ⟨a1, a2⟩ := aux input.Depth.toNat
  exact ⟨a1, ⟨a2, NewNeuron_nil_synced _ _, rfl⟩, rfl, ⟨_, rfl⟩⟩

/-- C15: no operation of a training step fails. Every `SetInputs` + `FeedForward`
pair of the forward pass, whatever the neuron and the inputs, returns no error;
and for every network built by NewNetwork, with any Depth and NeuronPerLayer, and
every sample, the single-sample training step completes: no index is out of
range and no mean-over-next-layer division has a zero divisor. The network stays
well formed, so the same holds for every later step. -/
theorem singleEpoch_never_fails (exp : α → α) (input : NewNetworkInput α)
    (r : RandSource α) (data : Data α) (s : RandSource α) :
    (∀ (inputs : List α) (neuron : Neuron α) (q : RandSource α),
        ∃ n1 q1, feedNeuron exp inputs neuron q = some (n1, q1, none)) ∧
      (NewNetwork input r).1.WellFormed input.NeuronPerLayer.toNat ∧
      (∀ (n : Network α) (d : Data α) (q : RandSource α),
        n.WellFormed input.NeuronPerLayer.toNat →
        ∃ n1 q1, singleEpoch exp n d q = some (n1, q1) ∧
          n1.WellFormed input.NeuronPerLayer.toNat) ∧
      ∃ n1 s1, singleEpoch exp (NewNetwork input r).1 data s = some (n1, s1) := by
  have hwf := (NewNetwork_layers input r).2.1
  refine ⟨fun inputs neuron q => ⟨_, _, feedNeuron_eq exp inputs neuron q⟩, hwf, ?_, ?_⟩
  · intro n d q hn
    exact ⟨_, _, singleEpoch_eq exp n d q _ hn⟩
  · exact ⟨_, _, (singleEpoch_eq exp _ data s _ hwf).1⟩

/-- Witness of C15: the network of the test (Depth 2, NeuronPerLayer 2,
LearningRate 0.1) and its first sample. -/
theorem singleEpoch_never_fails_witness :
    ∃ n1 q1, singleEpoch (fun x : ℚ => 1 + x * x)
        (NewNetwork ⟨2, 2, 1 / 10⟩ (fun _ => 1 / 2)).1 ⟨[-2, -1], 1⟩ (fun _ => 1 / 2)
          = some (n1, q1) ∧ n1.WellFormed 2 :=
  have h := singleEpoch_never_fails (fun x : ℚ => 1 + x * x) ⟨2, 2, 1 / 10⟩ (fun _ => 1 / 2)
    ⟨[-2, -1], 1⟩ (fun _ => 1 / 2)
  h.2.2.1 _ ⟨[-2, -1], 1⟩ (fun _ => 1 / 2) h.2.1

/-! ## Train -/

theorem foldlM_invariant {σ β : Type} (f : σ → β → Option σ) (P : σ → Prop)
    (hf : ∀ s x s1, f s x = some s1 → P s → P s1) :
    ∀ (l : List β) (s s1 : σ), l.foldlM f s = some s1 → P s → P s1 := by
  intro l
  induction l with
  | nil =>
    intro s s1 h hs
    simp only [List.foldlM_nil, Option.pure_def, Option.some.injEq] at h
    exact h ▸ hs
  | cons x xs ih =>
    intro s s1 h hs
    simp only [List.foldlM_cons, Option.bind_eq_bind] at h
    cases hx : f s x with
    | none => simp [hx] at h
    | some s2 =>
      rw [hx, Option.some_bind] at h
      exact ih s2 s1 h (hf s x s2 hx hs)

theorem reverseLayers_learnRate {β : Type}
    (body : Network β → Nat → List (Neuron β) → Option (List (Neuron β)))
    (n n1 : Network β) (h : reverseLayers body n = some n1) :
    n1.learnRate = n.learnRate := by
  refine foldlM_invariant (updateLayerAt body) (fun st => st.learnRate = n.learnRate) ?_
    _ n n1 h rfl
  intro st i st1 hst hP
  unfold updateLayerAt at hst
  cases h1 : st.layers[i]? with
  | none => simp [h1] at hst
  | some layer =>
    cases h2 : body st i layer with
    | none => simp [h1, h2] at hst
    | some layer1 =>
      simp only [h1, h2, Option.bind_eq_bind, Option.some_bind, Option.pure_def,
        Option.some.injEq] at hst
      rw [← hst]
      exact hP

theorem singleEpoch_learnRate (exp : α → α) (n n1 : Network α) (data : Data α)
    (r r1 : RandSource α) (h : singleEpoch exp n data r = some (n1, r1)) :
    n1.learnRate = n.learnRate := by
  unfold singleEpoch at h
  rw [feedForward_eq] at h
  simp only [Option.bind_eq_bind, Option.some_bind] at h
  have hf : (feedForwardP exp n data r).1.learnRate = n.learnRate := by
    unfold feedForwardP
    split <;> rfl
  cases hb : backPropagate (feedForwardP exp n data r).1 with
  | none => simp [hb] at h
  | some b =>
    have hbl : b.learnRate = (feedForwardP exp n data r).1.learnRate := by
      unfold backPropagate at hb
      cases hc : CalculateAndStoreDerivatives (feedForwardP exp n data r).1.prediction with
      | none => simp [hc] at hb
      | some p =>
        simp only [hc, Option.bind_eq_bind, Option.some_bind] at hb
        exact reverseLayers_learnRate _ { (feedForwardP exp n data r).1 with prediction := p } _ hb
    cases ha : adjustNeuronsWeightsAndBias b data with
    | none => simp [hb, ha] at h
    | some a =>
      have hal : a.learnRate = b.learnRate := by
        simp only [adjustNeuronsWeightsAndBias] at ha
        cases hc : UpdateWeightsAndBias b.prediction b.learnRate (deltaY b data) 0 with
        | none => simp [hc] at ha
        | some p =>
          simp only [hc, Option.bind_eq_bind, Option.some_bind] at ha
          exact reverseLayers_learnRate _ { b with prediction := p } _ ha
      simp only [hb, ha, Option.some_bind, Option.pure_def, Option.some.injEq,
        Prod.mk.injEq] at h
      rw [← h.1, hal, hbl, hf]

theorem foldlM_range_flatten {σ β : Type} (step : σ → β → Option σ) (ds : List β) :
    ∀ (k : Nat) (s : σ),
      (List.range k).foldlM (fun st _ => ds.foldlM step st) s
        = (List.replicate k ds).flatten.foldlM step s := by
  intro k
  induction k with
  | zero => intro s; rfl
  | succ k ih =>
    intro s
    rw [List.range_succ, List.foldlM_append, List.replicate_succ', List.flatten_append,
      List.foldlM_append, ih]
    simp

/-- C14: Train(e, ds) is the single-sample step (forward, backward, update)
applied to the samples of ds in their given order, the whole pass repeated
max(e, 0) times; with e <= 0 or with an empty dataset it leaves the network (and
the random source) unchanged; and it never changes learnRate. -/
theorem Train_eq_steps (exp : α → α) (e : Int) (ds : List (Data α)) (n : Network α)
    (r : RandSource α) :
    Train exp e ds n r
        = (List.replicate (max e 0).toNat ds).flatten.foldlM
            (fun (st : Network α × RandSource α) d => singleEpoch exp st.1 d st.2) (n, r) ∧
      (e ≤ 0 → Train exp e ds n r = some (n, r)) ∧
      (ds = [] → Train exp e ds n r = some (n, r)) ∧
      (∀ n1 r1, Train exp e ds n r = some (n1, r1) → n1.learnRate = n.learnRate) := by
  have hmax : (max e 0).toNat = e.toNat := by omega
  have heq : Train exp e ds n r
      = (List.replicate (max e 0).toNat ds).flatten.foldlM
          (fun (st : Network α × RandSource α) d => singleEpoch exp st.1 d st.2) (n, r) := by
    rw [hmax]
    exact foldlM_range_flatten _ ds e.toNat (n, r)
  refine ⟨heq, ?_, ?_, ?_⟩
  · intro he
    have h0 : e.toNat = 0 := by omega
    simp [Train, h0]
  · intro hds
    rw [heq, hds]
    have hnil : ∀ k : Nat, (List.replicate k ([] : List (Data α))).flatten = [] := by
      intro k
      induction k with
      | zero => rfl
      | succ k ih => simp [List.replicate_succ, ih]
    rw [hnil]
    rfl
  · intro n1 r1 h
    rw [heq] at h
    exact foldlM_invariant
      (fun (st : Network α × RandSource α) d => singleEpoch exp st.1 d st.2)
      (fun st => st.1.learnRate = n.learnRate)
      (fun st d st1 hst hP => by
        have := singleEpoch_learnRate exp st.1 st1.1 d st.2 st1.2 hst
        exact this.trans hP)
      _ (n, r) (n1, r1) h rfl

/-- Witness of C14: a zero epoch count leaves the test's untrained network
unchanged. -/
theorem Train_eq_steps_witness :
    Train (fun x : ℚ => 1 + x * x) 0 [⟨[-2, -1], 1⟩]
        (NewNetwork ⟨2, 2, 1 / 10⟩ (fun _ => 1 / 2)).1 (fun _ => 1 / 2)
      = some ((NewNetwork ⟨2, 2, 1 / 10⟩ (fun _ => 1 / 2)).1, fun _ => 1 / 2) :=
  (Train_eq_steps (fun x : ℚ => 1 + x * x) 0 [⟨[-2, -1], 1⟩]
    (NewNetwork ⟨2, 2, 1 / 10⟩ (fun _ => 1 / 2)).1 (fun _ => 1 / 2)).2.1 (by decide)

/-! ## A network without hidden layer -/

theorem foldlM_fixed {σ β : Type} (f : σ → β → Option σ) (s : σ) (hf : ∀ x, f s x = some s) :
    ∀ l : List β, l.foldlM f s = some s := by
  intro l
  induction l with
  | nil => rfl
  | cons x xs ih => rw [List.foldlM_cons, hf x]; exact ih

theorem singleEpoch_no_hidden (exp : α → α) (n : Network α) (b : α) (d : Data α)
    (s : RandSource α) (hl : n.layers = []) (hp : n.prediction = NewNeuron ⟨[], [], b, true⟩) :
    singleEpoch exp n d s = some (n, s) := by
  have hwf : n.WellFormed 0 := by
    refine ⟨fun l hmem => ?_, ?_, ?_⟩
    · rw [hl] at hmem
      simp at hmem
    · rw [hp]
      exact NewNeuron_nil_synced _ _
    · rw [hp]
      rfl
  rw [(singleEpoch_eq exp n d s 0 hwf).1]
  obtain ⟨lr, layers, p⟩ := n
  simp only at hl hp
  subst hl hp
  simp [feedForwardP, adjustP, backP, casdP, updP, NewNeuron, mapLayersFrom, DerivedSigmoid,
    calculateAdjustmentForWeightOrBias, makeFloats]

/-- Over a field, where no product overflows: a network built by NewNetwork
with Depth <= 0 has no hidden layer; Predict returns 0 on it and leaves it
unchanged; Train, for every epoch count and dataset, completes and leaves the whole network unchanged (the bias, the
weights and the Output of the output neuron included), so Predict returns 0
after Train as well. -/
theorem no_hidden_layer_never_learns (exp : α → α) (input : NewNetworkInput α)
    (h : input.Depth ≤ 0) (r : RandSource α) (e : Int) (ds : List (Data α)) (d : Data α)
    (s : RandSource α) :
    (NewNetwork input r).1.layers = [] ∧
      Predict exp (NewNetwork input r).1 d s = some (0, (NewNetwork input r).1, s) ∧
      Train exp e ds (NewNetwork input r).1 s = some ((NewNetwork input r).1, s) ∧
      (Train exp e ds (NewNetwork input r).1 s).bind (fun st => Predict exp st.1 d st.2)
        = some (0, (NewNetwork input r).1, s) := by
  obtain ⟨hlen, -, -, b, hb⟩ := NewNetwork_layers input r
  have hd : input.Depth.toNat = 0 := by omega
  rw [hd] at hlen
  have hl : (NewNetwork input r).1.layers = [] := List.length_eq_zero.mp hlen
  have hpredict : ∀ q : RandSource α,
      Predict exp (NewNetwork input r).1 d q = some (0, (NewNetwork input r).1, q) := by
    intro q
    unfold Predict
    rw [feedForward_eq]
    simp [feedForwardP, hlen, hb, NewNeuron]
  have htrain : Train exp e ds (NewNetwork input r).1 s = some ((NewNetwork input r).1, s) := by
    unfold Train
    rw [foldlM_range_flatten]
    have hstep : ∀ (st : Network α × RandSource α), st.1 = (NewNetwork input r).1 →
        ∀ x, singleEpoch exp st.1 x st.2 = some st := by
      intro st hst x
      rw [singleEpoch_no_hidden exp st.1 b x st.2 (by rw [hst]; exact hl) (by rw [hst]; exact hb)]
    exact foldlM_fixed _ ((NewNetwork input r).1, s)
      (hstep ((NewNetwork input r).1, s) rfl) _
  refine ⟨hl, hpredict s, htrain, ?_⟩
  rw [htrain]
  exact hpredict s

/-- Over the rationals: Depth 0, NeuronPerLayer 2, trained for 1000 epochs on one
sample. -/
theorem no_hidden_layer_never_learns_witness :
    Train (fun x : ℚ => 1 + x * x) 1000 [⟨[-2, -1], 1⟩]
        (NewNetwork ⟨0, 2, 1 / 10⟩ (fun _ => 1 / 2)).1 (fun _ => 1 / 2)
      = some ((NewNetwork ⟨0, 2, 1 / 10⟩ (fun _ => 1 / 2)).1, fun _ => 1 / 2) :=
  (no_hidden_layer_never_learns (fun x : ℚ => 1 + x * x) ⟨0, 2, 1 / 10⟩ (by decide)
    (fun _ => 1 / 2) 1000 [⟨[-2, -1], 1⟩] ⟨[-2, -1], 1⟩ (fun _ => 1 / 2)).2.2.1

/-! ## A network without hidden layer, in float64 arithmetic -/

theorem singleEpoch_no_layers {β : Type} [Zero β] [One β] [NatCast β] [Add β] [Sub β] [Mul β]
    [Div β] [Neg β] (exp : β → β) (lr b out db : β) (data : Data β) (r : RandSource β) :
    singleEpoch exp ⟨lr, [], ⟨[], [], b, out, true, [], [], db⟩⟩ data r
      = some (⟨lr, [], ⟨[], [], b - lr * (-2 * (data.Output - out)) * DerivedSigmoid out, out,
          true, [], [], DerivedSigmoid out⟩⟩, r) := by
  simp [singleEpoch, feedForward, backPropagate, adjustNeuronsWeightsAndBias, reverseLayers,
    CalculateAndStoreDerivatives, calculateAndStoreDerivativesWeights,
    calculateAndStoreDerivativesInputs, calculateAndStoreDerivativesBias, UpdateWeightsAndBias,
    updateWeights, updateBias, calculateAdjustmentForWeightOrBias, deltaY]

theorem NewNetwork_no_layers {β : Type} [Zero β] [One β] [NatCast β] [Add β] [Sub β] [Mul β]
    [Div β] [Neg β] (input : NewNetworkInput β) (h : input.Depth ≤ 0) (r : RandSource β) :
    (NewNetwork input r).1 = ⟨input.LearningRate, [], ⟨[], [], r 0, 0, true, [], [], 0⟩⟩ := by
  have hd : input.Depth.toNat = 0 := by omega
  simp [NewNetwork, hd, NewNeuron, randFloat64, makeFloats]

theorem Predict_no_layers {β : Type} [Zero β] [One β] [NatCast β] [Add β] [Sub β] [Mul β]
    [Div β] [Neg β] (exp : β → β) (lr : β) (p : Neuron β) (data : Data β) (r : RandSource β) :
    Predict exp ⟨lr, [], p⟩ data r = some (p.Output, ⟨lr, [], p⟩, r) := by
  simp [Predict, feedForward]


namespace Float64

theorem DerivedSigmoid_zero : DerivedSigmoid (0 : Float64) = 0 := by decide

theorem round_zero (neg : Bool) (den : Nat) (h : 0 < den) : round neg 0 den = fin neg 0 := by
  simp only [round, roundTo, Nat.zero_div, digits, Nat.zero_sub, Nat.shiftLeft_zero,
    Nat.zero_mod, Nat.mul_zero, h, if_true, Nat.zero_shiftLeft]
  rw [if_pos (by decide)]

theorem round_exact (neg : Bool) (k : Nat) (h1 : k < 1 <<< 2098)
    (h2 : k % (1 <<< (digits k k - 53)) = 0) : round neg k 1 = fin neg k := by
  have hq : k / 1 = k := Nat.div_one k
  simp only [round, hq]
  generalize digits k k - 53 = p at h2 ⊢
  have e : 1 <<< p = 2 ^ p := by rw [Nat.shiftLeft_eq, Nat.one_mul]
  have hpos : 0 < 1 <<< p := by rw [e]; positivity
  have hk : roundTo p k 1 <<< p = k := by
    simp only [roundTo, h2, Nat.mul_zero, hpos, if_true]
    rw [Nat.shiftLeft_eq, ← e]
    exact Nat.div_mul_cancel (Nat.dvd_of_mod_eq_zero h2)
  rw [hk, if_pos h1]

theorem mul_zero_of_finite (x : Float64) (h : x.isFinite = true) :
    ∃ s, x * 0 = fin s 0 := by
  cases x with
  | nan => simp [isFinite] at h
  | inf s => simp [isFinite] at h
  | fin s k =>
    refine ⟨s, ?_⟩
    show mul (fin s k) (fin false 0) = fin s 0
    simp only [mul, Nat.mul_zero, Bool.xor_false]
    exact round_zero s _ (by rw [Nat.shiftLeft_eq]; positivity)

theorem mul_zero_of_not_finite (x : Float64) (h : x.isFinite = false) : x * 0 = nan := by
  cases x with
  | nan => rfl
  | inf s => rfl
  | fin s k => simp [isFinite] at h

theorem sub_nan (x : Float64) : x - nan = nan := by
  cases x <;> rfl

theorem nan_sub (x : Float64) : nan - x = nan := by
  cases x <;> rfl

theorem sub_zero_of_inUnit (b : Float64) (hb : b.InUnit) (s : Bool) : b - fin s 0 = b := by
  cases b with
  | nan => exact absurd hb (by simp [InUnit])
  | inf t => exact absurd hb (by simp [InUnit])
  | fin t k =>
    obtain ⟨ht, hk, hd⟩ := hb
    subst ht
    have hlt : k < 1 <<< 2098 := by
      exact lt_trans hk (by decide)
    show add (fin false k) (neg (fin s 0)) = fin false k
    cases s with
    | false =>
      by_cases hk0 : k = 0
      · subst hk0
        simp [neg, add]
      · have : 0 < k := Nat.pos_of_ne_zero hk0
        simp [neg, add, this, round_exact false k hlt hd]
    | true =>
      simp [neg, add, round_exact false k hlt hd]

end Float64


theorem singleEpoch_no_layers_float64 (exp : Float64 → Float64) (lr b : Float64)
    (data : Data Float64) (r : RandSource Float64) :
    singleEpoch exp ⟨lr, [], ⟨[], [], b, 0, true, [], [], 0⟩⟩ data r
      = some (⟨lr, [], ⟨[], [], b - lr * (-2 * (data.Output - 0)) * 0, 0, true, [], [], 0⟩⟩, r) := by
  rw [singleEpoch_no_layers, Float64.DerivedSigmoid_zero]

theorem dataset_no_layers_float64 (exp : Float64 → Float64) (lr : Float64)
    (ds : List (Data Float64)) (b : Float64) (s : RandSource Float64) :
    ds.foldlM (fun (st : Network Float64 × RandSource Float64) data =>
        singleEpoch exp st.1 data st.2) (⟨lr, [], ⟨[], [], b, 0, true, [], [], 0⟩⟩, s)
      = some (⟨lr, [], ⟨[], [],
          ds.foldl (fun c x => c - lr * (-2 * (x.Output - 0)) * 0) b, 0, true, [], [], 0⟩⟩, s) := by
  induction ds generalizing b with
  | nil => rfl
  | cons x xs ih =>
    rw [List.foldlM_cons, singleEpoch_no_layers_float64]
    exact ih _

theorem Train_no_layers_float64 (exp : Float64 → Float64) (lr : Float64)
    (ds : List (Data Float64)) (b : Float64) (s : RandSource Float64) (e : Int) :
    Train exp e ds ⟨lr, [], ⟨[], [], b, 0, true, [], [], 0⟩⟩ s
      = some (⟨lr, [], ⟨[], [],
          (fun c => ds.foldl (fun c x => c - lr * (-2 * (x.Output - 0)) * 0) c)^[e.toNat] b,
          0, true, [], [], 0⟩⟩, s) := by
  unfold Train
  generalize e.toNat = k
  induction k with
  | zero => rfl
  | succ k ih =>
    rw [List.range_succ, List.foldlM_append, ih]
    simp only [List.foldlM_cons, List.foldlM_nil, Option.bind_eq_bind, Option.some_bind]
    rw [dataset_no_layers_float64, Function.iterate_succ_apply']
    rfl

theorem biasFold_fixed (lr b : Float64) (hb : b.InUnit) (ds : List (Data Float64))
    (h : ∀ x ∈ ds, (lr * (-2 * (x.Output - 0))).isFinite = true) :
    ds.foldl (fun c x => c - lr * (-2 * (x.Output - 0)) * 0) b = b := by
  induction ds with
  | nil => rfl
  | cons x xs ih =>
    obtain ⟨t, ht⟩ := Float64.mul_zero_of_finite _ (h x (List.mem_cons_self _ _))
    rw [List.foldl_cons, ht, Float64.sub_zero_of_inUnit b hb t]
    exact ih (fun y hy => h y (List.mem_cons_of_mem _ hy))

theorem biasFold_nan (lr : Float64) (ds : List (Data Float64)) :
    ds.foldl (fun c x => c - lr * (-2 * (x.Output - 0)) * 0) Float64.nan = Float64.nan := by
  induction ds with
  | nil => rfl
  | cons x xs ih => rw [List.foldl_cons, Float64.nan_sub]; exact ih

theorem biasFold_overflow (lr : Float64) (ds : List (Data Float64))
    (h : ∃ x ∈ ds, (lr * (-2 * (x.Output - 0))).isFinite = false) (b : Float64) :
    ds.foldl (fun c x => c - lr * (-2 * (x.Output - 0)) * 0) b = Float64.nan := by
  induction ds generalizing b with
  | nil => obtain ⟨x, hx, -⟩ := h; exact absurd hx (List.not_mem_nil x)
  | cons y ys ih =>
    rw [List.foldl_cons]
    by_cases hy : (lr * (-2 * (y.Output - 0))).isFinite = false
    · rw [Float64.mul_zero_of_not_finite _ hy, Float64.sub_nan]
      exact biasFold_nan lr ys
    · obtain ⟨x, hx, hxf⟩ := h
      rcases List.mem_cons.mp hx with rfl | hx
      · exact absurd hxf hy
      · exact ih ⟨x, hx, hxf⟩ _

/-- C20: in float64 arithmetic, a network built by NewNetwork with
Depth <= 0 has no hidden layer and Predict returns 0 on it; Train, for every
epoch count and dataset, completes and changes at most the bias of the output
neuron (its weights, its Output and the rest of the network stay as they were),
so Predict returns 0 after Train as well; the bias stays as it was when
`learnRate * (-2.0 * (label - 0))` is finite for every sample, and it is NaN
after Train when a step runs and that product is an infinity or NaN for some
sample. -/
theorem no_hidden_layer_float64 (exp : Float64 → Float64) (input : NewNetworkInput Float64)
    (h : input.Depth ≤ 0) (r : RandSource Float64) (hr : ∀ k, (r k).InUnit) (e : Int)
    (ds : List (Data Float64)) (d : Data Float64) (s : RandSource Float64) :
    (NewNetwork input r).1.layers = [] ∧
      Predict exp (NewNetwork input r).1 d s = some (0, (NewNetwork input r).1, s) ∧
      ∃ b : Float64,
        Train exp e ds (NewNetwork input r).1 s
          = some ({ (NewNetwork input r).1 with
              prediction := { (NewNetwork input r).1.prediction with Bias := b } }, s) ∧
        Predict exp { (NewNetwork input r).1 with
              prediction := { (NewNetwork input r).1.prediction with Bias := b } } d s
          = some (0, { (NewNetwork input r).1 with
              prediction := { (NewNetwork input r).1.prediction with Bias := b } }, s) ∧
        ((∀ x ∈ ds, (input.LearningRate * (-2 * (x.Output - 0))).isFinite = true) →
          b = (NewNetwork input r).1.prediction.Bias) ∧
        (0 < e → (∃ x ∈ ds, (input.LearningRate * (-2 * (x.Output - 0))).isFinite = false) →
          b = Float64.nan) := by
  rw [NewNetwork_no_layers input h r]
  refine ⟨rfl, Predict_no_layers _ _ _ _ _, _, Train_no_layers_float64 _ _ _ _ _ _,
    Predict_no_layers _ _ _ _ _, ?_, ?_⟩
  · intro hfin
    exact Function.iterate_fixed (biasFold_fixed _ _ (hr 0) ds hfin) _
  · intro he hex
    obtain ⟨k, hk⟩ : ∃ k, e.toNat = k + 1 := ⟨e.toNat - 1, by omega⟩
    rw [hk, Function.iterate_succ_apply, biasFold_overflow _ ds hex]
    exact Function.iterate_fixed (biasFold_nan _ ds) _


/-- Witness of C20: Depth 0, learning rate 0.1, drawn bias 0.5, trained for 1000
epochs on one sample of label 1: the network is unchanged. -/
theorem no_hidden_layer_float64_witness :
    Train (fun x => x) 1000 [⟨[-2, -1], 1⟩]
        (NewNetwork (⟨0, 2, 1 / 10⟩ : NewNetworkInput Float64) (fun _ => 1 / 2)).1
        (fun _ => 1 / 2)
      = some ((NewNetwork (⟨0, 2, 1 / 10⟩ : NewNetworkInput Float64) (fun _ => 1 / 2)).1,
          fun _ => 1 / 2) := by
  obtain ⟨-, -, b, ht, -, hb, -⟩ :=
    no_hidden_layer_float64 (fun x => x) ⟨0, 2, 1 / 10⟩ (by decide) (fun _ => 1 / 2)
      (fun _ => (by decide : ((1 / 2 : Float64)).InUnit)) 1000 [⟨[-2, -1], 1⟩] ⟨[-2, -1], 1⟩ (fun _ => 1 / 2)
  rw [hb (by decide)] at ht
  exact ht

set_option maxRecDepth 4000 in
/-- C20 fails when a product overflows: Depth 0, learning rate 0.1, drawn bias
0.5, one epoch on one sample of label 1e308 (`math.Exp` is not called, no layer
being fed): `-2.0 * (1e308 - 0)` is `-Inf`, the adjustment
`0.1 * -Inf * 0` is NaN, and the bias of the output neuron, 0.5 before Train, is
NaN after it. -/
theorem no_hidden_layer_bias_nan :
    (NewNetwork (⟨0, 2, 1 / 10⟩ : NewNetworkInput Float64) (fun _ => 1 / 2)).1.prediction.Bias
        = Float64.fin false (1 <<< 1073) ∧
      -2 * ((((10 ^ 154 * 10 ^ 154 : Nat) : Float64)) - 0) = Float64.inf true ∧
      (Train (fun x => x) 1 [⟨[-2, -1], ((10 ^ 154 * 10 ^ 154 : Nat) : Float64)⟩]
          (NewNetwork (⟨0, 2, 1 / 10⟩ : NewNetworkInput Float64) (fun _ => 1 / 2)).1
          (fun _ => 1 / 2)).map (fun st => st.1.prediction.Bias)
        = some Float64.nan := by
  decide

/-! ## The parameters after one training step -/

/-- Witness of C12: one hidden neuron with weights [2,3] and bias 4, an output
neuron with weight 5 and bias 1, features [2,3]: the prediction is
`Sigmoid(1 + 5 * Sigmoid(17))`. -/
theorem Predict_eq_mlp_witness :
    ∃ n1 : Network ℝ,
      Predict Real.exp
          ⟨1 / 10, [[⟨[], [2, 3], 4, 0, false, [0, 0], [], 0⟩]],
            ⟨[], [5], 1, 0, true, [0], [], 0⟩⟩
          ⟨[2, 3], 0⟩ (fun _ => 0)
        = some (Sigmoid Real.exp (1 + 5 * Sigmoid Real.exp 17), n1, fun _ => 0) ∧
      n1.prediction.Output = Sigmoid Real.exp (1 + 5 * Sigmoid Real.exp 17) := by
  have h := Predict_eq_mlp Real.exp
    ⟨1 / 10, [[⟨[], [2, 3], 4, 0, false, [0, 0], [], 0⟩]], ⟨[], [5], 1, 0, true, [0], [], 0⟩⟩
    ⟨[2, 3], 0⟩ (fun _ => 0) (by simp) (by simp [Network.Bound, boundFrom])
  have e : (4 : ℝ) + (2 * 2 + 3 * 3) = 17 := by norm_num
  simpa [mlpPredict, mlpHidden, mlpNeuron, e] using h

theorem feedForwardP_frame (exp : α → α) (n : Network α) (data : Data α) (r : RandSource α) :
    (feedForwardP exp n data r).1.learnRate = n.learnRate := by
  unfold feedForwardP
  split <;> rfl

theorem calculateAdjustment_output (m : Neuron α) (learnRate derivativeY derivativeOutput
    derivedValue : α) (h : m.IsOutput = true) :
    calculateAdjustmentForWeightOrBias m learnRate derivativeY derivativeOutput derivedValue
      = learnRate * derivativeY * derivedValue := by
  simp [calculateAdjustmentForWeightOrBias, h]

theorem calculateAdjustment_hidden (m : Neuron α) (learnRate derivativeY derivativeOutput
    derivedValue : α) (h : m.IsOutput = false) :
    calculateAdjustmentForWeightOrBias m learnRate derivativeY derivativeOutput derivedValue
      = learnRate * derivativeY * derivativeOutput * derivedValue := by
  simp [calculateAdjustmentForWeightOrBias, h]

theorem adjustP_getElem? (n : Network α) (data : Data α) (i j : Nat) (l : List (Neuron α))
    (m : Neuron α) (hl : n.layers[i]? = some l) (hm : l[j]? = some m) :
    ∃ l1, (adjustP n data).layers[i]? = some l1 ∧ l1.length = l.length ∧
      l1[j]? = some (updP m n.learnRate (deltaY n data) (chainFactor n i j)) := by
  refine ⟨l.enum.map
    (fun p => updP p.2 n.learnRate (deltaY n data) (chainFactor n i p.1)), ?_, ?_, ?_⟩
  · simp only [adjustP, mapLayersFrom_getElem?, hl, Option.map_some', Nat.zero_add]
  · simp
  · simp [List.getElem?_enum, hm]

/-- C17: one training step on a well-formed network. With `nf` the network
after the forward pass, `p = nf.prediction.Output` the value it returns,
`derivativeY = -2 * (label - p)` and `backP nf` the network with the derivatives
the backward pass stores (computed from the weights and outputs of `nf`, before
any update), the step completes and leaves: the output neuron with every weight
and the bias decreased by `learnRate * derivativeY * (stored derivative)`; the
hidden neuron `j` of layer `i` with every weight and the bias decreased by
`learnRate * derivativeY * D * (stored derivative)`, where
`D = chainFactor (backP nf) i j` is `prediction.DerivativeInputs[j]` in the last
hidden layer and the mean over layer `i+1` of `DerivativeInputs[j]` otherwise,
read in `backP nf`. -/
theorem singleEpoch_parameters (exp : α → α) (n : Network α) (w : Nat) (d : Data α)
    (r : RandSource α) (hwf : n.WellFormed w) :
    ∃ (nf n1 : Network α) (r1 : RandSource α),
      feedForward exp n d r = some (nf.prediction.Output, nf, r1) ∧
      backPropagate nf = some (backP nf) ∧
      (backP nf).prediction.DerivativeInputs
        = nf.prediction.Weights.map (fun v => v * DerivedSigmoid nf.prediction.Output) ∧
      (∀ (i : Nat) (l : List (Neuron α)), nf.layers[i]? = some l →
        (backP nf).layers[i]? = some (l.map casdP)) ∧
      singleEpoch exp n d r = some (n1, r1) ∧
      n1.prediction
        = { (backP nf).prediction with
            Weights :=
              (List.zipWith (fun v dv =>
                  v - n.learnRate * (-2 * (d.Output - nf.prediction.Output)) * dv)
                (backP nf).prediction.Weights (backP nf).prediction.DerivativeWeights)
            Bias := (backP nf).prediction.Bias
              - n.learnRate * (-2 * (d.Output - nf.prediction.Output))
                * (backP nf).prediction.DerivativeBias } ∧
      ∀ (i j : Nat) (l : List (Neuron α)) (m : Neuron α),
        (backP nf).layers[i]? = some l → l[j]? = some m →
        ∃ l1, n1.layers[i]? = some l1 ∧ l1.length = l.length ∧
          l1[j]? = some
            { m with
              Weights :=
                (List.zipWith (fun v dv =>
                    v - n.learnRate * (-2 * (d.Output - nf.prediction.Output))
                      * chainFactor (backP nf) i j * dv)
                  m.Weights m.DerivativeWeights)
              Bias := m.Bias
                - n.learnRate * (-2 * (d.Output - nf.prediction.Output))
                  * chainFactor (backP nf) i j * m.DerivativeBias } := by
  have hf := feedForwardP_fed exp n d r w hwf
  have hb := backP_fed _ w hf
  have hlr : (backP (feedForwardP exp n d r).1).learnRate = n.learnRate :=
    feedForwardP_frame exp n d r
  have hdY : deltaY (backP (feedForwardP exp n d r).1) d
      = -2 * (d.Output - (feedForwardP exp n d r).1.prediction.Output) := rfl
  refine ⟨(feedForwardP exp n d r).1, _, (feedForwardP exp n d r).2, feedForward_eq exp n d r,
    backPropagate_eq _ hf.1.2.1 (fun l hl m hm => ((hf.1.1 l hl).2 m hm).1), rfl, ?_,
    (singleEpoch_eq exp n d r w hwf).1, ?_, ?_⟩
  · intro i l hl
    simp [backP, hl]
  · simp only [adjustP, updP, hlr, hdY, calculateAdjustment_output _ _ _ _ _ hb.1.2.2]
  · intro i j l m hl hm
    obtain ⟨l1, h1, h2, h3⟩ := adjustP_getElem? (backP (feedForwardP exp n d r).1) d i j l m hl hm
    refine ⟨l1, h1, h2, ?_⟩
    have hflag : m.IsOutput = false :=
      ((hb.1.1 l (List.getElem?_mem hl)).2 m (List.getElem?_mem hm)).2
    rw [h3]
    simp only [updP, hlr, hdY, calculateAdjustment_hidden _ _ _ _ _ hflag]

/-- Witness of C17: the network of the test (Depth 2, NeuronPerLayer 2,
LearningRate 0.1) and its first sample: the training step completes. -/
theorem singleEpoch_parameters_witness :
    ∃ n1 r1, singleEpoch (fun x : ℚ => 1 + x * x)
        (NewNetwork ⟨2, 2, 1 / 10⟩ (fun _ => 1 / 2)).1 ⟨[-2, -1], 1⟩ (fun _ => 1 / 2)
          = some (n1, r1) := by
  obtain ⟨nf, n1, r1, -, -, -, -, h, -⟩ := singleEpoch_parameters (fun x : ℚ => 1 + x * x)
    (NewNetwork ⟨2, 2, 1 / 10⟩ (fun _ => 1 / 2)).1 2 ⟨[-2, -1], 1⟩ (fun _ => 1 / 2)
    (NewNetwork_layers ⟨2, 2, 1 / 10⟩ (fun _ => 1 / 2)).2.1
  exact ⟨n1, r1, h⟩

/-! ## The training step as a gradient step -/

theorem hasDerivAt_dot_set_left :
    ∀ (ws xs : List ℝ) (j : Nat), j < ws.length → ∀ (hx : j < xs.length) (t0 : ℝ),
      HasDerivAt (fun t => (List.zipWith (fun w x => w * x) (ws.set j t) xs).sum) xs[j] t0 := by
  intro ws
  induction ws with
  | nil => intro xs j hj; simp at hj
  | cons a as ih =>
    intro xs j hj hx t0
    cases xs with
    | nil => simp at hx
    | cons b bs =>
      cases j with
      | zero =>
        simp only [List.set_cons_zero, List.zipWith_cons_cons, List.sum_cons,
          List.getElem_cons_zero]
        have h1 : HasDerivAt (fun t : ℝ => t * b) (1 * b) t0 := (hasDerivAt_id t0).mul_const b
        have h2 := h1.add_const (List.zipWith (fun w x => w * x) as bs).sum
        simpa using h2
      | succ j =>
        simp only [List.set_cons_succ, List.zipWith_cons_cons, List.sum_cons,
          List.getElem_cons_succ]
        have h1 := ih bs j (by simpa using hj) (by simpa using hx) t0
        exact h1.const_add (a * b)

theorem hasDerivAt_dot_set_right :
    ∀ (ws xs : List ℝ) (j : Nat) (hj : j < ws.length), j < xs.length → ∀ (t0 : ℝ),
      HasDerivAt (fun t => (List.zipWith (fun w x => w * x) ws (xs.set j t)).sum) ws[j] t0 := by
  intro ws
  induction ws with
  | nil => intro xs j hj; simp at hj
  | cons a as ih =>
    intro xs j hj hx t0
    cases xs with
    | nil => simp at hx
    | cons b bs =>
      cases j with
      | zero =>
        simp only [List.set_cons_zero, List.zipWith_cons_cons, List.sum_cons,
          List.getElem_cons_zero]
        have h1 : HasDerivAt (fun t : ℝ => a * t) (a * 1) t0 := (hasDerivAt_id t0).const_mul a
        have h2 := h1.add_const (List.zipWith (fun w x => w * x) as bs).sum
        simpa using h2
      | succ j =>
        simp only [List.set_cons_succ, List.zipWith_cons_cons, List.sum_cons,
          List.getElem_cons_succ]
        have h1 := ih bs j (by simpa using hj) (by simpa using hx) t0
        exact h1.const_add (a * b)

theorem set_eq_self {β : Type} (l : List β) (j : Nat) (v : β) (h : l[j]? = some v) :
    l.set j v = l := by
  apply List.ext_getElem?
  intro i
  rw [List.getElem?_set]
  by_cases hij : j = i
  · subst hij
    obtain ⟨hlt, -⟩ := List.getElem?_eq_some.mp h
    simp [hlt, h]
  · simp [hij]

theorem feedLayerP_weights (exp : α → α) (v : List α) :
    ∀ (l : List (Neuron α)) (r : RandSource α),
      (feedLayerP exp v l r).1.length = l.length ∧
        ∀ m ∈ (feedLayerP exp v l r).1, m.Weights.length = v.length := by
  intro l
  induction l with
  | nil => intro r; exact ⟨rfl, fun m hm => by simp [feedLayerP] at hm⟩
  | cons x xs ih =>
    intro r
    obtain ⟨i1, i2⟩ := ih (feedNeuronP exp v x r).2
    refine ⟨by simp [feedLayerP, i1], ?_⟩
    intro m hm
    simp only [feedLayerP, List.mem_cons] at hm
    rcases hm with rfl | hm
    · exact (SetInputs_fields x v r).2.1
    · exact i2 m hm

theorem forwardP_boundFrom (exp : α → α) (p : Neuron α) (s : RandSource α) :
    ∀ (layers : List (List (Neuron α))) (v : List α) (r : RandSource α),
      boundFrom v.length (forwardP exp v layers r).1
        (feedNeuronP exp (forwardP exp v layers r).2.1 p s).1 := by
  intro layers
  induction layers with
  | nil =>
    intro v r
    exact (SetInputs_fields p v s).2.1
  | cons x xs ih =>
    intro v r
    obtain ⟨f1, f2⟩ := feedLayerP_weights exp v x r
    have hrec := ih ((feedLayerP exp v x r).1.map (fun neuron => neuron.Output))
      (feedLayerP exp v x r).2
    rw [List.length_map] at hrec
    exact ⟨f2, hrec⟩

theorem feedForwardP_fixed (exp : α → α) (n : Network α) (d : Data α) (r : RandSource α)
    (hne : n.layers ≠ []) :
    (feedForwardP exp n d r).1.layers ≠ [] ∧
      (feedForwardP exp n d r).1.Bound d.Variables.length ∧
      (feedForwardP exp n d r).1.layers
        = fedLayers exp d.Variables (feedForwardP exp n d r).1.layers ∧
      (feedForwardP exp n d r).1.prediction
        = fedNeuron exp (mlpHidden exp d.Variables (feedForwardP exp n d r).1.layers)
            (feedForwardP exp n d r).1.prediction := by
  have h0 : ¬ n.layers.length = 0 := fun hc => hne (List.length_eq_zero.mp hc)
  have hne1 : (feedForwardP exp n d r).1.layers ≠ [] := by
    intro hc
    have := congrArg List.length hc
    simp only [feedForwardP, h0, if_false, forwardP_length, List.length_nil] at this
  have hb : (feedForwardP exp n d r).1.Bound d.Variables.length := by
    simp only [feedForwardP, h0, if_false, Network.Bound]
    exact forwardP_boundFrom exp n.prediction _ n.layers d.Variables r
  have hidem := feedForwardP_idem exp n d r r
  rw [feedForwardP_bound exp _ d r hne1 hb] at hidem
  have h1 := congrArg (fun x : Network α × RandSource α => x.1.layers) hidem
  have h2 := congrArg (fun x : Network α × RandSource α => x.1.prediction) hidem
  exact ⟨hne1, hb, h1.symm, h2.symm⟩

theorem mlpHidden_append (exp : α → α) (v : List α) (init : List (List (Neuron α)))
    (last : List (Neuron α)) :
    mlpHidden exp v (init ++ [last]) = last.map (mlpNeuron exp (mlpHidden exp v init)) := by
  simp [mlpHidden, List.foldl_append]

theorem fedLayers_append (exp : α → α) (last : List (Neuron α)) :
    ∀ (init : List (List (Neuron α))) (v : List α),
      fedLayers exp v (init ++ [last])
        = fedLayers exp v init ++ [last.map (fedNeuron exp (mlpHidden exp v init))] := by
  intro init
  induction init with
  | nil => intro v; rfl
  | cons x xs ih =>
    intro v
    have h := ih (x.map (mlpNeuron exp v))
    rw [List.cons_append, mlpHidden_cons]
    simp only [fedLayers, h, List.cons_append]

theorem fedLayers_length (exp : α → α) :
    ∀ (layers : List (List (Neuron α))) (v : List α),
      (fedLayers exp v layers).length = layers.length := by
  intro layers
  induction layers with
  | nil => intro v; rfl
  | cons x xs ih => intro v; simp [fedLayers, ih]

theorem boundFrom_prediction {β : Type} (p q : Neuron β)
    (hq : q.Weights.length = p.Weights.length) :
    ∀ (layers : List (List (Neuron β))) (f : Nat), boundFrom f layers p → boundFrom f layers q := by
  intro layers
  induction layers with
  | nil => intro f h; exact hq.trans h
  | cons x xs ih => intro f h; exact ⟨h.1, ih x.length h.2⟩

theorem boundFrom_append {β : Type} (p : Neuron β) (last : List (Neuron β)) :
    ∀ (init : List (List (Neuron β))) (f : Nat), boundFrom f (init ++ [last]) p →
      (∀ m ∈ last, boundFrom f init m) ∧ p.Weights.length = last.length := by
  intro init
  induction init with
  | nil => intro f h; exact ⟨h.1, h.2⟩
  | cons x xs ih =>
    intro f h
    obtain ⟨i1, i2⟩ := ih x.length h.2
    exact ⟨fun m hm => ⟨h.1, i1 m hm⟩, i2⟩

theorem boundFrom_set_last {β : Type} (p : Neuron β) (last : List (Neuron β)) (j : Nat)
    (m q : Neuron β) (hm : last[j]? = some m) (hq : q.Weights.length = m.Weights.length) :
    ∀ (init : List (List (Neuron β))) (f : Nat), boundFrom f (init ++ [last]) p →
      boundFrom f (init ++ [last.set j q]) p := by
  intro init
  induction init with
  | nil =>
    intro f h
    refine ⟨?_, ?_⟩
    · intro x hx
      rcases List.mem_or_eq_of_mem_set hx with hx | rfl
      · exact h.1 x hx
      · rw [hq]
        exact h.1 m (List.getElem?_mem hm)
    · have h2 : p.Weights.length = last.length := h.2
      show p.Weights.length = (last.set j q).length
      rw [List.length_set]
      exact h2
  | cons x xs ih => intro f h; exact ⟨h.1, ih x.length h.2⟩

theorem predictValue_eq (exp : α → α) (n : Network α) (d : Data α) (h0 : n.layers ≠ [])
    (h : n.Bound d.Variables.length) :
    predictValue exp n d = mlpPredict exp d.Variables n := by
  unfold predictValue Predict
  rw [feedForward_eq, feedForwardP_bound exp n d _ h0 h]
  rfl

theorem mlpNeuron_hasDerivAt_weight (prev : List ℝ) (m : Neuron ℝ) (k : Nat) (v : ℝ)
    (hk : m.Weights[k]? = some v) (hx : k < prev.length) :
    HasDerivAt (fun t => mlpNeuron Real.exp prev (m.withWeight k t))
      (DerivedSigmoid (mlpNeuron Real.exp prev m) * prev[k]) v := by
  obtain ⟨hlt, -⟩ := List.getElem?_eq_some.mp hk
  have hin : HasDerivAt
      (fun t => m.Bias + (List.zipWith (fun w x => w * x) (m.Weights.set k t) prev).sum)
      prev[k] v :=
    (hasDerivAt_dot_set_left m.Weights prev k hlt hx v).const_add m.Bias
  have hself : m.Weights.set k v = m.Weights := set_eq_self _ _ _ hk
  have hout := hasDerivAt_Sigmoid
    (m.Bias + (List.zipWith (fun w x => w * x) (m.Weights.set k v) prev).sum)
  have hcomp := hout.comp v hin
  rw [hself] at hcomp
  exact hcomp

theorem mlpNeuron_hasDerivAt_bias (prev : List ℝ) (m : Neuron ℝ) :
    HasDerivAt (fun t => mlpNeuron Real.exp prev (m.withBias t))
      (DerivedSigmoid (mlpNeuron Real.exp prev m)) m.Bias := by
  have hin : HasDerivAt
      (fun t : ℝ => t + (List.zipWith (fun w x => w * x) m.Weights prev).sum) 1 m.Bias :=
    (hasDerivAt_id m.Bias).add_const _
  have hout := hasDerivAt_Sigmoid
    (m.Bias + (List.zipWith (fun w x => w * x) m.Weights prev).sum)
  have hcomp := hout.comp m.Bias hin
  rw [mul_one] at hcomp
  exact hcomp

theorem mlpNeuron_hasDerivAt_input (hs : List ℝ) (p : Neuron ℝ) (j : Nat) (u0 : ℝ)
    (hj : hs[j]? = some u0) (hw : j < p.Weights.length) :
    HasDerivAt (fun u => mlpNeuron Real.exp (hs.set j u) p)
      (DerivedSigmoid (mlpNeuron Real.exp hs p) * p.Weights[j]) u0 := by
  obtain ⟨hlt, -⟩ := List.getElem?_eq_some.mp hj
  have hin : HasDerivAt
      (fun u => p.Bias + (List.zipWith (fun w x => w * x) p.Weights (hs.set j u)).sum)
      p.Weights[j] u0 :=
    (hasDerivAt_dot_set_right p.Weights hs j hw hlt u0).const_add p.Bias
  have hself : hs.set j u0 = hs := set_eq_self _ _ _ hj
  have hout := hasDerivAt_Sigmoid
    (p.Bias + (List.zipWith (fun w x => w * x) p.Weights (hs.set j u0)).sum)
  have hcomp := hout.comp u0 hin
  rw [hself] at hcomp
  exact hcomp

theorem hasDerivAt_sqError (c : ℝ) (f : ℝ → ℝ) (f1 x : ℝ) (hf : HasDerivAt f f1 x) :
    HasDerivAt (fun t => (c - f t) ^ 2) (-2 * (c - f x) * f1) x := by
  have h := ((hasDerivAt_const x c).sub hf).pow 2
  have e : (2 : ℕ) * (c - f x) ^ (2 - 1) * (0 - f1) = -2 * (c - f x) * f1 := by
    norm_num
  rw [← e]
  exact h

theorem boundFrom_length (exp : α → α) (p : Neuron α) (layers : List (List (Neuron α)))
    (v : List α) (h : boundFrom v.length layers p) :
    p.Weights.length = (mlpHidden exp v layers).length :=
  (forwardP_bound exp p layers v (fun _ => 0) h).2

theorem updP_casdP_weight (m : Neuron α) (learnRate deltaY deltaOutput : α) (k : Nat)
    (v xk : α) (hv : m.Weights[k]? = some v) (hx : m.Inputs[k]? = some xk) :
    (updP (casdP m) learnRate deltaY deltaOutput).Weights[k]?
      = some (v - calculateAdjustmentForWeightOrBias m learnRate deltaY deltaOutput
          (xk * DerivedSigmoid m.Output)) := by
  show (List.zipWith _ (casdP m).Weights (casdP m).DerivativeWeights)[k]? = _
  rw [List.getElem?_zipWith_eq_some]
  exact ⟨v, xk * DerivedSigmoid m.Output, hv, by simp [casdP, hx], rfl⟩

theorem sampleError_prediction (exp : α → α) (d : Data α) (n : Network α) (q : Neuron α)
    (h0 : n.layers ≠ []) (h : n.Bound d.Variables.length)
    (hq : q.Weights.length = n.prediction.Weights.length) :
    sampleError exp d { n with prediction := q }
      = (d.Output - mlpNeuron exp (mlpHidden exp d.Variables n.layers) q) ^ 2 := by
  have hb : ({ n with prediction := q } : Network α).Bound d.Variables.length :=
    boundFrom_prediction n.prediction q hq _ _ h
  unfold sampleError
  rw [predictValue_eq exp { n with prediction := q } d h0 hb]
  rfl

theorem withLastNeuron_layers {β : Type} (n : Network β) (init : List (List (Neuron β)))
    (last : List (Neuron β)) (j : Nat) (q : Neuron β) (hl : n.layers = init ++ [last]) :
    (n.withLastNeuron j q).layers = init ++ [last.set j q] := by
  have hlen : n.layers.length - 1 = init.length := by
    rw [hl]; simp
  simp only [Network.withLastNeuron, hlen]
  rw [hl, List.getElem?_append_right (Nat.le_refl _), Nat.sub_self,
    List.set_append_right _ _ (Nat.le_refl _), Nat.sub_self]
  rfl

theorem sampleError_lastNeuron (exp : α → α) (d : Data α) (n : Network α)
    (init : List (List (Neuron α))) (last : List (Neuron α)) (j : Nat) (m q : Neuron α)
    (hl : n.layers = init ++ [last]) (h : n.Bound d.Variables.length)
    (hm : last[j]? = some m) (hq : q.Weights.length = m.Weights.length) :
    sampleError exp d (n.withLastNeuron j q)
      = (d.Output
          - mlpNeuron exp
              ((mlpHidden exp d.Variables n.layers).set j
                (mlpNeuron exp (mlpHidden exp d.Variables init) q))
              n.prediction) ^ 2 := by
  have hlay := withLastNeuron_layers n init last j q hl
  have hne : (n.withLastNeuron j q).layers ≠ [] := by
    rw [hlay]; simp
  have hb : (n.withLastNeuron j q).Bound d.Variables.length := by
    unfold Network.Bound
    rw [hlay]
    have h1 : boundFrom d.Variables.length (init ++ [last]) n.prediction := by
      have := h
      unfold Network.Bound at this
      rwa [hl] at this
    exact boundFrom_set_last n.prediction last j m q hm hq init _ h1
  unfold sampleError
  rw [predictValue_eq exp _ d hne hb]
  unfold mlpPredict
  rw [hlay, hl, mlpHidden_append, mlpHidden_append, List.map_set]
  rfl

theorem withWeight_self {β : Type} (m : Neuron β) (k : Nat) (v : β)
    (h : m.Weights[k]? = some v) : m.withWeight k v = m := by
  unfold Neuron.withWeight
  rw [set_eq_self _ _ _ h]

theorem lastLayer_facts (exp : α → α) (nf : Network α) (v : List α)
    (init : List (List (Neuron α))) (last : List (Neuron α))
    (hl : nf.layers = init ++ [last])
    (hlay : nf.layers = fedLayers exp v nf.layers)
    (hb : boundFrom v.length nf.layers nf.prediction)
    (j : Nat) (m : Neuron α) (hm : last[j]? = some m) :
    m.Inputs = mlpHidden exp v init ∧
      m.Output = mlpNeuron exp (mlpHidden exp v init) m ∧
      m.Weights.length = (mlpHidden exp v init).length ∧
      nf.prediction.Weights.length = last.length ∧
      (mlpHidden exp v nf.layers)[j]? = some (mlpNeuron exp (mlpHidden exp v init) m) := by
  rw [hl] at hb
  obtain ⟨b1, b2⟩ := boundFrom_append nf.prediction last init _ hb
  have hfix : last = last.map (fedNeuron exp (mlpHidden exp v init)) := by
    have h1 : init ++ [last]
        = fedLayers exp v init ++ [last.map (fedNeuron exp (mlpHidden exp v init))] := by
      rw [← fedLayers_append, ← hl]
      exact hlay
    have h2 := List.append_inj_right' h1 rfl
    simpa using h2
  have hmfix : m = fedNeuron exp (mlpHidden exp v init) m := by
    have h3 := hm
    rw [hfix, List.getElem?_map, hm] at h3
    simpa using h3.symm
  refine ⟨?_, ?_, boundFrom_length exp m init v (b1 m (List.getElem?_mem hm)), b2, ?_⟩
  · exact (congrArg (fun q : Neuron α => q.Inputs) hmfix).trans rfl
  · have h4 := congrArg (fun q : Neuron α => q.Output) hmfix
    simp only at h4
    rw [h4]
    rfl
  · rw [hl, mlpHidden_append, List.getElem?_map, hm]
    rfl

theorem gradient_prediction (n : Network ℝ) (w : Nat) (d : Data ℝ) (r : RandSource ℝ)
    (hwf : n.WellFormed w) (hne : n.layers ≠ []) :
    (∀ (j : Nat) (v : ℝ), (feedForwardP Real.exp n d r).1.prediction.Weights[j]? = some v →
        ∃ g : ℝ,
          HasDerivAt
            (fun t => sampleError Real.exp d
              { (feedForwardP Real.exp n d r).1 with
                prediction := (feedForwardP Real.exp n d r).1.prediction.withWeight j t })
            g v ∧
          (adjustP (backP (feedForwardP Real.exp n d r).1) d).prediction.Weights[j]?
            = some (v - n.learnRate * g)) ∧
      ∃ g : ℝ,
        HasDerivAt
          (fun t => sampleError Real.exp d
            { (feedForwardP Real.exp n d r).1 with
              prediction := (feedForwardP Real.exp n d r).1.prediction.withBias t })
          g (feedForwardP Real.exp n d r).1.prediction.Bias ∧
        (adjustP (backP (feedForwardP Real.exp n d r).1) d).prediction.Bias
          = (feedForwardP Real.exp n d r).1.prediction.Bias - n.learnRate * g := by
  obtain ⟨hne1, hb, -, hpred⟩ := feedForwardP_fixed Real.exp n d r hne
  have hf := feedForwardP_fed Real.exp n d r w hwf
  have hlr : (feedForwardP Real.exp n d r).1.learnRate = n.learnRate :=
    feedForwardP_frame Real.exp n d r
  generalize (feedForwardP Real.exp n d r).1 = nf at hne1 hb hpred hf hlr
  have hflag : nf.prediction.IsOutput = true := hf.1.2.2
  have hIn : nf.prediction.Inputs = mlpHidden Real.exp d.Variables nf.layers :=
    (congrArg (fun q : Neuron ℝ => q.Inputs) hpred).trans rfl
  have hOut : nf.prediction.Output
      = mlpNeuron Real.exp (mlpHidden Real.exp d.Variables nf.layers) nf.prediction := by
    have h4 := congrArg (fun q : Neuron ℝ => q.Output) hpred
    simp only at h4
    rw [h4]
    rfl
  have hlen : nf.prediction.Weights.length
      = (mlpHidden Real.exp d.Variables nf.layers).length :=
    boundFrom_length Real.exp _ _ _ hb
  refine ⟨?_, ?_⟩
  · intro j v hv
    obtain ⟨hjw, -⟩ := List.getElem?_eq_some.mp hv
    have hjh : j < (mlpHidden Real.exp d.Variables nf.layers).length := by
      rw [← hlen]; exact hjw
    have hfun : (fun t => sampleError Real.exp d
          { nf with prediction := nf.prediction.withWeight j t })
        = fun t => (d.Output
            - mlpNeuron Real.exp (mlpHidden Real.exp d.Variables nf.layers)
                (nf.prediction.withWeight j t)) ^ 2 := by
      funext t
      exact sampleError_prediction Real.exp d nf _ hne1 hb (by simp [Neuron.withWeight])
    have hder := hasDerivAt_sqError d.Output _ _ v
      (mlpNeuron_hasDerivAt_weight (mlpHidden Real.exp d.Variables nf.layers) nf.prediction
        j v hv hjh)
    rw [withWeight_self _ _ _ hv] at hder
    refine ⟨_, by rw [hfun]; exact hder, ?_⟩
    have hx : nf.prediction.Inputs[j]?
        = some (mlpHidden Real.exp d.Variables nf.layers)[j] := by
      rw [hIn]
      exact List.getElem?_eq_getElem hjh
    have hcode := updP_casdP_weight nf.prediction nf.learnRate
      (deltaY (backP nf) d) 0 j v _ hv hx
    rw [calculateAdjustment_output _ _ _ _ _ hflag] at hcode
    have hval : (adjustP (backP nf) d).prediction.Weights[j]?
        = some (v - nf.learnRate * deltaY (backP nf) d
            * ((mlpHidden Real.exp d.Variables nf.layers)[j]
                * DerivedSigmoid nf.prediction.Output)) := hcode
    rw [hval, hlr, ← hOut]
    have hdY : deltaY (backP nf) d = -2 * (d.Output - nf.prediction.Output) := rfl
    rw [hdY]
    congr 1
    ring
  · have hfun : (fun t => sampleError Real.exp d
          { nf with prediction := nf.prediction.withBias t })
        = fun t => (d.Output
            - mlpNeuron Real.exp (mlpHidden Real.exp d.Variables nf.layers)
                (nf.prediction.withBias t)) ^ 2 := by
      funext t
      exact sampleError_prediction Real.exp d nf _ hne1 hb rfl
    have hder := hasDerivAt_sqError d.Output _ _ nf.prediction.Bias
      (mlpNeuron_hasDerivAt_bias (mlpHidden Real.exp d.Variables nf.layers) nf.prediction)
    have hself : nf.prediction.withBias nf.prediction.Bias = nf.prediction := rfl
    rw [hself] at hder
    refine ⟨_, by rw [hfun]; exact hder, ?_⟩
    have hval : (adjustP (backP nf) d).prediction.Bias
        = nf.prediction.Bias
          - calculateAdjustmentForWeightOrBias nf.prediction nf.learnRate
              (deltaY (backP nf) d) 0 (DerivedSigmoid nf.prediction.Output) := rfl
    rw [hval, calculateAdjustment_output _ _ _ _ _ hflag, hlr, ← hOut]
    have hdY : deltaY (backP nf) d = -2 * (d.Output - nf.prediction.Output) := rfl
    rw [hdY]
    ring

theorem gradient_lastLayer (n : Network ℝ) (w : Nat) (d : Data ℝ) (r : RandSource ℝ)
    (hwf : n.WellFormed w) (hne : n.layers ≠ [])
    (last : List (Neuron ℝ)) (j : Nat) (m : Neuron ℝ)
    (hlast : (feedForwardP Real.exp n d r).1.layers[
      (feedForwardP Real.exp n d r).1.layers.length - 1]? = some last)
    (hm : last[j]? = some m) :
    ∃ (last1 : List (Neuron ℝ)) (m1 : Neuron ℝ),
      (adjustP (backP (feedForwardP Real.exp n d r).1) d).layers[
        (feedForwardP Real.exp n d r).1.layers.length - 1]? = some last1 ∧
      last1[j]? = some m1 ∧
      (∀ (k : Nat) (v : ℝ), m.Weights[k]? = some v →
        ∃ g : ℝ,
          HasDerivAt
            (fun t => sampleError Real.exp d
              ((feedForwardP Real.exp n d r).1.withLastNeuron j (m.withWeight k t)))
            g v ∧
          m1.Weights[k]? = some (v - n.learnRate * g)) ∧
      ∃ g : ℝ,
        HasDerivAt
          (fun t => sampleError Real.exp d
            ((feedForwardP Real.exp n d r).1.withLastNeuron j (m.withBias t)))
          g m.Bias ∧
        m1.Bias = m.Bias - n.learnRate * g := by
  obtain ⟨hne1, hb, hlay, hpred⟩ := feedForwardP_fixed Real.exp n d r hne
  have hf := feedForwardP_fed Real.exp n d r w hwf
  have hlr : (feedForwardP Real.exp n d r).1.learnRate = n.learnRate :=
    feedForwardP_frame Real.exp n d r
  generalize (feedForwardP Real.exp n d r).1 = nf at hne1 hb hlay hpred hf hlr hlast
  obtain ⟨init, last0, hl0⟩ : ∃ init last0, nf.layers = init ++ [last0] := by
    rcases List.eq_nil_or_concat nf.layers with h | ⟨init, last0, h⟩
    · exact absurd h hne1
    · exact ⟨init, last0, by rw [h, List.concat_eq_append]⟩
  have hidx : nf.layers.length - 1 = init.length := by
    rw [hl0]; simp
  have hlast0 : last = last0 := by
    rw [hidx, hl0, List.getElem?_append_right (Nat.le_refl _), Nat.sub_self] at hlast
    simpa using hlast.symm
  subst hlast0
  obtain ⟨fIn, fOut, fW, fP, fH⟩ :=
    lastLayer_facts Real.exp nf d.Variables init last hl0 hlay hb j m hm
  have hOut : nf.prediction.Output
      = mlpNeuron Real.exp (mlpHidden Real.exp d.Variables nf.layers) nf.prediction := by
    have h4 := congrArg (fun q : Neuron ℝ => q.Output) hpred
    simp only at h4
    rw [h4]
    rfl
  obtain ⟨hjl, -⟩ := List.getElem?_eq_some.mp hm
  have hjw : j < nf.prediction.Weights.length := by
    rw [fP]; exact hjl
  have hflag : m.IsOutput = false :=
    ((hf.1.1 last (by rw [hl0]; simp)).2 m (List.getElem?_mem hm)).2
  have hbl : (backP nf).layers[nf.layers.length - 1]? = some (last.map casdP) := by
    rw [hidx]
    simp only [backP, hl0, List.map_append, List.map_cons, List.map_nil]
    rw [List.getElem?_append_right (by simp), List.length_map, Nat.sub_self]
    rfl
  have hbm : (last.map casdP)[j]? = some (casdP m) := by
    rw [List.getElem?_map, hm]
    rfl
  obtain ⟨l1, g1, -, g3⟩ := adjustP_getElem? (backP nf) d _ j _ _ hbl hbm
  have hD : chainFactor (backP nf) (nf.layers.length - 1) j
      = nf.prediction.Weights[j] * DerivedSigmoid nf.prediction.Output := by
    have hlen : (backP nf).layers.length = nf.layers.length := by
      simp [backP]
    unfold chainFactor
    rw [hlen, if_pos rfl]
    simp [backP, casdP, List.getElem?_eq_getElem hjw]
  have hdY : deltaY (backP nf) d = -2 * (d.Output - nf.prediction.Output) := rfl
  have hlrb : (backP nf).learnRate = n.learnRate := hlr
  refine ⟨l1, _, g1, g3, ?_, ?_⟩
  · intro k v hv
    obtain ⟨hkw, -⟩ := List.getElem?_eq_some.mp hv
    have hkx : k < (mlpHidden Real.exp d.Variables init).length := by
      rw [← fW]; exact hkw
    have hfun : (fun t => sampleError Real.exp d (nf.withLastNeuron j (m.withWeight k t)))
        = fun t => (d.Output
            - mlpNeuron Real.exp
                ((mlpHidden Real.exp d.Variables nf.layers).set j
                  (mlpNeuron Real.exp (mlpHidden Real.exp d.Variables init)
                    (m.withWeight k t)))
                nf.prediction) ^ 2 := by
      funext t
      exact sampleError_lastNeuron Real.exp d nf init last j m _ hl0 hb hm
        (by simp [Neuron.withWeight])
    have hu := mlpNeuron_hasDerivAt_weight (mlpHidden Real.exp d.Variables init) m k v hv hkx
    have hF := mlpNeuron_hasDerivAt_input (mlpHidden Real.exp d.Variables nf.layers)
      nf.prediction j _ fH hjw
    have hpt : mlpNeuron Real.exp (mlpHidden Real.exp d.Variables init) (m.withWeight k v)
        = mlpNeuron Real.exp (mlpHidden Real.exp d.Variables init) m := by
      rw [withWeight_self _ _ _ hv]
    rw [← hpt] at hF
    have hcomp := HasDerivAt.comp v hF hu
    have hder := hasDerivAt_sqError d.Output _ _ v hcomp
    simp only [Function.comp_apply, hpt, set_eq_self _ _ _ fH] at hder
    refine ⟨_, by rw [hfun]; exact hder, ?_⟩
    have hx : m.Inputs[k]? = some (mlpHidden Real.exp d.Variables init)[k] := by
      rw [fIn]
      exact List.getElem?_eq_getElem hkx
    have hcode := updP_casdP_weight m (backP nf).learnRate (deltaY (backP nf) d)
      (chainFactor (backP nf) (nf.layers.length - 1) j) k v _ hv hx
    rw [calculateAdjustment_hidden _ _ _ _ _ hflag] at hcode
    rw [hcode, hD, hdY, hlrb, ← hOut, ← fOut]
    congr 1
    ring
  · have hfun : (fun t => sampleError Real.exp d (nf.withLastNeuron j (m.withBias t)))
        = fun t => (d.Output
            - mlpNeuron Real.exp
                ((mlpHidden Real.exp d.Variables nf.layers).set j
                  (mlpNeuron Real.exp (mlpHidden Real.exp d.Variables init) (m.withBias t)))
                nf.prediction) ^ 2 := by
      funext t
      exact sampleError_lastNeuron Real.exp d nf init last j m _ hl0 hb hm rfl
    have hu := mlpNeuron_hasDerivAt_bias (mlpHidden Real.exp d.Variables init) m
    have hF := mlpNeuron_hasDerivAt_input (mlpHidden Real.exp d.Variables nf.layers)
      nf.prediction j _ fH hjw
    have hpt : mlpNeuron Real.exp (mlpHidden Real.exp d.Variables init) (m.withBias m.Bias)
        = mlpNeuron Real.exp (mlpHidden Real.exp d.Variables init) m := rfl
    rw [← hpt] at hF
    have hcomp := HasDerivAt.comp m.Bias hF hu
    have hder := hasDerivAt_sqError d.Output _ _ m.Bias hcomp
    simp only [Function.comp_apply, hpt, set_eq_self _ _ _ fH] at hder
    refine ⟨_, by rw [hfun]; exact hder, ?_⟩
    have hval : (updP (casdP m) (backP nf).learnRate (deltaY (backP nf) d)
          (chainFactor (backP nf) (nf.layers.length - 1) j)).Bias
        = m.Bias - calculateAdjustmentForWeightOrBias m (backP nf).learnRate
            (deltaY (backP nf) d) (chainFactor (backP nf) (nf.layers.length - 1) j)
            (DerivedSigmoid m.Output) := rfl
    rw [hval, calculateAdjustment_hidden _ _ _ _ _ hflag, hD, hdY, hlrb, ← hOut, ← fOut]
    ring

/-- C18: over the reals, on a well-formed network with at least one hidden
layer, one training step is an exact gradient-descent step for the output
neuron and for the last hidden layer. With `nf` the network after the forward
pass (its parameters are the pre-update parameters) and
`E = (label - Predict(features))^2` as a function of the network, every weight
and the bias `theta` of the output neuron and of every neuron of the last hidden
layer is replaced by `theta - learnRate * g`, where `g` is the derivative of `E`
with respect to that parameter at its pre-update value. -/
theorem singleEpoch_gradient_step (n : Network ℝ) (w : Nat) (d : Data ℝ) (r : RandSource ℝ)
    (hwf : n.WellFormed w) (hne : n.layers ≠ []) :
    ∃ (nf n1 : Network ℝ) (r1 : RandSource ℝ),
      feedForward Real.exp n d r = some (nf.prediction.Output, nf, r1) ∧
      singleEpoch Real.exp n d r = some (n1, r1) ∧
      (∀ (j : Nat) (v : ℝ), nf.prediction.Weights[j]? = some v →
        ∃ g : ℝ,
          HasDerivAt
            (fun t => sampleError Real.exp d
              { nf with prediction := nf.prediction.withWeight j t })
            g v ∧
          n1.prediction.Weights[j]? = some (v - n.learnRate * g)) ∧
      (∃ g : ℝ,
        HasDerivAt
          (fun t => sampleError Real.exp d { nf with prediction := nf.prediction.withBias t })
          g nf.prediction.Bias ∧
        n1.prediction.Bias = nf.prediction.Bias - n.learnRate * g) ∧
      ∀ (last : List (Neuron ℝ)) (j : Nat) (m : Neuron ℝ),
        nf.layers[nf.layers.length - 1]? = some last → last[j]? = some m →
        ∃ (last1 : List (Neuron ℝ)) (m1 : Neuron ℝ),
          n1.layers[nf.layers.length - 1]? = some last1 ∧
          last1[j]? = some m1 ∧
          (∀ (k : Nat) (v : ℝ), m.Weights[k]? = some v →
            ∃ g : ℝ,
              HasDerivAt
                (fun t => sampleError Real.exp d (nf.withLastNeuron j (m.withWeight k t)))
                g v ∧
              m1.Weights[k]? = some (v - n.learnRate * g)) ∧
          ∃ g : ℝ,
            HasDerivAt
              (fun t => sampleError Real.exp d (nf.withLastNeuron j (m.withBias t)))
              g m.Bias ∧
            m1.Bias = m.Bias - n.learnRate * g :=
  ⟨(feedForwardP Real.exp n d r).1, adjustP (backP (feedForwardP Real.exp n d r).1) d,
    (feedForwardP Real.exp n d r).2, feedForward_eq Real.exp n d r,
    (singleEpoch_eq Real.exp n d r w hwf).1,
    (gradient_prediction n w d r hwf hne).1,
    (gradient_prediction n w d r hwf hne).2,
    fun last j m h1 h2 => gradient_lastLayer n w d r hwf hne last j m h1 h2⟩

/-- Witness of C18: the network NewNetwork builds with Depth 1, NeuronPerLayer 1
and LearningRate 0.1, and the first sample of the test: the bias of the output
neuron makes a gradient step. -/
theorem singleEpoch_gradient_step_witness :
    ∃ (nf n1 : Network ℝ) (r1 : RandSource ℝ),
      singleEpoch Real.exp (NewNetwork ⟨1, 1, 1 / 10⟩ (fun _ => 1 / 2)).1 ⟨[-2, -1], 1⟩
          (fun _ => 1 / 2) = some (n1, r1) ∧
      ∃ g : ℝ,
        HasDerivAt
          (fun t => sampleError Real.exp ⟨[-2, -1], 1⟩
            { nf with prediction := nf.prediction.withBias t })
          g nf.prediction.Bias ∧
        n1.prediction.Bias
          = nf.prediction.Bias
            - (NewNetwork ⟨1, 1, 1 / 10⟩ (fun _ => (1 / 2 : ℝ))).1.learnRate * g := by
  have hwf := (NewNetwork_layers (⟨1, 1, 1 / 10⟩ : NewNetworkInput ℝ) (fun _ => 1 / 2)).2.1
  have hne : (NewNetwork (⟨1, 1, 1 / 10⟩ : NewNetworkInput ℝ) (fun _ => 1 / 2)).1.layers ≠ [] := by
    intro hc
    have hlen := (NewNetwork_layers (⟨1, 1, 1 / 10⟩ : NewNetworkInput ℝ) (fun _ => 1 / 2)).1
    rw [hc] at hlen
    simp at hlen
  obtain ⟨nf, n1, r1, -, h2, -, h4, -⟩ := singleEpoch_gradient_step
    (NewNetwork ⟨1, 1, 1 / 10⟩ (fun _ => 1 / 2)).1 _ ⟨[-2, -1], 1⟩ (fun _ => 1 / 2) hwf hne
  exact ⟨nf, n1, r1, h2, h4⟩

end basicnn
